import Mathlib

/-!
# communication.c: descriptor registry and record channel

A shallow embedding of `src/communication.c`.  The file-scope variable
`CMInternalData`, `errno`, and the state of the XDR record streams together
form the process state; every exported C function becomes a function from a
process state (and its arguments) to an `Outcome`.

* `unsigned int` values are natural numbers, with `% 2^32` where the C code can
  wrap; `int` values are integers; a function pointer (`xdrproc_t`) is a
  natural number with `0` for `NULL`; a `void *message` is an `Option`.
* An array access outside the allocated table is undefined behaviour and is
  reported as `Outcome.undefined`.
* `pthread_mutex_lock` on the already held registry mutex does not return and
  is reported as `Outcome.blocked`.
* The XDR library (`xdrrec_create`, `xdr_destroy`, `xdrrec_endofrecord`,
  `xdrrec_skiprecord`) and the caller supplied converter are external; they are
  a parameter `XdrLib` acting on an abstract world, and every call to them is
  appended to a trace.
-/

namespace Communication

/-! ## Constants -/

/-- Largest `unsigned int`. -/
def UINT_MAX : Nat := 4294967295

/-- Largest `int`. -/
def INT_MAX : Int := 2147483647

/-- Smallest `int`. -/
def INT_MIN : Int := -2147483648

/-- Value of `EINVAL` in `errno.h`. -/
def EINVAL : Int := 22

/-- Value of `ENOMEM` in `errno.h`. -/
def ENOMEM : Int := 12

/-- Conversion `(unsigned int)x` of an `int`. -/
def toUnsigned (x : Int) : Nat := (x % 4294967296).toNat

/-- Conversion `(int)x` of an `unsigned int`. -/
def toSigned (x : Nat) : Int :=
  if x % 4294967296 < 2147483648 then ((x % 4294967296 : Nat) : Int)
  else ((x % 4294967296 : Nat) : Int) - 4294967296

/-- A value that fits the C type `int`. -/
def IsInt (x : Int) : Prop := INT_MIN ≤ x ∧ x ≤ INT_MAX

instance (x : Int) : Decidable (IsInt x) := by unfold IsInt; infer_instance

/-! ## Data model -/

/-- The field `x_op` of an `XDR` handle (`enum xdr_op`). -/
inductive xdr_op where
  | XDR_ENCODE
  | XDR_DECODE
  | XDR_FREE
  deriving DecidableEq, Repr

/-- The struct `_communicationDescriptionContext`.  Of the embedded `XDR xdrs`
only the direction `x_op` is kept here, the buffers of the record stream live
in the world; the `digest` scratch buffer is never read or written by the
registry or the send/receive path and is left out. -/
structure CMCommunicationDescriptionContext where
  socket : Int
  communicationDescriptor : Int
  converterf : Nat
  x_op : xdr_op
  deriving DecidableEq, Repr

/-- The struct `_communicationInternalData`: the table pointer (`none` is
`NULL`), the capacity, and the mutex (`true` when held). -/
structure CMCommunicationInternalData where
  CMCommunicationContexts : Option (List CMCommunicationDescriptionContext)
  capacity : Nat
  mutex : Bool
  deriving DecidableEq, Repr

/-- A call into the XDR library or into a converter, as recorded in the trace. -/
inductive XdrEvent where
  | create (slot : Nat)
  | destroy (slot : Nat)
  | convert (converterf : Nat) (op : xdr_op) (slot : Nat)
  | endofrecord (slot : Nat)
  | skiprecord (slot : Nat)
  deriving DecidableEq, Repr

/-- The external collaborators: the XDR record stream library and the
converters, acting on a world `ω` (sockets and stream buffers) and on messages
of type `μ`.  Every operation receives the slot the stream belongs to, the
socket stored in that slot at the time of the call (`xdr_destroy` excepted),
and the current `errno`, which it may change together with the world. -/
structure XdrLib (ω μ : Type) where
  xdrrec_create : Nat → Int → Int → ω → Int × ω
  xdr_destroy : Nat → Int → ω → Int × ω
  converter : Nat → xdr_op → Nat → Int → μ → Int → ω → Bool × μ × Int × ω
  xdrrec_endofrecord : Nat → Int → Int → ω → Bool × Int × ω
  xdrrec_skiprecord : Nat → Int → Int → ω → Bool × Int × ω

/-- The state of the process as seen by the module. -/
structure Process (ω : Type) where
  CMInternalData : CMCommunicationInternalData
  errno : Int
  world : ω
  trace : List XdrEvent

/-- The result of `calloc`/`realloc` for one call, and the contents of memory
that `realloc` hands out uninitialised.  A `realloc` that fails leaves the old
table as it is. -/
structure Heap where
  callocOk : Bool
  reallocOk : Bool
  junk : CMCommunicationDescriptionContext
  deriving DecidableEq, Repr

/-- How a call ends. -/
inductive Outcome (α : Type) where
  | returns (a : α)
  | blocked
  | undefined

/-- The static initialiser `{ NULL, 0, PTHREAD_MUTEX_INITIALIZER }`. -/
def CMInternalData0 : CMCommunicationInternalData :=
  { CMCommunicationContexts := none, capacity := 0, mutex := false }

/-- The process before the first call, with `errno` and the world given. -/
def Process.initial {ω : Type} (e : Int) (w : ω) : Process ω :=
  { CMInternalData := CMInternalData0, errno := e, world := w, trace := [] }

/-- A context as `calloc` delivers it: all bytes zero. -/
def zeroContext : CMCommunicationDescriptionContext :=
  { socket := 0, communicationDescriptor := 0, converterf := 0, x_op := xdr_op.XDR_ENCODE }

/-- The element `communicationContexts[i]` for an `int` index; `none` when the
pointer is `NULL` or the index is outside the allocated table. -/
def contextAt (t : Option (List CMCommunicationDescriptionContext)) (i : Int) :
    Option CMCommunicationDescriptionContext :=
  match t with
  | none => none
  | some l => if i < 0 then none else l[i.toNat]?

/-- The loop `for (i=0; i<capacity; i++) if (contexts[i].socket == -1) { index = i; break; }`
from iteration `i` with `n` iterations left; `none` when the loop reads outside
the table, otherwise the final value of `index` (initially `-1U`). -/
def firstFree (l : List CMCommunicationDescriptionContext) : Nat → Nat → Option Nat
  | 0, _ => some UINT_MAX
  | n + 1, i =>
    match l[i]? with
    | none => none
    | some c => if c.socket = -1 then some i else firstFree l n (i + 1)

/-- The loop `for (i=0; i<capacity; i++) if (contexts[i].socket != -1) break;`
from iteration `i` with `n` iterations left; `none` when the loop reads outside
the table, otherwise the final value of `i`. -/
def firstUsed (l : List CMCommunicationDescriptionContext) : Nat → Nat → Option Nat
  | 0, i => some i
  | n + 1, i =>
    match l[i]? with
    | none => none
    | some c => if c.socket ≠ -1 then some i else firstUsed l n (i + 1)

/-- The loop `for (i=lo; i<hi; contexts[i].socket = -1, i++);` over a table. -/
def markFree (l : List CMCommunicationDescriptionContext) (lo hi : Nat) :
    List CMCommunicationDescriptionContext :=
  l.enum.map fun (ic : Nat × CMCommunicationDescriptionContext) =>
    if lo ≤ ic.1 ∧ ic.1 < hi then { ic.2 with socket := -1 } else ic.2

/-- The block `realloc` returns for `n` elements: the old elements that fit,
followed by uninitialised ones. -/
def reallocTable (l : List CMCommunicationDescriptionContext) (n : Nat)
    (junk : CMCommunicationDescriptionContext) : List CMCommunicationDescriptionContext :=
  l.take n ++ List.replicate (n - l.length) junk

/-! ## Register -/

/-- Lines 79-88 of `communication.c`: the table and capacity after the lazy
allocation; `none` when `calloc` fails. -/
def initialTable (heap : Heap) (d : CMCommunicationInternalData) :
    Option (List CMCommunicationDescriptionContext × Nat) :=
  match d.CMCommunicationContexts with
  | some l => some (l, d.capacity)
  | none =>
    if heap.callocOk then some (markFree (List.replicate 16 zeroContext) 0 16, 16)
    else none

/-- Lines 95-104 of `communication.c`: the table and capacity after the growth
block; `none` when the block returns `-1` with `ENOMEM`.  When the doubled
capacity wraps to zero the block asks `realloc` for zero bytes, whose effect
on the old table the C standard leaves open; that case is reported as
undefined. -/
def growTable (heap : Heap) (l : List CMCommunicationDescriptionContext) (cap index : Nat) :
    Outcome (Option (List CMCommunicationDescriptionContext × Nat)) :=
  if index ≥ cap then
    if UINT_MAX - cap ≥ cap then Outcome.returns none
    else if (cap <<< 1) % 4294967296 = 0 then Outcome.undefined
    else if heap.reallocOk then
      Outcome.returns
        (some (markFree (reallocTable l ((cap <<< 1) % 4294967296) heap.junk) cap
                ((cap <<< 1) % 4294967296), (cap <<< 1) % 4294967296))
    else Outcome.returns none
  else Outcome.returns (some (l, cap))

/-- The function `CMInitCommunicationWithSocketAndConverter`. -/
def CMInitCommunicationWithSocketAndConverter {ω μ : Type} (lib : XdrLib ω μ) (heap : Heap)
    (p : Process ω) (socket : Int) (converterf : Nat) : Outcome (Int × Process ω) :=
  if socket < 0 ∨ converterf = 0 then Outcome.returns (-1, { p with errno := EINVAL })
  else if p.CMInternalData.mutex then Outcome.blocked
  else
    match initialTable heap p.CMInternalData with
    | none => Outcome.returns (-1, { p with errno := ENOMEM })
    | some (l, cap) =>
      match firstFree l cap 0 with
      | none => Outcome.undefined
      | some index =>
        match growTable heap l cap index with
        | Outcome.blocked => Outcome.undefined
        | Outcome.undefined => Outcome.undefined
        | Outcome.returns none =>
          Outcome.returns (-1,
            { p with
              CMInternalData :=
                { CMCommunicationContexts := some l, capacity := cap, mutex := false }
              errno := ENOMEM })
        | Outcome.returns (some (l2, cap2)) =>
          match l2[index]? with
          | none => Outcome.undefined
          | some context =>
            Outcome.returns (toSigned index,
              { CMInternalData :=
                  { CMCommunicationContexts :=
                      some (l2.set index
                        { context with
                          socket := socket
                          converterf := converterf
                          communicationDescriptor := toSigned index })
                    capacity := cap2
                    mutex := false }
                errno := (lib.xdrrec_create index socket p.errno p.world).1
                world := (lib.xdrrec_create index socket p.errno p.world).2
                trace := p.trace ++ [XdrEvent.create index] })

/-! ## Release -/

/-- The function `CMFinishCommunicationWithCommunicationDescriptor`. -/
def CMFinishCommunicationWithCommunicationDescriptor {ω μ : Type} (lib : XdrLib ω μ)
    (p : Process ω) (communicationDescriptor : Int) : Outcome (Process ω) :=
  if p.CMInternalData.capacity < UINT_MAX ∧
      toUnsigned communicationDescriptor ≥ p.CMInternalData.capacity then
    Outcome.returns { p with errno := EINVAL }
  else if p.CMInternalData.mutex then Outcome.blocked
  else
    match p.CMInternalData.CMCommunicationContexts with
    | none => Outcome.undefined
    | some l =>
      match contextAt (some l) communicationDescriptor with
      | none => Outcome.undefined
      | some context =>
        if context.communicationDescriptor ≠ communicationDescriptor then
          Outcome.returns { p with CMInternalData := { p.CMInternalData with mutex := true } }
        else
          match firstUsed
              (l.set communicationDescriptor.toNat
                { context with socket := -1, communicationDescriptor := -1 })
              p.CMInternalData.capacity 0 with
          | none => Outcome.undefined
          | some i =>
            Outcome.returns
              { CMInternalData :=
                  if i ≥ p.CMInternalData.capacity then
                    { CMCommunicationContexts := none, capacity := 0, mutex := false }
                  else
                    { CMCommunicationContexts :=
                        some (l.set communicationDescriptor.toNat
                          { context with socket := -1, communicationDescriptor := -1 })
                      capacity := p.CMInternalData.capacity
                      mutex := false }
                errno := (lib.xdr_destroy communicationDescriptor.toNat p.errno p.world).1
                world := (lib.xdr_destroy communicationDescriptor.toNat p.errno p.world).2
                trace := p.trace ++ [XdrEvent.destroy communicationDescriptor.toNat] }

/-! ## Send and Receive -/

/-- The function `CMSendMessage`.  The result carries the return value and the
message as the converter left it. -/
def CMSendMessage {ω μ : Type} (lib : XdrLib ω μ) (p : Process ω)
    (communicationDescriptor : Int) (message : Option μ) :
    Outcome (Int × Option μ × Process ω) :=
  match message with
  | none => Outcome.returns (-1, none, { p with errno := EINVAL })
  | some m =>
    if p.CMInternalData.capacity < UINT_MAX ∧
        toUnsigned communicationDescriptor ≥ p.CMInternalData.capacity then
      Outcome.returns (-1, some m, { p with errno := EINVAL })
    else
      match p.CMInternalData.CMCommunicationContexts with
      | none => Outcome.undefined
      | some l =>
        match contextAt (some l) communicationDescriptor with
        | none => Outcome.undefined
        | some context =>
          if context.communicationDescriptor ≠ communicationDescriptor then
            Outcome.returns (-1, some m, { p with errno := EINVAL })
          else if context.socket = -1 then
            Outcome.returns (-1, some m, { p with errno := EINVAL })
          else if context.converterf = 0 then
            Outcome.returns (-1, some m, { p with errno := EINVAL })
          else
            let slot := communicationDescriptor.toNat
            let data : CMCommunicationInternalData :=
              { p.CMInternalData with
                CMCommunicationContexts :=
                  some (l.set slot { context with x_op := xdr_op.XDR_ENCODE }) }
            let enc := lib.converter context.converterf xdr_op.XDR_ENCODE slot context.socket m
              p.errno p.world
            if enc.1 = true then
              let eor := lib.xdrrec_endofrecord slot context.socket enc.2.2.1 enc.2.2.2
              Outcome.returns (if eor.1 = true then 0 else -1, some enc.2.1,
                { CMInternalData := data
                  errno := if eor.1 = true then eor.2.1 else EINVAL
                  world := eor.2.2
                  trace := p.trace ++
                    [XdrEvent.convert context.converterf xdr_op.XDR_ENCODE slot,
                     XdrEvent.endofrecord slot] })
            else
              Outcome.returns (-1, some enc.2.1,
                { CMInternalData := data
                  errno := enc.2.2.1
                  world := enc.2.2.2
                  trace := p.trace ++
                    [XdrEvent.convert context.converterf xdr_op.XDR_ENCODE slot] })

/-- The function `CMReceiveMessage`.  The result carries the return value and
the message as the converter left it. -/
def CMReceiveMessage {ω μ : Type} (lib : XdrLib ω μ) (p : Process ω)
    (communicationDescriptor : Int) (message : Option μ) :
    Outcome (Int × Option μ × Process ω) :=
  match message with
  | none => Outcome.returns (-1, none, { p with errno := EINVAL })
  | some m =>
    if p.CMInternalData.capacity < UINT_MAX ∧
        toUnsigned communicationDescriptor ≥ p.CMInternalData.capacity then
      Outcome.returns (-1, some m, { p with errno := EINVAL })
    else
      match p.CMInternalData.CMCommunicationContexts with
      | none => Outcome.undefined
      | some l =>
        match contextAt (some l) communicationDescriptor with
        | none => Outcome.undefined
        | some context =>
          if context.communicationDescriptor ≠ communicationDescriptor then
            Outcome.returns (-1, some m, { p with errno := EINVAL })
          else if context.socket = -1 then
            Outcome.returns (-1, some m, { p with errno := EINVAL })
          else if context.converterf = 0 then
            Outcome.returns (-1, some m, { p with errno := EINVAL })
          else
            let slot := communicationDescriptor.toNat
            let data : CMCommunicationInternalData :=
              { p.CMInternalData with
                CMCommunicationContexts :=
                  some (l.set slot { context with x_op := xdr_op.XDR_DECODE }) }
            let skip := lib.xdrrec_skiprecord slot context.socket p.errno p.world
            if skip.1 = false then
              Outcome.returns (-1, some m,
                { CMInternalData := data
                  errno := skip.2.1
                  world := skip.2.2
                  trace := p.trace ++ [XdrEvent.skiprecord slot] })
            else
              let dec := lib.converter context.converterf xdr_op.XDR_DECODE slot context.socket m
                skip.2.1 skip.2.2
              Outcome.returns (if dec.1 = true then 0 else -1, some dec.2.1,
                { CMInternalData := data
                  errno := dec.2.2.1
                  world := dec.2.2.2
                  trace := p.trace ++
                    [XdrEvent.skiprecord slot,
                     XdrEvent.convert context.converterf xdr_op.XDR_DECODE slot] })

/-! ## SetCodec and GetCodec -/

/-- The function `CMSetConverterF`. -/
def CMSetConverterF {ω : Type} (p : Process ω) (communicationDescriptor : Int)
    (converterf : Nat) : Outcome (Process ω) :=
  if converterf = 0 then Outcome.returns { p with errno := EINVAL }
  else if p.CMInternalData.capacity < UINT_MAX ∧
      toUnsigned communicationDescriptor ≥ p.CMInternalData.capacity then
    Outcome.returns { p with errno := EINVAL }
  else if p.CMInternalData.mutex then Outcome.blocked
  else
    match p.CMInternalData.CMCommunicationContexts with
    | none => Outcome.undefined
    | some l =>
      match contextAt (some l) communicationDescriptor with
      | none => Outcome.undefined
      | some context =>
        Outcome.returns
          { p with
            CMInternalData :=
              { CMCommunicationContexts :=
                  some (l.set communicationDescriptor.toNat
                    { context with converterf := converterf })
                capacity := p.CMInternalData.capacity
                mutex := false } }

/-- The function `CMGetConverterF`. -/
def CMGetConverterF {ω : Type} (p : Process ω) (communicationDescriptor : Int) :
    Outcome (Nat × Process ω) :=
  if p.CMInternalData.capacity < UINT_MAX ∧
      toUnsigned communicationDescriptor ≥ p.CMInternalData.capacity then
    Outcome.returns (0, { p with errno := EINVAL })
  else if p.CMInternalData.mutex then Outcome.blocked
  else
    match contextAt p.CMInternalData.CMCommunicationContexts communicationDescriptor with
    | none => Outcome.undefined
    | some context => Outcome.returns (context.converterf, p)

/-! ## Call sequences -/

/-- One call of the module by its (single threaded) client. -/
inductive Call (μ : Type) where
  | init (heap : Heap) (socket : Int) (converterf : Nat)
  | finish (communicationDescriptor : Int)
  | send (communicationDescriptor : Int) (message : Option μ)
  | receive (communicationDescriptor : Int) (message : Option μ)
  | setConverter (communicationDescriptor : Int) (converterf : Nat)
  | getConverter (communicationDescriptor : Int)

/-- The state change of a call together with its return value as an integer
(`0` for the `void` functions, the pointer value for `CMGetConverterF`). -/
def Call.run {ω μ : Type} (lib : XdrLib ω μ) (p : Process ω) :
    Call μ → Outcome (Int × Process ω)
  | Call.init heap socket converterf =>
    CMInitCommunicationWithSocketAndConverter lib heap p socket converterf
  | Call.finish d =>
    match CMFinishCommunicationWithCommunicationDescriptor lib p d with
    | Outcome.returns q => Outcome.returns (0, q)
    | Outcome.blocked => Outcome.blocked
    | Outcome.undefined => Outcome.undefined
  | Call.send d m =>
    match CMSendMessage lib p d m with
    | Outcome.returns r => Outcome.returns (r.1, r.2.2)
    | Outcome.blocked => Outcome.blocked
    | Outcome.undefined => Outcome.undefined
  | Call.receive d m =>
    match CMReceiveMessage lib p d m with
    | Outcome.returns r => Outcome.returns (r.1, r.2.2)
    | Outcome.blocked => Outcome.blocked
    | Outcome.undefined => Outcome.undefined
  | Call.setConverter d f =>
    match CMSetConverterF p d f with
    | Outcome.returns q => Outcome.returns (0, q)
    | Outcome.blocked => Outcome.blocked
    | Outcome.undefined => Outcome.undefined
  | Call.getConverter d =>
    match CMGetConverterF p d with
    | Outcome.returns r => Outcome.returns ((r.1 : Int), r.2)
    | Outcome.blocked => Outcome.blocked
    | Outcome.undefined => Outcome.undefined

/-- The states the process can be in after a finite sequence of calls that
have all returned, starting before the first call. -/
inductive Reachable {ω μ : Type} (lib : XdrLib ω μ) : Process ω → Prop where
  | initial (e : Int) (w : ω) : Reachable lib (Process.initial e w)
  | call (p : Process ω) (c : Call μ) (r : Int) (q : Process ω) :
      Reachable lib p → c.run lib p = Outcome.returns (r, q) → Reachable lib q

/-- The validity of a descriptor as the data model states it: in range, the
slot carries the descriptor, and the socket is not the free sentinel. -/
def Valid {ω : Type} (p : Process ω) (d : Int) : Prop :=
  0 ≤ d ∧ d < (p.CMInternalData.capacity : Int) ∧
    ∃ c, contextAt p.CMInternalData.CMCommunicationContexts d = some c ∧
      c.communicationDescriptor = d ∧ c.socket ≠ -1

/-- An XDR library whose operations always succeed and leave `errno` and the
(trivial) world alone; the registry functions never look at its results. -/
def quietXdr : XdrLib Unit Nat :=
  { xdrrec_create := fun _ _ e w => (e, w)
    xdr_destroy := fun _ e w => (e, w)
    converter := fun _ _ _ _ m e w => (true, m, e, w)
    xdrrec_endofrecord := fun _ _ e w => (true, e, w)
    xdrrec_skiprecord := fun _ _ e w => (true, e, w) }

/-- A heap on which every allocation succeeds. -/
def goodHeap : Heap := { callocOk := true, reallocOk := true, junk := zeroContext }

/-- A heap on which every allocation fails. -/
def badHeap : Heap := { callocOk := false, reallocOk := false, junk := zeroContext }

/-- The state after a sequence of calls; `none` as soon as one of them does
not return. -/
def runCalls {ω μ : Type} (lib : XdrLib ω μ) : Process ω → List (Call μ) → Option (Process ω)
  | p, [] => some p
  | p, c :: cs =>
    match c.run lib p with
    | Outcome.returns r => runCalls lib r.2 cs
    | _ => none

/-- The return values of a sequence of calls together with the state each call
leaves; `none` as soon as one of them does not return. -/
def runTrace {ω μ : Type} (lib : XdrLib ω μ) :
    Process ω → List (Call μ) → Option (List (Int × Process ω))
  | _, [] => some []
  | p, c :: cs =>
    match c.run lib p with
    | Outcome.returns r =>
      match runTrace lib r.2 cs with
      | some rest => some (r :: rest)
      | none => none
    | _ => none

/-- A sequence of `CMInitCommunicationWithSocketAndConverter` calls, one for
each triple of allocator behaviour, socket and converter. -/
def initCalls {μ : Type} (args : List (Heap × Int × Nat)) : List (Call μ) :=
  args.map fun a => Call.init a.1 a.2.1 a.2.2

/-- The descriptors returned by the successful calls of a run. -/
def successes {ω : Type} (out : List (Int × Process ω)) : List Int :=
  (out.map Prod.fst).filter fun r => decide (r ≠ -1)

/-- The state a sequence of calls leads to from the initial state (with `errno`
zero) under `quietXdr`; the initial state when one of the calls does not
return. -/
def afterCalls (cs : List (Call Nat)) : Process Unit :=
  (runCalls quietXdr (Process.initial 0 ()) cs).getD (Process.initial 0 ())

instance validDecidable {ω : Type} (p : Process ω) (d : Int) : Decidable (Valid p d) := by
  unfold Valid
  exact inferInstanceAs (Decidable (0 ≤ d ∧ d < (p.CMInternalData.capacity : Int) ∧
    ∃ c ∈ contextAt p.CMInternalData.CMCommunicationContexts d,
      c.communicationDescriptor = d ∧ c.socket ≠ -1))

/-- Whether the call is a registration. -/
def Call.isInit {μ : Type} : Call μ → Bool
  | Call.init _ _ _ => true
  | _ => false

/-- Whether some registration in the run of `cs` from `p` returns the
descriptor `d`. -/
def handsOut {ω μ : Type} (lib : XdrLib ω μ) (d : Int) : Process ω → List (Call μ) → Bool
  | _, [] => false
  | p, c :: cs =>
    match c.run lib p with
    | Outcome.returns r => (c.isInit && decide (r.1 = d)) || handsOut lib d r.2 cs
    | _ => false

/-- The registry `d2` is `d1`, or `d1` with one slot replaced by a slot with
the same socket and descriptor field (and possibly another mutex state). -/
def SameShape (d1 d2 : CMCommunicationInternalData) : Prop :=
  d2 = d1 ∨
    ∃ (l : List CMCommunicationDescriptionContext) (k : Nat)
        (c c1 : CMCommunicationDescriptionContext) (mu : Bool),
      d1.CMCommunicationContexts = some l ∧ l[k]? = some c ∧ c1.socket = c.socket ∧
        c1.communicationDescriptor = c.communicationDescriptor ∧
        d2 = { CMCommunicationContexts := some (l.set k c1), capacity := d1.capacity,
               mutex := mu }

/-- The table right after the lazy allocation: sixteen zeroed contexts whose
socket has been set to the free sentinel. -/
def freshTable : List CMCommunicationDescriptionContext :=
  markFree (List.replicate 16 zeroContext) 0 16

/-- The consistency of slot `i`: either free with a descriptor field that is
not `i`, or occupied with a non-negative socket, descriptor field `i` and a
converter. -/
def SlotOk (i : Nat) (c : CMCommunicationDescriptionContext) : Prop :=
  (c.socket = -1 ∧ c.communicationDescriptor ≠ (i : Int)) ∨
    (0 ≤ c.socket ∧ c.communicationDescriptor = (i : Int) ∧ c.converterf ≠ 0)

/-- The invariant of the registry: there is no table, the capacity is zero
and the mutex is free; or there is a table of sixteen consistent slots of
which at least one is occupied. -/
def RegistryInv (d : CMCommunicationInternalData) : Prop :=
  (d.CMCommunicationContexts = none ∧ d.capacity = 0 ∧ d.mutex = false) ∨
    ∃ l, d.CMCommunicationContexts = some l ∧ d.capacity = 16 ∧ l.length = 16 ∧
      (∀ i c, l[i]? = some c → SlotOk i c) ∧ ∃ c ∈ l, c.socket ≠ -1

/-! ## Further definitions for the channel claims -/

/-- An XDR library like `quietXdr` whose `xdrrec_skiprecord` fails: no further
record on the stream. -/
def deafXdr : XdrLib Unit Nat :=
  { xdrrec_create := fun _ _ e w => (e, w)
    xdr_destroy := fun _ e w => (e, w)
    converter := fun _ _ _ _ m e w => (true, m, e, w)
    xdrrec_endofrecord := fun _ _ e w => (true, e, w)
    xdrrec_skiprecord := fun _ _ e w => (false, e, w) }

/-- An XDR library like `quietXdr` whose `xdrrec_endofrecord` fails: the record
cannot be flushed to the socket. -/
def stuckXdr : XdrLib Unit Nat :=
  { xdrrec_create := fun _ _ e w => (e, w)
    xdr_destroy := fun _ e w => (e, w)
    converter := fun _ _ _ _ m e w => (true, m, e, w)
    xdrrec_endofrecord := fun _ _ e w => (false, e, w)
    xdrrec_skiprecord := fun _ _ e w => (true, e, w) }

/-- The state a sequence of calls leads to from the initial state (with `errno`
zero) under the library `lib`; the initial state when one of the calls does not
return. -/
def afterCallsWith (lib : XdrLib Unit Nat) (cs : List (Call Nat)) : Process Unit :=
  (runCalls lib (Process.initial 0 ()) cs).getD (Process.initial 0 ())

/-- The descriptor a call is about; `none` for a registration. -/
def Call.target {μ : Type} : Call μ → Option Int
  | Call.init _ _ _ => none
  | Call.finish d => some d
  | Call.send d _ => some d
  | Call.receive d _ => some d
  | Call.setConverter d _ => some d
  | Call.getConverter d => some d

/-- The conditions under which `CMSendMessage` and `CMReceiveMessage` reject
their arguments: the message is null, the descriptor is negative or not below
the capacity, or its slot carries another descriptor, the free sentinel as
socket, or no converter. -/
def BadArguments {ω μ : Type} (p : Process ω) (d : Int) (m : Option μ) : Prop :=
  m = none ∨ d < 0 ∨ (p.CMInternalData.capacity : Int) ≤ d ∨
    ∃ c, contextAt p.CMInternalData.CMCommunicationContexts d = some c ∧
      (c.communicationDescriptor ≠ d ∨ c.socket = -1 ∨ c.converterf = 0)

/-- The call of the converter that `CMSendMessage` makes for slot `k` with
contents `c`: direction `XDR_ENCODE`, on the slot's stream and socket. -/
def encodeCall {ω μ : Type} (lib : XdrLib ω μ) (p : Process ω) (k : Nat)
    (c : CMCommunicationDescriptionContext) (m : μ) : Bool × μ × Int × ω :=
  lib.converter c.converterf xdr_op.XDR_ENCODE k c.socket m p.errno p.world

/-- The call `xdrrec_endofrecord(xdrs, TRUE)` that follows a successful
`encodeCall`. -/
def flushCall {ω μ : Type} (lib : XdrLib ω μ) (p : Process ω) (k : Nat)
    (c : CMCommunicationDescriptionContext) (m : μ) : Bool × Int × ω :=
  lib.xdrrec_endofrecord k c.socket (encodeCall lib p k c m).2.2.1 (encodeCall lib p k c m).2.2.2

/-- The call `xdrrec_skiprecord(xdrs)` that `CMReceiveMessage` makes for slot
`k` with contents `c`. -/
def skipCall {ω μ : Type} (lib : XdrLib ω μ) (p : Process ω) (k : Nat)
    (c : CMCommunicationDescriptionContext) : Bool × Int × ω :=
  lib.xdrrec_skiprecord k c.socket p.errno p.world

/-- The call of the converter that follows a successful `skipCall`: direction
`XDR_DECODE`. -/
def decodeCall {ω μ : Type} (lib : XdrLib ω μ) (p : Process ω) (k : Nat)
    (c : CMCommunicationDescriptionContext) (m : μ) : Bool × μ × Int × ω :=
  lib.converter c.converterf xdr_op.XDR_DECODE k c.socket m (skipCall lib p k c).2.1
    (skipCall lib p k c).2.2

/-! ## The digest utility -/

/-- Modelled from the spec: the constant `SHA_DIGEST_LENGTH` of `openssl/sha.h`,
a header outside the repository; a digest has 20 bytes. -/
def SHA_DIGEST_LENGTH : Nat := 20

/-- The character code `printf` uses for the hexadecimal digit `n` with the
conversion `x`: `'0'`..`'9'` are 48..57 and `'a'`..`'f'` are 97..102. -/
def hexDigit (n : Nat) : Nat := if n < 10 then 48 + n else 87 + n

/-- The bytes `sprintf(s, "%02x", b)` stores for an `unsigned char` argument:
two hexadecimal digits and the terminating NUL. -/
def sprintf02x (b : Fin 256) : List Nat := [hexDigit (b.val / 16), hexDigit (b.val % 16), 0]

/-- Storing `bytes` into the array `buf` from offset `off`; `none` when the
store runs past the end of the array. -/
def writeAt (buf : List Nat) (off : Nat) (bytes : List Nat) : Option (List Nat) :=
  if off + bytes.length ≤ buf.length then
    some (buf.take off ++ bytes ++ buf.drop (off + bytes.length))
  else none

/-- The loop `for (int i=0; i<SHA_DIGEST_LENGTH; i++) sprintf(dest+(i<<1), "%02x", src[i]);`
from iteration `i` with `n` iterations left; `none` when it reads or writes
outside an array. -/
def hexLoop (src : List (Fin 256)) : Nat → Nat → List Nat → Option (List Nat)
  | 0, _, buf => some buf
  | n + 1, i, buf =>
    match src[i]? with
    | none => none
    | some b =>
      match writeAt buf (i <<< 1) (sprintf02x b) with
      | none => none
      | some buf2 => hexLoop src n (i + 1) buf2

/-- The function `CMConvertDigestToHexString`, on the current `errno`, the
array `dest` points to and the array `src` points to (`none` for a null
pointer).  The result is the return value, the new `errno` and the array at
`dest`. -/
def CMConvertDigestToHexString (errno : Int) (dest : Option (List Nat))
    (src : Option (List (Fin 256))) : Outcome (Int × Int × Option (List Nat)) :=
  match dest, src with
  | some buf, some s =>
    match writeAt buf 0 (List.replicate (SHA_DIGEST_LENGTH * 2 + 1) 0) with
    | none => Outcome.undefined
    | some zeroed =>
      match hexLoop s SHA_DIGEST_LENGTH 0 zeroed with
      | none => Outcome.undefined
      | some out => Outcome.returns (0, errno, some out)
  | _, _ => Outcome.returns (-1, EINVAL, dest)

/-- The function `CMCopyDigestToHexString`.  The argument `dest` is `none` for
a null pointer and otherwise holds the pointer stored at `*dest` (itself
`none` when null, otherwise the array it points to).  The result is the return
value, the new `errno` and `*dest`. -/
def CMCopyDigestToHexString (heap : Heap) (errno : Int) (dest : Option (Option (List Nat)))
    (src : Option (List (Fin 256))) : Outcome (Int × Int × Option (Option (List Nat))) :=
  match dest, src with
  | some old, some s =>
    if heap.callocOk then
      match CMConvertDigestToHexString errno
          (some (List.replicate (SHA_DIGEST_LENGTH * 2 + 1) 0)) (some s) with
      | Outcome.returns r => Outcome.returns (r.1, r.2.1, some r.2.2)
      | Outcome.blocked => Outcome.blocked
      | Outcome.undefined => Outcome.undefined
    else Outcome.returns (ENOMEM - 1, ENOMEM - 1, some old)
  | _, _ => Outcome.returns (-1, EINVAL, dest)

/-- The hexadecimal string of a digest as the spec words it: each byte becomes
two lowercase hexadecimal characters, high nibble first. -/
def toHexSpec (digest : List (Fin 256)) : List Nat :=
  digest.flatMap fun b => [hexDigit (b.val / 16), hexDigit (b.val % 16)]

/-! ## A record stream over connected sockets -/

/-- The world of the record stream model: which socket each socket is
connected to, the bytes each slot's stream has encoded but not yet sent as a
record, the complete records that have arrived at each socket (oldest first),
and for each slot's stream the unread rest of the record it is reading
(`none` when it stands before the next record). -/
structure Wire where
  peer : Int → Int
  pending : Nat → List Nat
  inbox : Int → List (List Nat)
  current : Nat → Option (List Nat)

/-- Modelled from the spec: the XDR record stream library (`xdrrec_create`,
`xdr_destroy`, `xdrrec_endofrecord`, `xdrrec_skiprecord`), which is outside the
repository, over connected sockets that lose and reorder nothing, with every
converter pointer standing for the codec `enc`/`dec`.  Encoding appends the
encoded message to the record under construction; the end of record sends
that record to the peer socket; skipping drops the unread rest of the record
being read and steps before the next one; decoding reads the next record that
has arrived (or the unread rest) and fails when there is none or when it does
not decode.  A new stream has nothing pending and stands at the end of a
record.  None of the operations touches `errno`. -/
def wireXdr {μ : Type} (enc : μ → List Nat) (dec : List Nat → Option μ) : XdrLib Wire μ :=
  { xdrrec_create := fun slot _ e w =>
      (e, { w with
            pending := Function.update w.pending slot []
            current := Function.update w.current slot (some []) })
    xdr_destroy := fun slot e w =>
      (e, { w with
            pending := Function.update w.pending slot []
            current := Function.update w.current slot (some []) })
    converter := fun _ op slot sock m e w =>
      match op with
      | xdr_op.XDR_ENCODE =>
        (true, m, e, { w with pending := Function.update w.pending slot (w.pending slot ++ enc m) })
      | xdr_op.XDR_DECODE =>
        match w.current slot with
        | some rest =>
          match dec rest with
          | some m2 => (true, m2, e, { w with current := Function.update w.current slot (some []) })
          | none => (false, m, e, w)
        | none =>
          match w.inbox sock with
          | [] => (false, m, e, w)
          | r :: rs =>
            match dec r with
            | some m2 =>
              (true, m2, e,
                { w with
                  inbox := Function.update w.inbox sock rs
                  current := Function.update w.current slot (some []) })
            | none =>
              (false, m, e,
                { w with
                  inbox := Function.update w.inbox sock rs
                  current := Function.update w.current slot (some r) })
      | xdr_op.XDR_FREE => (true, m, e, w)
    xdrrec_endofrecord := fun slot sock e w =>
      (true, e,
        { w with
          inbox := Function.update w.inbox (w.peer sock) (w.inbox (w.peer sock) ++ [w.pending slot])
          pending := Function.update w.pending slot [] })
    xdrrec_skiprecord := fun slot _ e w =>
      (true, e, { w with current := Function.update w.current slot none }) }

/-- One `CMSendMessage` on descriptor `d` for each message of the list, in
order; the final state when every call has returned `0`, otherwise `none`. -/
def sendAll {ω μ : Type} (lib : XdrLib ω μ) : Process ω → Int → List μ → Option (Process ω)
  | p, _, [] => some p
  | p, d, m :: ms =>
    match CMSendMessage lib p d (some m) with
    | Outcome.returns r => if r.1 = 0 then sendAll lib r.2.2 d ms else none
    | _ => none

/-- A number `n` of `CMReceiveMessage` calls on descriptor `d`, each into a
message object that holds `buf` before the call; the messages the calls have
stored, in order, and the final state when every call has returned `0`,
otherwise `none`. -/
def receiveAll {ω μ : Type} (lib : XdrLib ω μ) :
    Process ω → Int → Nat → μ → Option (List μ × Process ω)
  | p, _, 0, _ => some ([], p)
  | p, d, n + 1, buf =>
    match CMReceiveMessage lib p d (some buf) with
    | Outcome.returns r =>
      if r.1 = 0 then
        match r.2.1, receiveAll lib r.2.2 d n buf with
        | some out, some rest => some (out :: rest.1, rest.2)
        | _, _ => none
      else none
    | _ => none

/-- A descriptor that is valid and whose slot holds the socket `s`. -/
def HasSocket {ω : Type} (p : Process ω) (d : Int) (s : Int) : Prop :=
  Valid p d ∧ ∃ c, contextAt p.CMInternalData.CMCommunicationContexts d = some c ∧ c.socket = s

/-- The message type of the test program (`struct _message`): a type tag and
a string, here as the list of its character codes. -/
structure CMMessage where
  type : Int
  string : List Nat
  deriving DecidableEq, Repr

/-- A codec for `CMMessage`, used to instantiate the record stream model: the
sign and the magnitude of the type tag, the length of the string, and its
characters.  (It is not the XDR encoding that the test's `xdr_message`
produces, whose primitives are outside the repository.) -/
def messageEncode (m : CMMessage) : List Nat :=
  (if m.type < 0 then 1 else 0) :: (if m.type < 0 then (-m.type).toNat else m.type.toNat) ::
    m.string.length :: m.string

/-- The decoder that goes with `messageEncode`. -/
def messageDecode : List Nat → Option CMMessage
  | s :: a :: n :: rest =>
    if rest.length = n then
      some { type := if s = 1 then -(a : Int) else (a : Int), string := rest }
    else none
  | _ => none

/-- A world in which sockets `3` and `4` are connected to each other (every
other socket to itself), with nothing pending and nothing in flight. -/
def pairWire : Wire :=
  { peer := fun s => if s = 3 then 4 else if s = 4 then 3 else s
    pending := fun _ => []
    inbox := fun _ => []
    current := fun _ => some [] }

/-- The state a sequence of calls leads to from the initial state in the world
`pairWire` under the record stream model with the `CMMessage` codec; the
initial state when one of the calls does not return. -/
def afterWireCalls (cs : List (Call CMMessage)) : Process Wire :=
  (runCalls (wireXdr messageEncode messageDecode) (Process.initial 0 pairWire) cs).getD
    (Process.initial 0 pairWire)

/-! ## The glue between the record stream and the socket -/

/-- The function `readit`, as a function of what `read(context->socket, buffer, nbytes)`
has returned, converted to `int`: the last line is
`return (bytes==0) ? -1 : bytes;`. -/
def readit (bytes : Int) : Int := if bytes = 0 then -1 else bytes

/-- The function `writeit`, as a function of what
`write(context->socket, buffer, nbytes)` has returned, converted to `int`:
the last line is `return bytes;`. -/
def writeit (bytes : Int) : Int := bytes

/-- The lock condition of the registry: while the mutex is held, the table
exists and has a free slot. -/
def LockInv (d : CMCommunicationInternalData) : Prop :=
  d.mutex = true →
    ∃ (l : List CMCommunicationDescriptionContext) (c : CMCommunicationDescriptionContext),
      d.CMCommunicationContexts = some l ∧ c ∈ l ∧ c.socket = -1

/-- The state after sixteen registrations on sockets 3..18 with converter `7`
from the initial state. -/
def sixteenRegistered : Process Unit :=
  afterCalls (initCalls ((List.range 16).map fun i => (goodHeap, (3 + i : Int), 7)))

/-! ## Lemmas on the loops -/

theorem firstFree_spec (l : List CMCommunicationDescriptionContext) :
    ∀ n i k, firstFree l n i = some k →
      (k = UINT_MAX ∧ ∀ j c, i ≤ j → j < i + n → l[j]? = some c → c.socket ≠ -1) ∨
      (i ≤ k ∧ k < i + n ∧ (∃ c, l[k]? = some c ∧ c.socket = -1) ∧
        ∀ j c, i ≤ j → j < k → l[j]? = some c → c.socket ≠ -1) := by
  intro n
  induction n with
  | zero =>
    intro i k h
    simp only [firstFree, Option.some.injEq] at h
    left
    refine ⟨h.symm, ?_⟩
    intro j c h1 h2
    omega
  | succ n ih =>
    intro i k h
    unfold firstFree at h
    cases hi : l[i]? with
    | none => simp [hi] at h
    | some c =>
      simp only [hi] at h
      by_cases hs : c.socket = -1
      · simp only [hs, if_true, Option.some.injEq] at h
        right
        subst h
        refine ⟨le_refl _, by omega, ⟨c, hi, hs⟩, ?_⟩
        intro j c2 h1 h2
        omega
      · simp only [hs, if_false] at h
        rcases ih (i + 1) k h with ⟨hk, hall⟩ | ⟨h1, h2, h3, hall⟩
        · left
          refine ⟨hk, ?_⟩
          intro j c2 hj1 hj2 hj3
          by_cases hji : j = i
          · subst hji
            rw [hi] at hj3
            cases hj3
            exact hs
          · exact hall j c2 (by omega) (by omega) hj3
        · right
          refine ⟨by omega, by omega, h3, ?_⟩
          intro j c2 hj1 hj2 hj3
          by_cases hji : j = i
          · subst hji
            rw [hi] at hj3
            cases hj3
            exact hs
          · exact hall j c2 (by omega) hj2 hj3

theorem firstFree_isSome (l : List CMCommunicationDescriptionContext) :
    ∀ n i, i + n ≤ l.length → ∃ k, firstFree l n i = some k := by
  intro n
  induction n with
  | zero => intro i _; exact ⟨UINT_MAX, rfl⟩
  | succ n ih =>
    intro i h
    unfold firstFree
    have hlt : i < l.length := by omega
    rw [List.getElem?_eq_getElem hlt]
    by_cases hs : (l[i]).socket = -1
    · exact ⟨i, by simp [hs]⟩
    · obtain ⟨k, hk⟩ := ih (i + 1) (by omega)
      exact ⟨k, by simp [hs, hk]⟩

theorem firstUsed_spec (l : List CMCommunicationDescriptionContext) :
    ∀ n i k, firstUsed l n i = some k →
      (k = i + n ∧ ∀ j c, i ≤ j → j < i + n → l[j]? = some c → c.socket = -1) ∨
      (i ≤ k ∧ k < i + n ∧ ∃ c, l[k]? = some c ∧ c.socket ≠ -1) := by
  intro n
  induction n with
  | zero =>
    intro i k h
    simp only [firstUsed, Option.some.injEq] at h
    left
    refine ⟨by omega, ?_⟩
    intro j c h1 h2
    omega
  | succ n ih =>
    intro i k h
    unfold firstUsed at h
    cases hi : l[i]? with
    | none => simp [hi] at h
    | some c =>
      simp only [hi] at h
      by_cases hs : c.socket = -1
      · simp only [hs, ne_eq, not_true_eq_false, if_false] at h
        rcases ih (i + 1) k h with ⟨hk, hall⟩ | ⟨h1, h2, h3⟩
        · left
          refine ⟨by omega, ?_⟩
          intro j c2 hj1 hj2 hj3
          by_cases hji : j = i
          · subst hji
            rw [hi] at hj3
            cases hj3
            exact hs
          · exact hall j c2 (by omega) (by omega) hj3
        · right
          exact ⟨by omega, by omega, h3⟩
      · simp only [ne_eq, hs, not_false_eq_true, if_true, Option.some.injEq] at h
        right
        subst h
        exact ⟨le_refl _, by omega, c, hi, hs⟩

theorem firstUsed_isSome (l : List CMCommunicationDescriptionContext) :
    ∀ n i, i + n ≤ l.length → ∃ k, firstUsed l n i = some k := by
  intro n
  induction n with
  | zero => intro i _; exact ⟨i, rfl⟩
  | succ n ih =>
    intro i h
    unfold firstUsed
    have hlt : i < l.length := by omega
    rw [List.getElem?_eq_getElem hlt]
    by_cases hs : (l[i]).socket = -1
    · obtain ⟨k, hk⟩ := ih (i + 1) (by omega)
      exact ⟨k, by simp [hs, hk]⟩
    · exact ⟨i, by simp [hs]⟩

/-! ## Register under the invariant -/

theorem freshTable_eq :
    freshTable = List.replicate 16 { zeroContext with socket := -1 } := by
  decide

theorem process_eta {ω : Type} (p : Process ω) (l : List CMCommunicationDescriptionContext)
    (n : Nat) (b : Bool) (e : Int)
    (h1 : p.CMInternalData.CMCommunicationContexts = some l)
    (h2 : p.CMInternalData.capacity = n) (h3 : p.CMInternalData.mutex = b) :
    ({ p with
        CMInternalData := { CMCommunicationContexts := some l, capacity := n, mutex := b }
        errno := e } : Process ω) = { p with errno := e } := by
  cases p with
  | mk d e0 w t =>
    cases d with
    | mk t0 c0 m0 =>
      simp only at h1 h2 h3
      subst h1 h2 h3
      rfl

/-- The four ways `CMInitCommunicationWithSocketAndConverter` can end when the
registry invariant holds. -/
theorem init_cases {ω μ : Type} (lib : XdrLib ω μ) (heap : Heap) (p : Process ω)
    (s : Int) (f : Nat) (hinv : RegistryInv p.CMInternalData) :
    ((s < 0 ∨ f = 0) ∧
      CMInitCommunicationWithSocketAndConverter lib heap p s f =
        Outcome.returns (-1, { p with errno := EINVAL })) ∨
    (0 ≤ s ∧ f ≠ 0 ∧ p.CMInternalData.mutex = true ∧
      CMInitCommunicationWithSocketAndConverter lib heap p s f = Outcome.blocked) ∨
    (0 ≤ s ∧ f ≠ 0 ∧ p.CMInternalData.mutex = false ∧
      ((p.CMInternalData.CMCommunicationContexts = none ∧ heap.callocOk = false) ∨
        ∃ l : List CMCommunicationDescriptionContext,
          p.CMInternalData.CMCommunicationContexts = some l ∧
          ∀ (j : Nat) (c : CMCommunicationDescriptionContext),
            l[j]? = some c → c.socket ≠ -1) ∧
      CMInitCommunicationWithSocketAndConverter lib heap p s f =
        Outcome.returns (-1, { p with errno := ENOMEM })) ∨
    (0 ≤ s ∧ f ≠ 0 ∧ p.CMInternalData.mutex = false ∧
      ∃ (l : List CMCommunicationDescriptionContext) (k : Nat)
          (c : CMCommunicationDescriptionContext),
        (p.CMInternalData.CMCommunicationContexts = some l ∨
          (p.CMInternalData.CMCommunicationContexts = none ∧ heap.callocOk = true ∧
            l = freshTable)) ∧
        k < 16 ∧ l.length = 16 ∧ l[k]? = some c ∧ c.socket = -1 ∧
        (∀ (j : Nat) (c2 : CMCommunicationDescriptionContext),
          j < k → l[j]? = some c2 → c2.socket ≠ -1) ∧
        CMInitCommunicationWithSocketAndConverter lib heap p s f =
          Outcome.returns ((k : Int),
            { CMInternalData :=
                { CMCommunicationContexts :=
                    some (l.set k
                      { c with
                        socket := s
                        converterf := f
                        communicationDescriptor := (k : Int) })
                  capacity := 16
                  mutex := false }
              errno := (lib.xdrrec_create k s p.errno p.world).1
              world := (lib.xdrrec_create k s p.errno p.world).2
              trace := p.trace ++ [XdrEvent.create k] })) := by
  by_cases h1 : s < 0 ∨ f = 0
  · left
    exact ⟨h1, by simp [CMInitCommunicationWithSocketAndConverter, h1]⟩
  right
  have hs : 0 ≤ s := by
    by_contra hc
    exact h1 (Or.inl (by omega))
  have hf : f ≠ 0 := fun hc => h1 (Or.inr hc)
  cases hm : p.CMInternalData.mutex with
  | true =>
    left
    exact ⟨hs, hf, rfl, by simp [CMInitCommunicationWithSocketAndConverter, h1, hm]⟩
  | false =>
    right
    rcases hinv with ⟨ht, hc, _⟩ | ⟨l, ht, hc, hlen, hok, hex⟩
    · cases hco : heap.callocOk with
      | false =>
        left
        refine ⟨hs, hf, rfl, Or.inl ⟨ht, rfl⟩, ?_⟩
        simp [CMInitCommunicationWithSocketAndConverter, h1, hm, initialTable, ht, hco]
      | true =>
        right
        refine ⟨hs, hf, rfl, freshTable, 0, { zeroContext with socket := -1 },
          Or.inr ⟨ht, rfl, rfl⟩, by decide, by decide, by decide, rfl, ?_, ?_⟩
        · intro j c2 hj
          omega
        · have hff : firstFree freshTable 16 0 = some 0 := by decide
          have hg : growTable heap freshTable 16 0 = Outcome.returns (some (freshTable, 16)) := by
            simp [growTable]
          have h0 : freshTable[0]? = some { zeroContext with socket := -1 } := by decide
          simp only [CMInitCommunicationWithSocketAndConverter, h1, hm, initialTable, ht, hco,
            if_false, if_true]
          have hft : markFree (List.replicate 16 zeroContext) 0 16 = freshTable := rfl
          simp only [hft, hff, hg, h0]
          rfl
    · obtain ⟨k, hk⟩ := firstFree_isSome l 16 0 (by omega)
      rcases firstFree_spec l 16 0 k hk with ⟨hku, hall⟩ | ⟨_, hk16, ⟨c, hc1, hc2⟩, hall⟩
      · left
        refine ⟨hs, hf, rfl, Or.inr ⟨l, ht, ?_⟩, ?_⟩
        · intro j c hj
          have hjl : j < l.length := by
            by_contra hcon
            rw [List.getElem?_eq_none (by omega)] at hj
            cases hj
          exact hall j c (by omega) (by omega) hj
        · have hg : growTable heap l 16 k = Outcome.returns none := by
            subst hku
            simp [growTable, UINT_MAX]
          simp only [CMInitCommunicationWithSocketAndConverter, h1, hm, initialTable, ht, hc,
            if_false, hk, hg]
          rw [process_eta p l 16 false ENOMEM ht hc hm]
          simp
      · right
        refine ⟨hs, hf, rfl, l, k, c, Or.inl ht, by omega, hlen, hc1, hc2, ?_, ?_⟩
        · intro j c2 hj hj2
          exact hall j c2 (by omega) hj hj2
        · have hg : growTable heap l 16 k = Outcome.returns (some (l, 16)) := by
            have : ¬ (k ≥ 16) := by omega
            simp [growTable, this]
          have hts : toSigned k = (k : Int) := by
            unfold toSigned
            have : k % 4294967296 = k := Nat.mod_eq_of_lt (by omega)
            rw [this]
            have : k < 2147483648 := by omega
            simp [this]
          simp only [CMInitCommunicationWithSocketAndConverter, h1, hm, initialTable, ht, hc,
            if_false, hk, hg, hc1, hts]
          simp

theorem slotOk_set (l : List CMCommunicationDescriptionContext) (k : Nat)
    (c1 : CMCommunicationDescriptionContext)
    (hok : ∀ (i : Nat) (c : CMCommunicationDescriptionContext), l[i]? = some c → SlotOk i c)
    (hc : SlotOk k c1) :
    ∀ (i : Nat) (c : CMCommunicationDescriptionContext),
      (l.set k c1)[i]? = some c → SlotOk i c := by
  intro i c h
  rw [List.getElem?_set] at h
  by_cases hki : k = i
  · subst hki
    simp only [if_true] at h
    by_cases hlt : k < l.length
    · simp only [hlt, if_true, Option.some.injEq] at h
      subst h
      exact hc
    · simp [hlt] at h
  · simp only [hki, if_false] at h
    exact hok i c h

theorem getElem?_lt_length {α : Type} (l : List α) (i : Nat) (a : α) (h : l[i]? = some a) :
    i < l.length := by
  by_contra hcon
  rw [List.getElem?_eq_none (by omega)] at h
  cases h

theorem freshTable_getElem? (i : Nat) (c : CMCommunicationDescriptionContext)
    (h : freshTable[i]? = some c) : c = { zeroContext with socket := -1 } := by
  rw [freshTable_eq, List.getElem?_replicate] at h
  by_cases hi : i < 16
  · simp only [hi, if_true, Option.some.injEq] at h
    exact h.symm
  · simp [hi] at h

theorem toSigned_small (k : Nat) (h : k < 2147483648) : toSigned k = (k : Int) := by
  unfold toSigned
  have h1 : k % 4294967296 = k := Nat.mod_eq_of_lt (by omega)
  rw [h1]
  simp [h]

/-- The range guard `(unsigned int)d >= capacity` for a descriptor that is an
`int` and a capacity of at most `2^31`. -/
theorem guard_iff (d : Int) (cap : Nat) (hd : IsInt d) (hcap : cap ≤ 2147483648) :
    toUnsigned d ≥ cap ↔ (d < 0 ∨ (cap : Int) ≤ d) := by
  unfold IsInt INT_MIN INT_MAX at hd
  unfold toUnsigned
  omega

theorem init_preserves {ω μ : Type} (lib : XdrLib ω μ) (heap : Heap) (p : Process ω)
    (s : Int) (f : Nat) (r : Int) (q : Process ω) (hinv : RegistryInv p.CMInternalData)
    (h : CMInitCommunicationWithSocketAndConverter lib heap p s f = Outcome.returns (r, q)) :
    RegistryInv q.CMInternalData := by
  rcases init_cases lib heap p s f hinv with
    ⟨_, h1⟩ | ⟨_, _, _, h1⟩ | ⟨_, _, _, _, h1⟩ | ⟨hs, hf, _, l, k, c, hl, hk, hlen, hc1, hc2, hall, h1⟩
  · rw [h1] at h
    cases h
    exact hinv
  · rw [h1] at h
    cases h
  · rw [h1] at h
    cases h
    exact hinv
  · rw [h1] at h
    cases h
    right
    refine ⟨_, rfl, rfl, by simp [hlen], ?_, ?_⟩
    · have hnew : SlotOk k
          { socket := s, communicationDescriptor := (k : Int), converterf := f, x_op := c.x_op } :=
        Or.inr ⟨hs, rfl, hf⟩
      rcases hl with hl | ⟨_, _, hl⟩
      · rcases hinv with ⟨ht, _, _⟩ | ⟨l0, ht, _, _, hok, _⟩
        · rw [ht] at hl
          cases hl
        · rw [ht] at hl
          cases hl
          exact slotOk_set _ k _ hok hnew
      · subst hl
        have hk0 : k = 0 := by
          by_contra hne
          have := hall 0 { zeroContext with socket := -1 } (by omega) (by decide)
          exact this rfl
        subst hk0
        intro i c2 h2
        rw [List.getElem?_set] at h2
        by_cases hi : 0 = i
        · subst hi
          simp only [if_true] at h2
          have : 0 < freshTable.length := by decide
          simp only [this, if_true, Option.some.injEq] at h2
          subst h2
          exact hnew
        · simp only [hi, if_false] at h2
          have := freshTable_getElem? i c2 h2
          subst this
          left
          refine ⟨rfl, ?_⟩
          show (0 : Int) ≠ (i : Int)
          omega
    · refine ⟨_, List.mem_set l k (by omega) _, ?_⟩
      show s ≠ -1
      omega

/-! ## Release under the invariant -/

/-- The ways `CMFinishCommunicationWithCommunicationDescriptor` can end when
the registry invariant holds. -/
theorem finish_cases {ω μ : Type} (lib : XdrLib ω μ) (p : Process ω) (d : Int)
    (hinv : RegistryInv p.CMInternalData) :
    (toUnsigned d ≥ p.CMInternalData.capacity ∧
      CMFinishCommunicationWithCommunicationDescriptor lib p d =
        Outcome.returns { p with errno := EINVAL }) ∨
    (¬ toUnsigned d ≥ p.CMInternalData.capacity ∧ p.CMInternalData.mutex = true ∧
      CMFinishCommunicationWithCommunicationDescriptor lib p d = Outcome.blocked) ∨
    (¬ toUnsigned d ≥ p.CMInternalData.capacity ∧ p.CMInternalData.mutex = false ∧
      ¬ IsInt d ∧
      CMFinishCommunicationWithCommunicationDescriptor lib p d = Outcome.undefined) ∨
    (¬ toUnsigned d ≥ p.CMInternalData.capacity ∧ p.CMInternalData.mutex = false ∧
      ∃ (l : List CMCommunicationDescriptionContext) (k : Nat)
          (c : CMCommunicationDescriptionContext),
        p.CMInternalData.CMCommunicationContexts = some l ∧ d = (k : Int) ∧ k < 16 ∧
        l[k]? = some c ∧ c.communicationDescriptor ≠ d ∧
        CMFinishCommunicationWithCommunicationDescriptor lib p d =
          Outcome.returns { p with CMInternalData := { p.CMInternalData with mutex := true } }) ∨
    (¬ toUnsigned d ≥ p.CMInternalData.capacity ∧ p.CMInternalData.mutex = false ∧
      ∃ (l : List CMCommunicationDescriptionContext) (k : Nat)
          (c : CMCommunicationDescriptionContext),
        p.CMInternalData.CMCommunicationContexts = some l ∧ d = (k : Int) ∧ k < 16 ∧
        l[k]? = some c ∧ c.communicationDescriptor = d ∧
        (((∀ (j : Nat) (c2 : CMCommunicationDescriptionContext),
              (l.set k { c with socket := -1, communicationDescriptor := -1 })[j]? = some c2 →
                c2.socket = -1) ∧
            CMFinishCommunicationWithCommunicationDescriptor lib p d =
              Outcome.returns
                { CMInternalData := CMInternalData0
                  errno := (lib.xdr_destroy k p.errno p.world).1
                  world := (lib.xdr_destroy k p.errno p.world).2
                  trace := p.trace ++ [XdrEvent.destroy k] }) ∨
          ((∃ c2 ∈ l.set k { c with socket := -1, communicationDescriptor := -1 },
              c2.socket ≠ -1) ∧
            CMFinishCommunicationWithCommunicationDescriptor lib p d =
              Outcome.returns
                { CMInternalData :=
                    { CMCommunicationContexts :=
                        some (l.set k { c with socket := -1, communicationDescriptor := -1 })
                      capacity := 16
                      mutex := false }
                  errno := (lib.xdr_destroy k p.errno p.world).1
                  world := (lib.xdr_destroy k p.errno p.world).2
                  trace := p.trace ++ [XdrEvent.destroy k] }))) := by
  rcases hinv with ⟨ht, hc, hmu⟩ | ⟨l, ht, hc, hlen, hok, hex⟩
  · left
    refine ⟨by omega, ?_⟩
    simp [CMFinishCommunicationWithCommunicationDescriptor, hc, UINT_MAX]
  by_cases hg : toUnsigned d ≥ p.CMInternalData.capacity
  · left
    refine ⟨hg, ?_⟩
    have : p.CMInternalData.capacity < UINT_MAX := by rw [hc]; decide
    simp [CMFinishCommunicationWithCommunicationDescriptor, hg, this]
  right
  have hg2 : ¬ (p.CMInternalData.capacity < UINT_MAX ∧
      toUnsigned d ≥ p.CMInternalData.capacity) := fun h => hg h.2
  have hlt16 : toUnsigned d < 16 := by omega
  cases hm : p.CMInternalData.mutex with
  | true =>
    left
    exact ⟨hg, rfl, by simp only [CMFinishCommunicationWithCommunicationDescriptor, hg2, hm,
      if_false, if_true]⟩
  | false =>
    right
    by_cases hd : 0 ≤ d ∧ d.toNat < 16
    · right
      obtain ⟨k, hk⟩ : ∃ k : Nat, d = (k : Int) := ⟨d.toNat, by omega⟩
      subst hk
      have hk16 : k < 16 := by
        have := hd.2
        simpa using this
      obtain ⟨c, hc1⟩ : ∃ c, l[k]? = some c :=
        ⟨l[k], List.getElem?_eq_getElem (by omega)⟩
      have hctx : contextAt (some l) (k : Int) = some c := by
        simp [contextAt, hc1]
      by_cases hdesc : c.communicationDescriptor = (k : Int)
      · right
        refine ⟨hg, rfl, l, k, c, ht, rfl, hk16, hc1, hdesc, ?_⟩
        obtain ⟨i, hi⟩ := firstUsed_isSome
          (l.set k { c with socket := -1, communicationDescriptor := -1 }) 16 0
          (by simp [hlen])
        rcases firstUsed_spec _ 16 0 i hi with ⟨hi16, hall⟩ | ⟨_, hi16, c2, hc2, hc3⟩
        · left
          refine ⟨?_, ?_⟩
          · intro j c2 hj
            have hjl := getElem?_lt_length _ j c2 hj
            simp only [List.length_set] at hjl
            exact hall j c2 (by omega) (by omega) hj
          · have hi2 : i ≥ 16 := by omega
            simp only [CMFinishCommunicationWithCommunicationDescriptor, hg2, hm, ht, hctx,
              hdesc, hc, Int.toNat_ofNat, hi, if_false, ne_eq, not_true_eq_false]
            simp [hi2, CMInternalData0, hlt16]
        · right
          refine ⟨⟨c2, List.mem_iff_getElem?.mpr ⟨i, hc2⟩, hc3⟩, ?_⟩
          have hi2 : ¬ i ≥ 16 := by omega
          simp only [CMFinishCommunicationWithCommunicationDescriptor, hg2, hm, ht, hctx,
            hdesc, hc, Int.toNat_ofNat, hi, if_false, ne_eq, not_true_eq_false]
          simp [hi2, hlt16]
      · left
        refine ⟨hg, rfl, l, k, c, ht, rfl, hk16, hc1, hdesc, ?_⟩
        simp only [CMFinishCommunicationWithCommunicationDescriptor, hg2, hm, ht, hctx,
          if_false]
        simp [hdesc]
    · left
      have hnot : ¬ IsInt d := by
        intro hi
        unfold IsInt INT_MIN INT_MAX at hi
        rw [hc] at hg
        unfold toUnsigned at hg
        omega
      refine ⟨hg, rfl, hnot, ?_⟩
      have hctx : contextAt (some l) d = none := by
        unfold contextAt
        by_cases h0 : d < 0
        · simp [h0]
        · simp only [h0, if_false]
          exact List.getElem?_eq_none (by omega)
      simp [CMFinishCommunicationWithCommunicationDescriptor, hg2, hm, ht, hctx]

theorem finish_preserves {ω μ : Type} (lib : XdrLib ω μ) (p : Process ω) (d : Int)
    (q : Process ω) (hinv : RegistryInv p.CMInternalData)
    (h : CMFinishCommunicationWithCommunicationDescriptor lib p d = Outcome.returns q) :
    RegistryInv q.CMInternalData := by
  rcases finish_cases lib p d hinv with
    ⟨_, h1⟩ | ⟨_, _, h1⟩ | ⟨_, _, _, h1⟩ | ⟨_, _, l, k, c, ht, _, _, _, _, h1⟩ |
    ⟨_, _, l, k, c, ht, _, hk, hc1, _, ⟨_, h1⟩ | ⟨hex, h1⟩⟩
  · rw [h1] at h
    cases h
    exact hinv
  · rw [h1] at h
    cases h
  · rw [h1] at h
    cases h
  · rw [h1] at h
    cases h
    rcases hinv with ⟨ht0, _, _⟩ | ⟨l0, ht0, hc0, hlen, hok, hex⟩
    · rw [ht0] at ht
      cases ht
    · right
      exact ⟨l0, ht0, hc0, hlen, hok, hex⟩
  · rw [h1] at h
    cases h
    left
    exact ⟨rfl, rfl, rfl⟩
  · rw [h1] at h
    cases h
    rcases hinv with ⟨ht0, _, _⟩ | ⟨l0, ht0, hc0, hlen, hok, _⟩
    · rw [ht0] at ht
      cases ht
    · rw [ht0] at ht
      cases ht
      right
      refine ⟨_, rfl, rfl, by simp [hlen], ?_, hex⟩
      refine slotOk_set _ k _ hok (Or.inl ⟨rfl, ?_⟩)
      show (-1 : Int) ≠ (k : Int)
      omega

/-- Replacing a slot by one with the same socket and descriptor field, and a
converter that is not lost, keeps the invariant. -/
theorem inv_set (d : CMCommunicationInternalData) (l : List CMCommunicationDescriptionContext)
    (k : Nat) (c c1 : CMCommunicationDescriptionContext) (mu : Bool)
    (hinv : RegistryInv d) (ht : d.CMCommunicationContexts = some l) (hk : l[k]? = some c)
    (h1 : c1.socket = c.socket) (h2 : c1.communicationDescriptor = c.communicationDescriptor)
    (h3 : c.converterf ≠ 0 → c1.converterf ≠ 0) :
    RegistryInv
      { CMCommunicationContexts := some (l.set k c1), capacity := d.capacity, mutex := mu } := by
  rcases hinv with ⟨ht0, _, _⟩ | ⟨l0, ht0, hc0, hlen, hok, c0, hc0mem, hc0s⟩
  · rw [ht0] at ht
    cases ht
  rw [ht0] at ht
  cases ht
  right
  refine ⟨_, rfl, hc0, by simp [hlen], ?_, ?_⟩
  · refine slotOk_set _ k _ hok ?_
    rcases hok k c hk with ⟨ha, hb⟩ | ⟨ha, hb, hcv⟩
    · exact Or.inl ⟨by rw [h1]; exact ha, by rw [h2]; exact hb⟩
    · exact Or.inr ⟨by rw [h1]; exact ha, by rw [h2]; exact hb, h3 hcv⟩
  · obtain ⟨i, hi⟩ := List.mem_iff_getElem?.mp hc0mem
    by_cases hik : k = i
    · subst hik
      rw [hk] at hi
      cases hi
      exact ⟨c1, List.mem_set _ k (getElem?_lt_length _ k _ hk) _, by rw [h1]; exact hc0s⟩
    · refine ⟨c0, List.mem_iff_getElem?.mpr ⟨i, ?_⟩, hc0s⟩
      rw [List.getElem?_set_ne hik]
      exact hi

theorem contextAt_some (l : List CMCommunicationDescriptionContext) (d : Int)
    (c : CMCommunicationDescriptionContext) (h : contextAt (some l) d = some c) :
    0 ≤ d ∧ l[d.toNat]? = some c := by
  unfold contextAt at h
  by_cases h0 : d < 0
  · simp [h0] at h
  · simp only [h0, if_false] at h
    exact ⟨by omega, h⟩

theorem send_preserves {ω μ : Type} (lib : XdrLib ω μ) (p : Process ω) (d : Int)
    (m : Option μ) (r : Int × Option μ × Process ω) (hinv : RegistryInv p.CMInternalData)
    (h : CMSendMessage lib p d m = Outcome.returns r) :
    RegistryInv r.2.2.CMInternalData := by
  unfold CMSendMessage at h
  cases m with
  | none =>
    simp only at h
    cases h
    exact hinv
  | some m =>
    simp only at h
    by_cases hg : p.CMInternalData.capacity < UINT_MAX ∧
        toUnsigned d ≥ p.CMInternalData.capacity
    · rw [if_pos hg] at h
      cases h
      exact hinv
    · rw [if_neg hg] at h
      cases ht : p.CMInternalData.CMCommunicationContexts with
      | none =>
        simp only [ht] at h
        cases h
      | some l =>
        simp only [ht] at h
        cases hctx : contextAt (some l) d with
        | none =>
          simp only [hctx] at h
          cases h
        | some context =>
          simp only [hctx] at h
          have hc := (contextAt_some l d context hctx).2
          have key : ∀ mu, RegistryInv
              { CMCommunicationContexts :=
                  some (l.set d.toNat { context with x_op := xdr_op.XDR_ENCODE })
                capacity := p.CMInternalData.capacity, mutex := mu } :=
            fun mu => inv_set p.CMInternalData l d.toNat context _ mu hinv ht hc rfl rfl
              (fun hx => hx)
          split_ifs at h <;> cases h <;> first | exact hinv | exact key _

theorem receive_preserves {ω μ : Type} (lib : XdrLib ω μ) (p : Process ω) (d : Int)
    (m : Option μ) (r : Int × Option μ × Process ω) (hinv : RegistryInv p.CMInternalData)
    (h : CMReceiveMessage lib p d m = Outcome.returns r) :
    RegistryInv r.2.2.CMInternalData := by
  unfold CMReceiveMessage at h
  cases m with
  | none =>
    simp only at h
    cases h
    exact hinv
  | some m =>
    simp only at h
    by_cases hg : p.CMInternalData.capacity < UINT_MAX ∧
        toUnsigned d ≥ p.CMInternalData.capacity
    · rw [if_pos hg] at h
      cases h
      exact hinv
    · rw [if_neg hg] at h
      cases ht : p.CMInternalData.CMCommunicationContexts with
      | none =>
        simp only [ht] at h
        cases h
      | some l =>
        simp only [ht] at h
        cases hctx : contextAt (some l) d with
        | none =>
          simp only [hctx] at h
          cases h
        | some context =>
          simp only [hctx] at h
          have hc := (contextAt_some l d context hctx).2
          have key : ∀ mu, RegistryInv
              { CMCommunicationContexts :=
                  some (l.set d.toNat { context with x_op := xdr_op.XDR_DECODE })
                capacity := p.CMInternalData.capacity, mutex := mu } :=
            fun mu => inv_set p.CMInternalData l d.toNat context _ mu hinv ht hc rfl rfl
              (fun hx => hx)
          split_ifs at h <;> cases h <;> first | exact hinv | exact key _

theorem setConverter_preserves {ω : Type} (p : Process ω) (d : Int) (f : Nat)
    (q : Process ω) (hinv : RegistryInv p.CMInternalData)
    (h : CMSetConverterF p d f = Outcome.returns q) :
    RegistryInv q.CMInternalData := by
  unfold CMSetConverterF at h
  split_ifs at h with h1 h2 h3
  · cases h
    exact hinv
  · cases h
    exact hinv
  · split at h
    · cases h
    · rename_i l ht
      split at h
      · cases h
      · rename_i context hctx
        have hc := (contextAt_some l d context hctx).2
        cases h
        exact inv_set p.CMInternalData l d.toNat context _ false hinv ht hc rfl rfl
          (fun _ => h1)

theorem getConverter_preserves {ω : Type} (p : Process ω) (d : Int)
    (r : Nat × Process ω) (hinv : RegistryInv p.CMInternalData)
    (h : CMGetConverterF p d = Outcome.returns r) :
    RegistryInv r.2.CMInternalData := by
  unfold CMGetConverterF at h
  split_ifs at h
  · cases h
    exact hinv
  · split at h
    · cases h
    · cases h
      exact hinv

/-- Every call that returns keeps the registry invariant. -/
theorem run_preserves {ω μ : Type} (lib : XdrLib ω μ) (p : Process ω) (c : Call μ)
    (r : Int) (q : Process ω) (ih : RegistryInv p.CMInternalData)
    (hrun : c.run lib p = Outcome.returns (r, q)) : RegistryInv q.CMInternalData := by
  cases c with
  | init heap s f => exact init_preserves lib heap p s f r q ih hrun
  | finish d =>
    simp only [Call.run] at hrun
    split at hrun
    · rename_i q0 hq
      cases hrun
      exact finish_preserves lib p d _ ih hq
    · cases hrun
    · cases hrun
  | send d m =>
    simp only [Call.run] at hrun
    split at hrun
    · rename_i r0 hr
      cases hrun
      exact send_preserves lib p d m r0 ih hr
    · cases hrun
    · cases hrun
  | receive d m =>
    simp only [Call.run] at hrun
    split at hrun
    · rename_i r0 hr
      cases hrun
      exact receive_preserves lib p d m r0 ih hr
    · cases hrun
    · cases hrun
  | setConverter d f =>
    simp only [Call.run] at hrun
    split at hrun
    · rename_i q0 hq
      cases hrun
      exact setConverter_preserves p d f _ ih hq
    · cases hrun
    · cases hrun
  | getConverter d =>
    simp only [Call.run] at hrun
    split at hrun
    · rename_i r0 hr
      cases hrun
      exact getConverter_preserves p d r0 ih hr
    · cases hrun
    · cases hrun

/-- Every reachable state satisfies the registry invariant. -/
theorem reachable_inv {ω μ : Type} (lib : XdrLib ω μ) (p : Process ω)
    (h : Reachable lib p) : RegistryInv p.CMInternalData := by
  induction h with
  | initial e w => exact Or.inl ⟨rfl, rfl, rfl⟩
  | call p c r q _ hrun ih => exact run_preserves lib p c r q ih hrun

/-! ## Validity of descriptors -/

theorem valid_iff {ω : Type} (p : Process ω) (l : List CMCommunicationDescriptionContext)
    (ht : p.CMInternalData.CMCommunicationContexts = some l) (d : Int) :
    Valid p d ↔ ∃ (k : Nat) (c : CMCommunicationDescriptionContext),
      d = (k : Int) ∧ k < p.CMInternalData.capacity ∧ l[k]? = some c ∧
        c.communicationDescriptor = (k : Int) ∧ c.socket ≠ -1 := by
  unfold Valid
  rw [ht]
  constructor
  · rintro ⟨h0, h1, c, hc, hd, hs⟩
    obtain ⟨_, hc2⟩ := contextAt_some l d c hc
    refine ⟨d.toNat, c, by omega, by omega, hc2, ?_, hs⟩
    rw [hd]
    omega
  · rintro ⟨k, c, hd, hk, hc, hcd, hs⟩
    subst hd
    refine ⟨by omega, by omega, c, ?_, hcd, hs⟩
    simp [contextAt, hc]

theorem not_valid_of_none {ω : Type} (p : Process ω)
    (ht : p.CMInternalData.CMCommunicationContexts = none) (d : Int) : ¬ Valid p d := by
  rintro ⟨_, _, c, hc, _⟩
  rw [ht] at hc
  simp [contextAt] at hc

/-- A successful registration: the arguments were acceptable, the descriptor
is valid afterwards and was not valid before, and its slot holds the socket
and the converter. -/
theorem init_success {ω μ : Type} (lib : XdrLib ω μ) (heap : Heap) (p : Process ω)
    (s : Int) (f : Nat) (r : Int) (q : Process ω) (hinv : RegistryInv p.CMInternalData)
    (h : CMInitCommunicationWithSocketAndConverter lib heap p s f = Outcome.returns (r, q))
    (hr : r ≠ -1) :
    0 ≤ s ∧ f ≠ 0 ∧ 0 ≤ r ∧ r < 16 ∧ Valid q r ∧ ¬ Valid p r ∧
      p.CMInternalData.mutex = false ∧ q.CMInternalData.mutex = false ∧
      q.CMInternalData.capacity = 16 ∧
      ∃ c, contextAt q.CMInternalData.CMCommunicationContexts r = some c ∧ c.socket = s ∧
        c.converterf = f ∧ c.communicationDescriptor = r := by
  rcases init_cases lib heap p s f hinv with
    ⟨_, h1⟩ | ⟨_, _, _, h1⟩ | ⟨_, _, _, _, h1⟩ |
    ⟨hs, hf, hm, l, k, c, hl, hk, hlen, hc1, hc2, hall, h1⟩
  · rw [h1] at h
    cases h
    exact absurd rfl hr
  · rw [h1] at h
    cases h
  · rw [h1] at h
    cases h
    exact absurd rfl hr
  · rw [h1] at h
    cases h
    have hget : ∀ c1 : CMCommunicationDescriptionContext, (l.set k c1)[k]? = some c1 :=
      fun c1 => by rw [List.getElem?_set_self (by omega)]
    have hctx : ∀ c1 : CMCommunicationDescriptionContext,
        contextAt (some (l.set k c1)) (k : Int) = some c1 := by
      intro c1
      simp only [contextAt, Int.toNat_ofNat]
      rw [hget]
      simp
    refine ⟨hs, hf, by omega, by omega, ?_, ?_, hm, rfl, rfl, _, hctx _, rfl, rfl, rfl⟩
    · refine ⟨by omega, ?_, _, hctx _, rfl, ?_⟩
      · show (k : Int) < ((16 : Nat) : Int)
        omega
      · show s ≠ -1
        omega
    · rcases hl with hl | ⟨hl, _, _⟩
      · rw [valid_iff p l hl]
        rintro ⟨k2, c2, hk2, _, hc3, _, hs2⟩
        have : k2 = k := by omega
        subst this
        rw [hc1] at hc3
        cases hc3
        exact hs2 hc2
      · exact not_valid_of_none p hl _

/-- Registration does not disturb the other descriptors: a valid descriptor
stays valid with the same slot contents, and the only descriptor that can
become valid is the one returned. -/
theorem init_frame {ω μ : Type} (lib : XdrLib ω μ) (heap : Heap) (p : Process ω)
    (s : Int) (f : Nat) (r : Int) (q : Process ω) (hinv : RegistryInv p.CMInternalData)
    (h : CMInitCommunicationWithSocketAndConverter lib heap p s f = Outcome.returns (r, q))
    (d : Int) :
    (Valid p d → Valid q d ∧
      contextAt q.CMInternalData.CMCommunicationContexts d =
        contextAt p.CMInternalData.CMCommunicationContexts d) ∧
    (Valid q d → Valid p d ∨ d = r) := by
  rcases init_cases lib heap p s f hinv with
    ⟨_, h1⟩ | ⟨_, _, _, h1⟩ | ⟨_, _, _, _, h1⟩ |
    ⟨hs, hf, hm, l, k, c, hl, hk, hlen, hc1, hc2, hall, h1⟩
  · rw [h1] at h
    cases h
    exact ⟨fun hv => ⟨hv, rfl⟩, fun hv => Or.inl hv⟩
  · rw [h1] at h
    cases h
  · rw [h1] at h
    cases h
    exact ⟨fun hv => ⟨hv, rfl⟩, fun hv => Or.inl hv⟩
  · rw [h1] at h
    cases h
    constructor
    · intro hv
      rcases hl with hl | ⟨hl, _, _⟩
      · have hcap : p.CMInternalData.capacity = 16 := by
          rcases hinv with ⟨ht0, _, _⟩ | ⟨l0, _, hc0, _⟩
          · rw [ht0] at hl
            cases hl
          · exact hc0
        obtain ⟨k2, c2, hk2, hk3, hc3, hc4, hs2⟩ := (valid_iff p l hl d).mp hv
        subst hk2
        have hne : k ≠ k2 := by
          intro he
          subst he
          rw [hc1] at hc3
          cases hc3
          exact hs2 hc2
        have hget : ∀ c1 : CMCommunicationDescriptionContext,
            (l.set k c1)[k2]? = some c2 := by
          intro c1
          rw [List.getElem?_set_ne hne]
          exact hc3
        constructor
        · refine (valid_iff _ _ rfl _).mpr ⟨k2, c2, rfl, ?_, hget _, hc4, hs2⟩
          show k2 < 16
          omega
        · rw [hl]
          simp only [contextAt, Int.toNat_ofNat]
          rw [hget, hc3]
      · exact absurd hv (not_valid_of_none p hl d)
    · intro hv
      obtain ⟨k2, c2, hk2, hk3, hc3, hc4, hs2⟩ := (valid_iff _ _ rfl d).mp hv
      subst hk2
      have hk4 : k2 < 16 := hk3
      by_cases hne : k = k2
      · right
        rw [hne]
      · left
        rw [List.getElem?_set_ne hne] at hc3
        rcases hl with hl | ⟨hl, _, hl2⟩
        · have hcap : p.CMInternalData.capacity = 16 := by
            rcases hinv with ⟨ht0, _, _⟩ | ⟨l0, _, hc0, _⟩
            · rw [ht0] at hl
              cases hl
            · exact hc0
          exact (valid_iff p l hl _).mpr ⟨k2, c2, rfl, by omega, hc3, hc4, hs2⟩
        · subst hl2
          have := freshTable_getElem? k2 c2 hc3
          subst this
          exact absurd rfl hs2

theorem init_total {ω μ : Type} (lib : XdrLib ω μ) (heap : Heap) (p : Process ω)
    (s : Int) (f : Nat) (hinv : RegistryInv p.CMInternalData)
    (hm : p.CMInternalData.mutex = false) :
    ∃ r q, CMInitCommunicationWithSocketAndConverter lib heap p s f = Outcome.returns (r, q) ∧
      q.CMInternalData.mutex = false := by
  rcases init_cases lib heap p s f hinv with
    ⟨_, h1⟩ | ⟨_, _, hm2, _⟩ | ⟨_, _, _, _, h1⟩ | ⟨_, _, _, l, k, c, _, _, _, _, _, _, h1⟩
  · exact ⟨_, _, h1, hm⟩
  · rw [hm] at hm2
    cases hm2
  · exact ⟨_, _, h1, hm⟩
  · exact ⟨_, _, h1, rfl⟩

theorem register_sequence_aux {ω μ : Type} (lib : XdrLib ω μ) :
    ∀ (args : List (Heap × Int × Nat)) (p : Process ω), RegistryInv p.CMInternalData →
      (p.CMInternalData.mutex = false →
        ∃ out, runTrace lib p (initCalls args : List (Call μ)) = some out) ∧
      ∀ out, runTrace lib p (initCalls args : List (Call μ)) = some out →
        out.length = args.length ∧
        (∀ (i : Nat) (a : Heap × Int × Nat) (rq : Int × Process ω),
          args[i]? = some a → out[i]? = some rq → rq.1 ≠ -1 →
            0 ≤ rq.1 ∧ Valid rq.2 rq.1 ∧
            ∃ c, contextAt rq.2.CMInternalData.CMCommunicationContexts rq.1 = some c ∧
              c.communicationDescriptor = rq.1 ∧ c.socket = a.2.1 ∧ c.socket ≠ -1) ∧
        (successes out).Nodup ∧ ∀ r ∈ successes out, ¬ Valid p r := by
  intro args
  induction args with
  | nil =>
    intro p _
    refine ⟨fun _ => ⟨[], rfl⟩, ?_⟩
    intro out h
    simp only [initCalls, List.map_nil, runTrace, Option.some.injEq] at h
    subst h
    simp [successes]
  | cons a as ih =>
    intro p hinv
    have hunf : runTrace lib p (initCalls (a :: as) : List (Call μ)) =
        match CMInitCommunicationWithSocketAndConverter lib a.1 p a.2.1 a.2.2 with
        | Outcome.returns r =>
          match runTrace lib r.2 (initCalls as : List (Call μ)) with
          | some rest => some (r :: rest)
          | none => none
        | _ => none := rfl
    constructor
    · intro hm
      obtain ⟨r, q, h1, hmq⟩ := init_total lib a.1 p a.2.1 a.2.2 hinv hm
      obtain ⟨rest, hrest⟩ := (ih q (init_preserves lib a.1 p a.2.1 a.2.2 r q hinv h1)).1 hmq
      exact ⟨(r, q) :: rest, by rw [hunf, h1]; simp only; rw [hrest]⟩
    · intro out h
      rw [hunf] at h
      cases h1 : CMInitCommunicationWithSocketAndConverter lib a.1 p a.2.1 a.2.2 with
      | blocked => rw [h1] at h; cases h
      | undefined => rw [h1] at h; cases h
      | returns rq =>
        obtain ⟨r, q⟩ := rq
        rw [h1] at h
        simp only at h
        cases hrest : runTrace lib q (initCalls as : List (Call μ)) with
        | none => rw [hrest] at h; cases h
        | some rest =>
          rw [hrest] at h
          simp only [Option.some.injEq] at h
          subst h
          have hq := init_preserves lib a.1 p a.2.1 a.2.2 r q hinv h1
          obtain ⟨hlen, hpt, hnd, hfresh⟩ := (ih q hq).2 rest hrest
          refine ⟨by simp [hlen], ?_, ?_, ?_⟩
          · intro i a2 rq2 ha ho hne
            cases i with
            | zero =>
              simp only [List.getElem?_cons_zero, Option.some.injEq] at ha ho
              subst ha ho
              obtain ⟨_, _, h0, _, hv, _, _, _, _, c, hc1, hc2, _, hc4⟩ :=
                init_success lib _ p _ _ _ _ hinv h1 hne
              refine ⟨h0, hv, c, hc1, hc4, hc2, ?_⟩
              obtain ⟨_, _, c2, hc5, _, hc6⟩ := hv
              rw [hc1] at hc5
              cases hc5
              exact hc6
            | succ j =>
              simp only [List.getElem?_cons_succ] at ha ho
              exact hpt j a2 rq2 ha ho hne
          · by_cases hr : r = -1
            · have : successes ((r, q) :: rest) = successes rest := by
                simp [successes, hr]
              rw [this]
              exact hnd
            · have : successes ((r, q) :: rest) = r :: successes rest := by
                simp [successes, hr]
              rw [this]
              refine List.nodup_cons.mpr ⟨?_, hnd⟩
              intro hmem
              have hv := (init_success lib a.1 p a.2.1 a.2.2 r q hinv h1 hr).2.2.2.2.1
              exact hfresh r hmem hv
          · intro x hx
            by_cases hr : r = -1
            · have : successes ((r, q) :: rest) = successes rest := by
                simp [successes, hr]
              rw [this] at hx
              intro hv
              exact hfresh x hx ((init_frame lib a.1 p a.2.1 a.2.2 r q hinv h1 x).1 hv).1
            · have : successes ((r, q) :: rest) = r :: successes rest := by
                simp [successes, hr]
              rw [this] at hx
              rcases List.mem_cons.mp hx with hx | hx
              · subst hx
                exact (init_success lib a.1 p a.2.1 a.2.2 x q hinv h1 hr).2.2.2.2.2.1
              · intro hv
                exact hfresh x hx ((init_frame lib a.1 p a.2.1 a.2.2 r q hinv h1 x).1 hv).1

/-! ## Register: argument errors and descriptor allocation -/

/-- C1: when the socket is negative or the converter is null,
`CMInitCommunicationWithSocketAndConverter` returns `-1` and sets `errno` to
`EINVAL`; the state it leaves differs from the one before in `errno` only, so
the table pointer, the capacity and every slot are as before and no table is
allocated when there was none. -/
theorem register_rejects_bad_arguments {ω μ : Type} (lib : XdrLib ω μ) (heap : Heap)
    (p : Process ω) (socket : Int) (converterf : Nat) (h : socket < 0 ∨ converterf = 0) :
    CMInitCommunicationWithSocketAndConverter lib heap p socket converterf =
      Outcome.returns (-1, { p with errno := EINVAL }) := by
  simp [CMInitCommunicationWithSocketAndConverter, h]

theorem register_rejects_bad_arguments_witness :
    ((-1 : Int) < 0 ∨ (7 : Nat) = 0) ∧
      CMInitCommunicationWithSocketAndConverter quietXdr goodHeap (Process.initial 0 ()) (-1) 7 =
        Outcome.returns (-1, { Process.initial 0 () with errno := EINVAL }) :=
  ⟨by decide,
    register_rejects_bad_arguments quietXdr goodHeap (Process.initial 0 ()) (-1) 7 (by decide)⟩

/-- C2: from a reachable state, run any sequence of
`CMInitCommunicationWithSocketAndConverter` calls with nothing in between.
If the mutex is free the calls all return.  Every call that returns a value
other than `-1` returns a non-negative descriptor that is valid in the state
the call leaves (in range, the slot carries the descriptor, and the slot's
socket is the socket given, which is not `-1`), and the descriptors returned by
the successful calls are pairwise distinct. -/
theorem register_sequence_valid_distinct {ω μ : Type} (lib : XdrLib ω μ) (p : Process ω)
    (hp : Reachable lib p) (args : List (Heap × Int × Nat)) :
    (p.CMInternalData.mutex = false →
      ∃ out, runTrace lib p (initCalls args : List (Call μ)) = some out) ∧
    ∀ out, runTrace lib p (initCalls args : List (Call μ)) = some out →
      out.length = args.length ∧
      (∀ (i : Nat) (a : Heap × Int × Nat) (rq : Int × Process ω),
        args[i]? = some a → out[i]? = some rq → rq.1 ≠ -1 →
          0 ≤ rq.1 ∧ Valid rq.2 rq.1 ∧
          ∃ c, contextAt rq.2.CMInternalData.CMCommunicationContexts rq.1 = some c ∧
            c.communicationDescriptor = rq.1 ∧ c.socket = a.2.1 ∧ c.socket ≠ -1) ∧
      (successes out).Nodup := by
  obtain ⟨h1, h2⟩ := register_sequence_aux lib args p (reachable_inv lib p hp)
  refine ⟨h1, ?_⟩
  intro out hout
  obtain ⟨ha, hb, hc, _⟩ := h2 out hout
  exact ⟨ha, hb, hc⟩

theorem register_sequence_valid_distinct_witness :
    Reachable quietXdr (Process.initial 0 ()) ∧
      (successes
        ((runTrace quietXdr (Process.initial 0 ())
          (initCalls [(goodHeap, 3, 7), (goodHeap, 4, 7), (goodHeap, 5, 9)] :
            List (Call Nat))).getD [])).Nodup ∧
      successes
        ((runTrace quietXdr (Process.initial 0 ())
          (initCalls [(goodHeap, 3, 7), (goodHeap, 4, 7), (goodHeap, 5, 9)] :
            List (Call Nat))).getD []) = [0, 1, 2] :=
  ⟨Reachable.initial 0 (),
    ((register_sequence_valid_distinct quietXdr (Process.initial 0 ())
      (Reachable.initial 0 ()) [(goodHeap, 3, 7), (goodHeap, 4, 7), (goodHeap, 5, 9)]).2
        _ rfl).2.2,
    by decide⟩

/-! ## GetCodec and SetCodec -/

theorem toUnsigned_small (d : Int) (h0 : 0 ≤ d) (h1 : d < 16) : toUnsigned d < 16 := by
  unfold toUnsigned
  omega

theorem getConverter_of_context {ω : Type} (q : Process ω) (d : Int)
    (c : CMCommunicationDescriptionContext) (hcap : q.CMInternalData.capacity = 16)
    (hm : q.CMInternalData.mutex = false) (h0 : 0 ≤ d) (h1 : d < 16)
    (hc : contextAt q.CMInternalData.CMCommunicationContexts d = some c) :
    CMGetConverterF q d = Outcome.returns (c.converterf, q) := by
  have hu := toUnsigned_small d h0 h1
  have hg : ¬ (q.CMInternalData.capacity < UINT_MAX ∧
      toUnsigned d ≥ q.CMInternalData.capacity) := by
    rw [hcap]
    omega
  simp only [CMGetConverterF, hg, hm, hc, if_false]
  simp

/-- The ways `CMSetConverterF` ends on a valid descriptor with a converter
that is not null. -/
theorem setConverter_valid {ω : Type} (p : Process ω) (d : Int) (f : Nat)
    (hinv : RegistryInv p.CMInternalData) (hv : Valid p d) (hf : f ≠ 0) :
    (p.CMInternalData.mutex = true ∧ CMSetConverterF p d f = Outcome.blocked) ∨
    (p.CMInternalData.mutex = false ∧
      ∃ (l : List CMCommunicationDescriptionContext) (k : Nat)
          (c : CMCommunicationDescriptionContext),
        p.CMInternalData.CMCommunicationContexts = some l ∧ d = (k : Int) ∧ k < 16 ∧
        l[k]? = some c ∧
        CMSetConverterF p d f =
          Outcome.returns
            { p with
              CMInternalData :=
                { CMCommunicationContexts := some (l.set k { c with converterf := f })
                  capacity := 16
                  mutex := false } }) := by
  rcases hinv with ⟨ht, _, _⟩ | ⟨l, ht, hc, hlen, hok, hex⟩
  · exact absurd hv (not_valid_of_none p ht d)
  obtain ⟨k, c, hk, hk2, hc1, _, _⟩ := (valid_iff p l ht d).mp hv
  subst hk
  rw [hc] at hk2
  have hu := toUnsigned_small (k : Int) (by omega) (by omega)
  have hg : ¬ (p.CMInternalData.capacity < UINT_MAX ∧
      toUnsigned (k : Int) ≥ p.CMInternalData.capacity) := by
    rw [hc]
    omega
  have hctx : contextAt (some l) (k : Int) = some c := by
    simp [contextAt, hc1]
  cases hm : p.CMInternalData.mutex with
  | true =>
    left
    refine ⟨rfl, ?_⟩
    simp only [CMSetConverterF, hf, hg, hm, if_false, if_true]
  | false =>
    right
    refine ⟨rfl, l, k, c, ht, rfl, hk2, hc1, ?_⟩
    simp only [CMSetConverterF, hf, hg, hm, ht, hctx, hc, Int.toNat_ofNat, if_false]
    simp
    intro _ hge
    omega

/-- C3: `CMGetConverterF` returns the converter most recently bound.  In a
reachable state: right after a registration that returned a descriptor `d`
(not `-1`) for converter `f`, `CMGetConverterF d` returns `f`; and for a valid
`d` and a converter `c2` that is not null, `CMSetConverterF d c2` returns when
the mutex is free, and right after it has returned `CMGetConverterF d`
returns `c2`.  Neither read changes the state. -/
theorem getConverter_returns_bound_codec {ω μ : Type} (lib : XdrLib ω μ) (p : Process ω)
    (hp : Reachable lib p) :
    (∀ (heap : Heap) (s : Int) (f : Nat) (d : Int) (q : Process ω),
      CMInitCommunicationWithSocketAndConverter lib heap p s f = Outcome.returns (d, q) →
        d ≠ -1 → CMGetConverterF q d = Outcome.returns (f, q)) ∧
    (∀ (d : Int) (c2 : Nat), Valid p d → c2 ≠ 0 →
      (p.CMInternalData.mutex = false → ∃ q, CMSetConverterF p d c2 = Outcome.returns q) ∧
      ∀ q, CMSetConverterF p d c2 = Outcome.returns q →
        CMGetConverterF q d = Outcome.returns (c2, q)) := by
  have hinv := reachable_inv lib p hp
  constructor
  · intro heap s f d q h hd
    obtain ⟨_, _, h0, h16, _, _, _, hm, hcap, c, hc, _, hcf, _⟩ :=
      init_success lib heap p s f d q hinv h hd
    rw [← hcf]
    exact getConverter_of_context q d c hcap hm h0 h16 hc
  · intro d c2 hv hc2
    rcases setConverter_valid p d c2 hinv hv hc2 with
      ⟨hm, hb⟩ | ⟨hm, l, k, c, ht, hk, hk16, hc1, hset⟩
    · refine ⟨fun hm2 => ?_, fun q hq => ?_⟩
      · rw [hm] at hm2
        cases hm2
      · rw [hb] at hq
        cases hq
    · refine ⟨fun _ => ⟨_, hset⟩, fun q hq => ?_⟩
      rw [hset] at hq
      cases hq
      subst hk
      have hctx : ∀ c1 : CMCommunicationDescriptionContext,
          contextAt (some (l.set k c1)) (k : Int) = some c1 := by
        intro c1
        have hlt := getElem?_lt_length l k c hc1
        simp only [contextAt, Int.toNat_ofNat]
        rw [List.getElem?_set_self hlt]
        simp
      exact getConverter_of_context _ (k : Int) { c with converterf := c2 } rfl rfl
        (by omega) (by omega) (hctx _)

theorem getConverter_returns_bound_codec_witness :
    Reachable quietXdr (Process.initial 0 ()) ∧
      CMGetConverterF (afterCalls [Call.init goodHeap 3 7]) 0 =
        Outcome.returns (7, afterCalls [Call.init goodHeap 3 7]) :=
  ⟨Reachable.initial 0 (),
    (getConverter_returns_bound_codec quietXdr (Process.initial 0 ())
      (Reachable.initial 0 ())).1 goodHeap 3 7 0 (afterCalls [Call.init goodHeap 3 7]) rfl
      (by decide)⟩

/-! ## Register on a full table, and failure atomicity -/

/-- C4, evaluated at the seventeenth registration: sixteen registrations on
the empty registry return `0, 1, ..., 15` and fill the table of capacity 16,
for which doubling does not overflow `unsigned int`; the seventeenth, with a
valid socket and converter and an allocator that succeeds, returns `-1` with
`errno = ENOMEM` and leaves the capacity at 16 instead of growing the table. -/
theorem register_seventeenth_refused :
    (runTrace quietXdr (Process.initial 0 ())
        (initCalls ((List.range 16).map fun i => (goodHeap, (3 + i : Int), 7)) :
          List (Call Nat))).map (List.map Prod.fst) =
      some [0, 1, 2, 3, 4, 5, 6, 7, 8, 9, 10, 11, 12, 13, 14, 15] ∧
    (afterCalls (initCalls ((List.range 16).map fun i =>
      (goodHeap, (3 + i : Int), 7)))).CMInternalData.capacity = 16 ∧
    2 * 16 ≤ UINT_MAX ∧
    CMInitCommunicationWithSocketAndConverter quietXdr goodHeap
        (afterCalls (initCalls ((List.range 16).map fun i => (goodHeap, (3 + i : Int), 7))))
        19 7 =
      Outcome.returns (-1,
        { afterCalls (initCalls ((List.range 16).map fun i => (goodHeap, (3 + i : Int), 7)))
          with errno := ENOMEM }) := by
  refine ⟨by decide, by decide, by decide, ?_⟩
  rfl

theorem markFree_length (l : List CMCommunicationDescriptionContext) (lo hi : Nat) :
    (markFree l lo hi).length = l.length := by
  simp [markFree]

theorem reallocTable_length (l : List CMCommunicationDescriptionContext) (n : Nat)
    (junk : CMCommunicationDescriptionContext) : (reallocTable l n junk).length = n := by
  simp only [reallocTable, List.length_append, List.length_take, List.length_replicate]
  omega

theorem toSigned_ne_neg_one (x : Nat) (h : x < UINT_MAX) : toSigned x ≠ -1 := by
  unfold UINT_MAX at h
  unfold toSigned
  have h1 : x % 4294967296 = x := Nat.mod_eq_of_lt (by omega)
  rw [h1]
  split_ifs <;> omega

theorem data_eta (d : CMCommunicationInternalData)
    (l : List CMCommunicationDescriptionContext)
    (h1 : d.CMCommunicationContexts = some l) (h3 : d.mutex = false) :
    ({ CMCommunicationContexts := some l, capacity := d.capacity, mutex := false } :
      CMCommunicationInternalData) = d := by
  cases d with
  | mk t c m =>
    simp only at h1 h3
    subst h1 h3
    rfl

/-- C5: failure atomicity of registration, for every state whose capacity is
an `unsigned int`.  With an acceptable socket and converter, a return value of
`-1` means `errno = ENOMEM` and a registry (table pointer, every slot,
capacity, mutex), world and trace exactly as before the call.  Such returns
happen: when there is no table and `calloc` fails, the call returns `-1`. -/
theorem register_enomem_atomic {ω μ : Type} (lib : XdrLib ω μ) (heap : Heap) (p : Process ω)
    (s : Int) (f : Nat) (hcap : p.CMInternalData.capacity ≤ UINT_MAX) (hs : 0 ≤ s)
    (hf : f ≠ 0) :
    (∀ q, CMInitCommunicationWithSocketAndConverter lib heap p s f = Outcome.returns (-1, q) →
      q.errno = ENOMEM ∧ q.CMInternalData = p.CMInternalData ∧ q.world = p.world ∧
        q.trace = p.trace) ∧
    (p.CMInternalData.CMCommunicationContexts = none → p.CMInternalData.mutex = false →
      heap.callocOk = false →
        CMInitCommunicationWithSocketAndConverter lib heap p s f =
          Outcome.returns (-1, { p with errno := ENOMEM })) := by
  have h1 : ¬ (s < 0 ∨ f = 0) := by
    rintro (h | h)
    · omega
    · exact hf h
  constructor
  · intro q h
    unfold CMInitCommunicationWithSocketAndConverter at h
    rw [if_neg h1] at h
    cases hm : p.CMInternalData.mutex with
    | true =>
      simp only [hm, if_true] at h
      cases h
    | false =>
      simp only [hm] at h
      cases ht : p.CMInternalData.CMCommunicationContexts with
      | none =>
        cases hco : heap.callocOk with
        | false =>
          simp only [initialTable, ht, hco] at h
          simp only [Bool.false_eq_true, if_false, Outcome.returns.injEq, Prod.mk.injEq,
            true_and] at h
          subst h
          exact ⟨rfl, rfl, rfl, rfl⟩
        | true =>
          have hft : markFree (List.replicate 16 zeroContext) 0 16 = freshTable := rfl
          have hff : firstFree freshTable 16 0 = some 0 := by decide
          have hg : growTable heap freshTable 16 0 = Outcome.returns (some (freshTable, 16)) := by
            simp [growTable]
          have h0 : freshTable[0]? = some { zeroContext with socket := -1 } := by decide
          simp only [initialTable, ht, hco, if_true, hft, hff, hg, h0, Bool.false_eq_true,
            if_false, Outcome.returns.injEq, Prod.mk.injEq] at h
          have : toSigned 0 = 0 := by decide
          rw [this] at h
          omega
      | some l =>
        simp only [initialTable, ht, Bool.false_eq_true, if_false] at h
        cases hff : firstFree l p.CMInternalData.capacity 0 with
        | none =>
          simp only [hff] at h
          cases h
        | some index =>
          simp only [hff] at h
          cases hg : growTable heap l p.CMInternalData.capacity index with
          | blocked =>
            simp only [hg] at h
            cases h
          | undefined =>
            simp only [hg] at h
            cases h
          | returns o =>
            cases o with
            | none =>
              simp only [hg, Outcome.returns.injEq, Prod.mk.injEq, true_and] at h
              subst h
              exact ⟨rfl, data_eta p.CMInternalData l ht hm, rfl, rfl⟩
            | some lc =>
              obtain ⟨l2, cap2⟩ := lc
              simp only [hg] at h
              cases hctx : l2[index]? with
              | none =>
                simp only [hctx] at h
                cases h
              | some context =>
                simp only [hctx, Outcome.returns.injEq, Prod.mk.injEq] at h
                exfalso
                have hlt := getElem?_lt_length l2 index context hctx
                by_cases hic : index ≥ p.CMInternalData.capacity
                · unfold growTable at hg
                  rw [if_pos hic] at hg
                  split_ifs at hg with hx hz hy <;>
                    simp only [Outcome.returns.injEq, Option.some.injEq, Prod.mk.injEq,
                      reduceCtorEq] at hg
                  have hl2 : l2.length =
                      (p.CMInternalData.capacity <<< 1) % 4294967296 := by
                    rw [← hg.1, markFree_length, reallocTable_length]
                  rcases firstFree_spec l _ 0 index hff with ⟨hu, _⟩ | ⟨_, hb, _⟩
                  · rw [hl2, Nat.shiftLeft_eq] at hlt
                    unfold UINT_MAX at hu
                    omega
                  · omega
                · have hlt2 : index < UINT_MAX := by omega
                  exact toSigned_ne_neg_one index hlt2 h.1
  · intro ht hm hco
    simp [CMInitCommunicationWithSocketAndConverter, h1, hm, initialTable, ht, hco]

theorem register_enomem_atomic_witness :
    (Process.initial 0 ()).CMInternalData.capacity ≤ UINT_MAX ∧ (0 : Int) ≤ 3 ∧ (7 : Nat) ≠ 0 ∧
      CMInitCommunicationWithSocketAndConverter quietXdr badHeap (Process.initial 0 ()) 3 7 =
        Outcome.returns (-1, { Process.initial 0 () with errno := ENOMEM }) :=
  ⟨by decide, by decide, by decide,
    (register_enomem_atomic quietXdr badHeap (Process.initial 0 ()) 3 7 (by decide)
      (by decide) (by decide)).2 rfl rfl rfl⟩

/-! ## Calls that keep the shape of the table -/

theorem send_shape {ω μ : Type} (lib : XdrLib ω μ) (p : Process ω) (d : Int)
    (m : Option μ) (r : Int × Option μ × Process ω)
    (h : CMSendMessage lib p d m = Outcome.returns r) :
    SameShape p.CMInternalData r.2.2.CMInternalData := by
  unfold CMSendMessage at h
  cases m with
  | none =>
    simp only at h
    cases h
    exact Or.inl rfl
  | some m =>
    simp only at h
    by_cases hg : p.CMInternalData.capacity < UINT_MAX ∧
        toUnsigned d ≥ p.CMInternalData.capacity
    · rw [if_pos hg] at h
      cases h
      exact Or.inl rfl
    · rw [if_neg hg] at h
      cases ht : p.CMInternalData.CMCommunicationContexts with
      | none =>
        simp only [ht] at h
        cases h
      | some l =>
        simp only [ht] at h
        cases hctx : contextAt (some l) d with
        | none =>
          simp only [hctx] at h
          cases h
        | some context =>
          simp only [hctx] at h
          have hc := (contextAt_some l d context hctx).2
          have key : SameShape p.CMInternalData
              { CMCommunicationContexts :=
                  some (l.set d.toNat { context with x_op := xdr_op.XDR_ENCODE })
                capacity := p.CMInternalData.capacity, mutex := p.CMInternalData.mutex } :=
            Or.inr ⟨l, d.toNat, context, { context with x_op := xdr_op.XDR_ENCODE }, _, ht, hc,
              rfl, rfl, rfl⟩
          split_ifs at h <;> cases h <;> first | exact Or.inl rfl | exact key

theorem receive_shape {ω μ : Type} (lib : XdrLib ω μ) (p : Process ω) (d : Int)
    (m : Option μ) (r : Int × Option μ × Process ω)
    (h : CMReceiveMessage lib p d m = Outcome.returns r) :
    SameShape p.CMInternalData r.2.2.CMInternalData := by
  unfold CMReceiveMessage at h
  cases m with
  | none =>
    simp only at h
    cases h
    exact Or.inl rfl
  | some m =>
    simp only at h
    by_cases hg : p.CMInternalData.capacity < UINT_MAX ∧
        toUnsigned d ≥ p.CMInternalData.capacity
    · rw [if_pos hg] at h
      cases h
      exact Or.inl rfl
    · rw [if_neg hg] at h
      cases ht : p.CMInternalData.CMCommunicationContexts with
      | none =>
        simp only [ht] at h
        cases h
      | some l =>
        simp only [ht] at h
        cases hctx : contextAt (some l) d with
        | none =>
          simp only [hctx] at h
          cases h
        | some context =>
          simp only [hctx] at h
          have hc := (contextAt_some l d context hctx).2
          have key : SameShape p.CMInternalData
              { CMCommunicationContexts :=
                  some (l.set d.toNat { context with x_op := xdr_op.XDR_DECODE })
                capacity := p.CMInternalData.capacity, mutex := p.CMInternalData.mutex } :=
            Or.inr ⟨l, d.toNat, context, { context with x_op := xdr_op.XDR_DECODE }, _, ht, hc,
              rfl, rfl, rfl⟩
          split_ifs at h <;> cases h <;> first | exact Or.inl rfl | exact key

theorem setConverter_shape {ω : Type} (p : Process ω) (d : Int) (f : Nat) (q : Process ω)
    (h : CMSetConverterF p d f = Outcome.returns q) :
    SameShape p.CMInternalData q.CMInternalData := by
  unfold CMSetConverterF at h
  split_ifs at h with h1 h2 h3
  · cases h
    exact Or.inl rfl
  · cases h
    exact Or.inl rfl
  · split at h
    · cases h
    · rename_i l ht
      split at h
      · cases h
      · rename_i context hctx
        have hc := (contextAt_some l d context hctx).2
        cases h
        exact Or.inr ⟨l, d.toNat, context, { context with converterf := f }, _, ht, hc,
          rfl, rfl, rfl⟩

theorem getConverter_shape {ω : Type} (p : Process ω) (d : Int) (r : Nat × Process ω)
    (h : CMGetConverterF p d = Outcome.returns r) :
    SameShape p.CMInternalData r.2.CMInternalData := by
  unfold CMGetConverterF at h
  split_ifs at h
  · cases h
    exact Or.inl rfl
  · split at h
    · cases h
    · cases h
      exact Or.inl rfl

theorem valid_congr {ω : Type} (p q : Process ω) (d : Int)
    (h : q.CMInternalData.CMCommunicationContexts = p.CMInternalData.CMCommunicationContexts)
    (hc : q.CMInternalData.capacity = p.CMInternalData.capacity) :
    Valid q d ↔ Valid p d := by
  unfold Valid
  rw [h, hc]

theorem valid_of_shape {ω : Type} (p q : Process ω) (d : Int)
    (h : SameShape p.CMInternalData q.CMInternalData) : Valid q d ↔ Valid p d := by
  rcases h with h | ⟨l, k, c, c1, mu, ht, hk, hs, hd, hq⟩
  · exact valid_congr p q d (by rw [h]) (by rw [h])
  · have htq : q.CMInternalData.CMCommunicationContexts = some (l.set k c1) := by rw [hq]
    have hcq : q.CMInternalData.capacity = p.CMInternalData.capacity := by rw [hq]
    rw [valid_iff q _ htq, valid_iff p l ht, hcq]
    constructor
    · rintro ⟨k2, c2, hk2, hk3, hc2, hc3, hc4⟩
      by_cases hkk : k = k2
      · subst hkk
        rw [List.getElem?_set_self (getElem?_lt_length l k c hk)] at hc2
        cases hc2
        exact ⟨k, c, hk2, hk3, hk, by rw [← hd]; exact hc3, by rw [← hs]; exact hc4⟩
      · rw [List.getElem?_set_ne hkk] at hc2
        exact ⟨k2, c2, hk2, hk3, hc2, hc3, hc4⟩
    · rintro ⟨k2, c2, hk2, hk3, hc2, hc3, hc4⟩
      by_cases hkk : k = k2
      · subst hkk
        rw [hk] at hc2
        cases hc2
        refine ⟨k, c1, hk2, hk3, ?_, by rw [hd]; exact hc3, by rw [hs]; exact hc4⟩
        rw [List.getElem?_set_self (getElem?_lt_length l k _ hk)]
      · refine ⟨k2, c2, hk2, hk3, ?_, hc3, hc4⟩
        rw [List.getElem?_set_ne hkk]
        exact hc2

/-! ## Release of a valid descriptor -/

theorem inv_capacity {ω : Type} (p : Process ω) (l : List CMCommunicationDescriptionContext)
    (hinv : RegistryInv p.CMInternalData)
    (ht : p.CMInternalData.CMCommunicationContexts = some l) :
    p.CMInternalData.capacity = 16 ∧ l.length = 16 := by
  rcases hinv with ⟨ht0, _, _⟩ | ⟨l0, ht0, hc0, hlen, _, _⟩
  · rw [ht0] at ht
    cases ht
  · rw [ht0] at ht
    cases ht
    exact ⟨hc0, hlen⟩

theorem valid_range {ω : Type} (p : Process ω) (d : Int)
    (hinv : RegistryInv p.CMInternalData) (hv : Valid p d) : 0 ≤ d ∧ d < 16 := by
  rcases hinv with ⟨ht, _, _⟩ | ⟨l, ht, hc, _, _, _⟩
  · exact absurd hv (not_valid_of_none p ht d)
  · obtain ⟨h0, h1, _⟩ := hv
    rw [hc] at h1
    exact ⟨h0, by omega⟩

/-- Releasing a valid descriptor: the call blocks on a held mutex; otherwise
it returns with the mutex free, the descriptor is no longer valid and the
validity of the other descriptors is as before. -/
theorem finish_valid {ω μ : Type} (lib : XdrLib ω μ) (p : Process ω) (d : Int)
    (hinv : RegistryInv p.CMInternalData) (hv : Valid p d) :
    (p.CMInternalData.mutex = true ∧
      CMFinishCommunicationWithCommunicationDescriptor lib p d = Outcome.blocked) ∨
    (p.CMInternalData.mutex = false ∧
      ∃ q, CMFinishCommunicationWithCommunicationDescriptor lib p d = Outcome.returns q ∧
        q.CMInternalData.mutex = false ∧ ∀ x, Valid q x ↔ (Valid p x ∧ x ≠ d)) := by
  obtain ⟨hd0, hd16⟩ := valid_range p d hinv hv
  have hu := toUnsigned_small d hd0 hd16
  rcases finish_cases lib p d hinv with
    ⟨hg, _⟩ | ⟨_, hm, h1⟩ | ⟨_, _, hni, _⟩ | ⟨_, _, l, k, c, ht, hk, _, hc1, hne, _⟩ |
    ⟨_, hm, l, k, c, ht, hk, hk16, hc1, _, ⟨hall, h1⟩ | ⟨_, h1⟩⟩
  · rcases hinv with ⟨ht, _, _⟩ | ⟨l, ht, hc, _, _, _⟩
    · exact absurd hv (not_valid_of_none p ht d)
    · rw [hc] at hg
      omega
  · exact Or.inl ⟨hm, h1⟩
  · exfalso
    apply hni
    unfold IsInt INT_MIN INT_MAX
    omega
  · exfalso
    obtain ⟨k2, c2, hk2, _, hc2, hc3, _⟩ := (valid_iff p l ht d).mp hv
    have : k2 = k := by omega
    subst this
    rw [hc1] at hc2
    cases hc2
    apply hne
    rw [hc3, hk2]
  · right
    refine ⟨hm, _, h1, rfl, ?_⟩
    intro x
    constructor
    · intro hx
      exact absurd hx (not_valid_of_none _ rfl x)
    · rintro ⟨hx, hxd⟩
      exfalso
      obtain ⟨k2, c2, hk2, _, hc2, _, hc4⟩ := (valid_iff p l ht x).mp hx
      have hkk : k ≠ k2 := by
        intro he
        apply hxd
        rw [hk2, hk, he]
      apply hc4
      apply hall k2 c2
      rw [List.getElem?_set_ne hkk]
      exact hc2
  · right
    refine ⟨hm, _, h1, rfl, ?_⟩
    intro x
    have hcap := (inv_capacity p l hinv ht).1
    rw [valid_iff _ _ rfl x, valid_iff p l ht x]
    constructor
    · rintro ⟨k2, c2, hk2, hk3, hc2, hc3, hc4⟩
      by_cases hkk : k = k2
      · subst hkk
        rw [List.getElem?_set_self (getElem?_lt_length l k c hc1)] at hc2
        cases hc2
        exact absurd rfl hc4
      · rw [List.getElem?_set_ne hkk] at hc2
        refine ⟨⟨k2, c2, hk2, ?_, hc2, hc3, hc4⟩, ?_⟩
        · rw [hcap]
          exact hk3
        · rw [hk2, hk]
          omega
    · rintro ⟨⟨k2, c2, hk2, hk3, hc2, hc3, hc4⟩, hxd⟩
      have hkk : k ≠ k2 := by
        intro he
        apply hxd
        rw [hk2, hk, he]
      refine ⟨k2, c2, hk2, ?_, ?_, hc3, hc4⟩
      · rw [hcap] at hk3
        exact hk3
      · rw [List.getElem?_set_ne hkk]
        exact hc2

/-- Release never makes a descriptor valid. -/
theorem finish_valid_sub {ω μ : Type} (lib : XdrLib ω μ) (p : Process ω) (d : Int)
    (q : Process ω) (hinv : RegistryInv p.CMInternalData)
    (h : CMFinishCommunicationWithCommunicationDescriptor lib p d = Outcome.returns q)
    (x : Int) (hx : Valid q x) : Valid p x := by
  rcases finish_cases lib p d hinv with
    ⟨_, h1⟩ | ⟨_, _, h1⟩ | ⟨_, _, _, h1⟩ | ⟨_, _, l, k, c, ht, hk, _, hc1, hne, h1⟩ |
    ⟨_, hm, l, k, c, ht, hk, hk16, hc1, _, ⟨hall, h1⟩ | ⟨_, h1⟩⟩
  · rw [h1] at h
    cases h
    exact (valid_congr p _ x rfl rfl).mp hx
  · rw [h1] at h
    cases h
  · rw [h1] at h
    cases h
  · rw [h1] at h
    cases h
    exact (valid_congr p _ x rfl rfl).mp hx
  · rw [h1] at h
    cases h
    exact absurd hx (not_valid_of_none _ rfl x)
  · rw [h1] at h
    cases h
    have hcap := (inv_capacity p l hinv ht).1
    obtain ⟨k2, c2, hk2, hk3, hc2, hc3, hc4⟩ := (valid_iff _ _ rfl x).mp hx
    by_cases hkk : k = k2
    · subst hkk
      rw [List.getElem?_set_self (getElem?_lt_length l k c hc1)] at hc2
      cases hc2
      exact absurd rfl hc4
    · rw [List.getElem?_set_ne hkk] at hc2
      refine (valid_iff p l ht x).mpr ⟨k2, c2, hk2, ?_, hc2, hc3, hc4⟩
      rw [hcap]
      exact hk3

/-! ## Descriptors that are not valid -/

/-- The only call that can make a descriptor valid is a registration that
returns it. -/
theorem run_valid_sub {ω μ : Type} (lib : XdrLib ω μ) (p : Process ω) (c : Call μ)
    (r : Int) (q : Process ω) (hinv : RegistryInv p.CMInternalData)
    (hrun : c.run lib p = Outcome.returns (r, q)) (x : Int) (hx : Valid q x) :
    Valid p x ∨ (c.isInit = true ∧ r = x) := by
  cases c with
  | init heap s f =>
    rcases (init_frame lib heap p s f r q hinv hrun x).2 hx with h | h
    · exact Or.inl h
    · exact Or.inr ⟨rfl, h.symm⟩
  | finish d =>
    simp only [Call.run] at hrun
    split at hrun
    · rename_i q0 hq
      cases hrun
      exact Or.inl (finish_valid_sub lib p d _ hinv hq x hx)
    · cases hrun
    · cases hrun
  | send d m =>
    simp only [Call.run] at hrun
    split at hrun
    · rename_i r0 hr
      cases hrun
      exact Or.inl ((valid_of_shape p _ x (send_shape lib p d m r0 hr)).mp hx)
    · cases hrun
    · cases hrun
  | receive d m =>
    simp only [Call.run] at hrun
    split at hrun
    · rename_i r0 hr
      cases hrun
      exact Or.inl ((valid_of_shape p _ x (receive_shape lib p d m r0 hr)).mp hx)
    · cases hrun
    · cases hrun
  | setConverter d f =>
    simp only [Call.run] at hrun
    split at hrun
    · rename_i q0 hq
      cases hrun
      exact Or.inl ((valid_of_shape p _ x (setConverter_shape p d f _ hq)).mp hx)
    · cases hrun
    · cases hrun
  | getConverter d =>
    simp only [Call.run] at hrun
    split at hrun
    · rename_i r0 hr
      cases hrun
      exact Or.inl ((valid_of_shape p _ x (getConverter_shape p d r0 hr)).mp hx)
    · cases hrun
    · cases hrun

theorem runCalls_cons {ω μ : Type} (lib : XdrLib ω μ) (p p2 : Process ω) (c : Call μ)
    (cs : List (Call μ)) (h : runCalls lib p (c :: cs) = some p2) :
    ∃ r q, c.run lib p = Outcome.returns (r, q) ∧ runCalls lib q cs = some p2 := by
  unfold runCalls at h
  cases hc : c.run lib p with
  | returns rq =>
    rw [hc] at h
    exact ⟨rq.1, rq.2, rfl, h⟩
  | blocked =>
    rw [hc] at h
    cases h
  | undefined =>
    rw [hc] at h
    cases h

theorem reachable_runCalls {ω μ : Type} (lib : XdrLib ω μ) :
    ∀ (cs : List (Call μ)) (p q : Process ω), Reachable lib p →
      runCalls lib p cs = some q → Reachable lib q := by
  intro cs
  induction cs with
  | nil =>
    intro p q hp h
    simp only [runCalls, Option.some.injEq] at h
    subst h
    exact hp
  | cons c cs ih =>
    intro p q hp h
    obtain ⟨r, q1, h1, h2⟩ := runCalls_cons lib p q c cs h
    exact ih q1 q (Reachable.call p c r q1 hp h1) h2

theorem not_valid_after {ω μ : Type} (lib : XdrLib ω μ) (d : Int) :
    ∀ (cs : List (Call μ)) (p1 p2 : Process ω), RegistryInv p1.CMInternalData →
      ¬ Valid p1 d → runCalls lib p1 cs = some p2 → handsOut lib d p1 cs = false →
        RegistryInv p2.CMInternalData ∧ ¬ Valid p2 d := by
  intro cs
  induction cs with
  | nil =>
    intro p1 p2 hinv hnv h _
    simp only [runCalls, Option.some.injEq] at h
    subst h
    exact ⟨hinv, hnv⟩
  | cons c cs ih =>
    intro p1 p2 hinv hnv h hno
    obtain ⟨r, q, h1, h2⟩ := runCalls_cons lib p1 p2 c cs h
    unfold handsOut at hno
    rw [h1] at hno
    simp only [Bool.or_eq_false_iff, Bool.and_eq_false_imp, decide_eq_false_iff_not] at hno
    refine ih q p2 (run_preserves lib p1 c r q hinv h1) ?_ h2 hno.2
    intro hv
    rcases run_valid_sub lib p1 c r q hinv h1 d hv with hv1 | ⟨hi, hr⟩
    · exact hnv hv1
    · exact hno.1 hi hr

theorem send_einval {ω μ : Type} (lib : XdrLib ω μ) (p : Process ω) (d : Int)
    (m : Option μ) (hinv : RegistryInv p.CMInternalData) (hd : IsInt d)
    (hnv : ¬ Valid p d) :
    CMSendMessage lib p d m = Outcome.returns (-1, m, { p with errno := EINVAL }) := by
  cases m with
  | none => simp [CMSendMessage]
  | some m =>
    rcases hinv with ⟨ht, hc, _⟩ | ⟨l, ht, hc, hlen, _, _⟩
    · simp [CMSendMessage, hc, UINT_MAX]
    · by_cases hg : toUnsigned d ≥ 16
      · simp [CMSendMessage, hc, UINT_MAX, hg]
      · have hr : 0 ≤ d ∧ d < 16 := by
          unfold IsInt INT_MIN INT_MAX at hd
          unfold toUnsigned at hg
          omega
        obtain ⟨c, hc1⟩ : ∃ c, l[d.toNat]? = some c :=
          ⟨l[d.toNat], List.getElem?_eq_getElem (by omega)⟩
        have hctx : contextAt (some l) d = some c := by
          have : ¬ d < 0 := by omega
          simp [contextAt, this, hc1]
        have hg2 : ¬ (p.CMInternalData.capacity < UINT_MAX ∧
            toUnsigned d ≥ p.CMInternalData.capacity) := by
          rw [hc]
          exact fun h => hg h.2
        by_cases hdesc : c.communicationDescriptor = d
        · have hs : c.socket = -1 := by
            by_contra hs
            apply hnv
            refine ⟨hr.1, ?_, c, ?_, hdesc, hs⟩
            · rw [hc]
              omega
            · rw [ht]
              exact hctx
          simp only [CMSendMessage, hg2, ht, hctx, if_false]
          simp [hdesc, hs]
        · simp only [CMSendMessage, hg2, ht, hctx, if_false]
          simp [hdesc]

theorem receive_einval {ω μ : Type} (lib : XdrLib ω μ) (p : Process ω) (d : Int)
    (m : Option μ) (hinv : RegistryInv p.CMInternalData) (hd : IsInt d)
    (hnv : ¬ Valid p d) :
    CMReceiveMessage lib p d m = Outcome.returns (-1, m, { p with errno := EINVAL }) := by
  cases m with
  | none => simp [CMReceiveMessage]
  | some m =>
    rcases hinv with ⟨ht, hc, _⟩ | ⟨l, ht, hc, hlen, _, _⟩
    · simp [CMReceiveMessage, hc, UINT_MAX]
    · by_cases hg : toUnsigned d ≥ 16
      · simp [CMReceiveMessage, hc, UINT_MAX, hg]
      · have hr : 0 ≤ d ∧ d < 16 := by
          unfold IsInt INT_MIN INT_MAX at hd
          unfold toUnsigned at hg
          omega
        obtain ⟨c, hc1⟩ : ∃ c, l[d.toNat]? = some c :=
          ⟨l[d.toNat], List.getElem?_eq_getElem (by omega)⟩
        have hctx : contextAt (some l) d = some c := by
          have : ¬ d < 0 := by omega
          simp [contextAt, this, hc1]
        have hg2 : ¬ (p.CMInternalData.capacity < UINT_MAX ∧
            toUnsigned d ≥ p.CMInternalData.capacity) := by
          rw [hc]
          exact fun h => hg h.2
        by_cases hdesc : c.communicationDescriptor = d
        · have hs : c.socket = -1 := by
            by_contra hs
            apply hnv
            refine ⟨hr.1, ?_, c, ?_, hdesc, hs⟩
            · rw [hc]
              omega
            · rw [ht]
              exact hctx
          simp only [CMReceiveMessage, hg2, ht, hctx, if_false]
          simp [hdesc, hs]
        · simp only [CMReceiveMessage, hg2, ht, hctx, if_false]
          simp [hdesc]

/-! ## After Release -/

theorem reachable_afterCalls (cs : List (Call Nat))
    (h : runCalls quietXdr (Process.initial 0 ()) cs = some (afterCalls cs)) :
    Reachable quietXdr (afterCalls cs) :=
  reachable_runCalls quietXdr cs _ _ (Reachable.initial 0 ()) h

/-- C6: in a reachable state let `d` be a valid descriptor.  Release of `d`
returns when the mutex is free.  Once it has returned, and after any further
calls that have returned and among which no registration has returned `d`
again, `CMSendMessage d m` and `CMReceiveMessage d m` return `-1` for every
message `m` (null or not) and leave a state that differs in `errno = EINVAL`
only: the trace is unchanged, so neither the converter nor the record stream
has been called.  This covers both the case where other descriptors are still
active and the case where the table has been released. -/
theorem send_receive_fail_after_release {ω μ : Type} (lib : XdrLib ω μ) (p : Process ω)
    (hp : Reachable lib p) (d : Int) (hv : Valid p d) :
    (p.CMInternalData.mutex = false →
      ∃ p1, CMFinishCommunicationWithCommunicationDescriptor lib p d = Outcome.returns p1) ∧
    ∀ p1, CMFinishCommunicationWithCommunicationDescriptor lib p d = Outcome.returns p1 →
      ∀ (cs : List (Call μ)) (p2 : Process ω), runCalls lib p1 cs = some p2 →
        handsOut lib d p1 cs = false →
          ∀ m : Option μ,
            CMSendMessage lib p2 d m =
                Outcome.returns (-1, m, { p2 with errno := EINVAL }) ∧
              CMReceiveMessage lib p2 d m =
                Outcome.returns (-1, m, { p2 with errno := EINVAL }) := by
  have hinv := reachable_inv lib p hp
  obtain ⟨hd0, hd16⟩ := valid_range p d hinv hv
  have hint : IsInt d := by
    unfold IsInt INT_MIN INT_MAX
    omega
  rcases finish_valid lib p d hinv hv with ⟨hm, hb⟩ | ⟨hm, q, hq, _, hval⟩
  · refine ⟨fun hm2 => ?_, fun p1 h1 => ?_⟩
    · rw [hm] at hm2
      cases hm2
    · rw [hb] at h1
      cases h1
  · refine ⟨fun _ => ⟨q, hq⟩, ?_⟩
    intro p1 h1 cs p2 hrun hno m
    rw [hq] at h1
    cases h1
    have hinvq := finish_preserves lib p d q hinv hq
    have hnv : ¬ Valid q d := fun h => ((hval d).mp h).2 rfl
    obtain ⟨hinv2, hnv2⟩ := not_valid_after lib d cs q p2 hinvq hnv hrun hno
    exact ⟨send_einval lib p2 d m hinv2 hint hnv2, receive_einval lib p2 d m hinv2 hint hnv2⟩

theorem send_receive_fail_after_release_witness :
    Reachable quietXdr (afterCalls [Call.init goodHeap 3 7, Call.init goodHeap 4 7]) ∧
      Valid (afterCalls [Call.init goodHeap 3 7, Call.init goodHeap 4 7]) 0 ∧
      CMSendMessage quietXdr
          (afterCalls [Call.init goodHeap 3 7, Call.init goodHeap 4 7, Call.finish 0,
            Call.setConverter 0 9, Call.send 1 (some 5)]) 0 (some 9) =
        Outcome.returns (-1, some 9,
          { afterCalls [Call.init goodHeap 3 7, Call.init goodHeap 4 7, Call.finish 0,
              Call.setConverter 0 9, Call.send 1 (some 5)] with errno := EINVAL }) ∧
      CMReceiveMessage quietXdr
          (afterCalls [Call.init goodHeap 3 7, Call.init goodHeap 4 7, Call.finish 0,
            Call.finish 1]) 0 (some 9) =
        Outcome.returns (-1, some 9,
          { afterCalls [Call.init goodHeap 3 7, Call.init goodHeap 4 7, Call.finish 0,
              Call.finish 1] with errno := EINVAL }) :=
  ⟨reachable_afterCalls _ rfl,
    by decide,
    ((send_receive_fail_after_release quietXdr
      (afterCalls [Call.init goodHeap 3 7, Call.init goodHeap 4 7])
      (reachable_afterCalls _ rfl) 0 (by decide)).2
      (afterCalls [Call.init goodHeap 3 7, Call.init goodHeap 4 7, Call.finish 0]) rfl
      [Call.setConverter 0 9, Call.send 1 (some 5)] _ rfl rfl (some 9)).1,
    ((send_receive_fail_after_release quietXdr
      (afterCalls [Call.init goodHeap 3 7, Call.init goodHeap 4 7])
      (reachable_afterCalls _ rfl) 0 (by decide)).2
      (afterCalls [Call.init goodHeap 3 7, Call.init goodHeap 4 7, Call.finish 0]) rfl
      [Call.finish 1] _ rfl rfl (some 9)).2⟩

/-- C7, evaluated after a release that leaves another descriptor active:
descriptors `0` and `1` are registered with converter `7` and `errno` is `0`;
after `0` has been released it is no longer valid and the table of capacity 16
is still there, yet `CMGetConverterF 0` returns the converter `7` of the
released slot and leaves `errno` at `0` instead of returning null with
`EINVAL`. -/
theorem getConverter_after_release_stale :
    Valid (afterCalls [Call.init goodHeap 3 7, Call.init goodHeap 4 7]) 0 ∧
    ¬ Valid (afterCalls [Call.init goodHeap 3 7, Call.init goodHeap 4 7, Call.finish 0]) 0 ∧
    Valid (afterCalls [Call.init goodHeap 3 7, Call.init goodHeap 4 7, Call.finish 0]) 1 ∧
    (afterCalls [Call.init goodHeap 3 7, Call.init goodHeap 4 7,
      Call.finish 0]).CMInternalData.capacity = 16 ∧
    (afterCalls [Call.init goodHeap 3 7, Call.init goodHeap 4 7, Call.finish 0]).errno = 0 ∧
    CMGetConverterF
        (afterCalls [Call.init goodHeap 3 7, Call.init goodHeap 4 7, Call.finish 0]) 0 =
      Outcome.returns (7,
        afterCalls [Call.init goodHeap 3 7, Call.init goodHeap 4 7, Call.finish 0]) := by
  refine ⟨by decide, by decide, by decide, by decide, by decide, ?_⟩
  rfl

/-! ## Releasing every descriptor -/

theorem inv_no_valid {ω : Type} (p : Process ω) (hinv : RegistryInv p.CMInternalData)
    (hno : ∀ x, ¬ Valid p x) :
    p.CMInternalData.CMCommunicationContexts = none ∧ p.CMInternalData.capacity = 0 ∧
      p.CMInternalData.mutex = false := by
  rcases hinv with h | ⟨l, ht, hc, hlen, hok, c, hmem, hs⟩
  · exact h
  · exfalso
    obtain ⟨i, hi⟩ := List.mem_iff_getElem?.mp hmem
    have hil := getElem?_lt_length l i c hi
    rcases hok i c hi with ⟨hfree, _⟩ | ⟨_, hdesc, _⟩
    · exact hs hfree
    · exact hno (i : Int) ((valid_iff p l ht _).mpr ⟨i, c, rfl, by omega, hi, hdesc, hs⟩)

theorem release_all_aux {ω μ : Type} (lib : XdrLib ω μ) :
    ∀ (ds : List Int) (p : Process ω), RegistryInv p.CMInternalData → ds.Nodup →
      (∀ d, d ∈ ds ↔ Valid p d) →
      (p.CMInternalData.mutex = false →
        ∃ p1, runCalls lib p (ds.map Call.finish : List (Call μ)) = some p1) ∧
      ∀ p1, runCalls lib p (ds.map Call.finish : List (Call μ)) = some p1 →
        RegistryInv p1.CMInternalData ∧ ∀ x, ¬ Valid p1 x := by
  intro ds
  induction ds with
  | nil =>
    intro p hinv _ hall
    refine ⟨fun _ => ⟨p, rfl⟩, ?_⟩
    intro p1 h
    simp only [List.map_nil, runCalls, Option.some.injEq] at h
    subst h
    exact ⟨hinv, fun x hx => by simpa using (hall x).mpr hx⟩
  | cons d ds ih =>
    intro p hinv hnd hall
    have hv : Valid p d := (hall d).mp (List.mem_cons_self d ds)
    have hrun : ∀ q, CMFinishCommunicationWithCommunicationDescriptor lib p d =
        Outcome.returns q →
        runCalls lib p ((d :: ds).map Call.finish : List (Call μ)) =
          runCalls lib q (ds.map Call.finish : List (Call μ)) := by
      intro q hq
      simp only [List.map_cons, runCalls, Call.run, hq]
    rcases finish_valid lib p d hinv hv with ⟨hm, hb⟩ | ⟨hm, q, hq, hmq, hval⟩
    · refine ⟨fun hm2 => ?_, fun p1 h1 => ?_⟩
      · rw [hm] at hm2
        cases hm2
      · simp only [List.map_cons, runCalls, Call.run, hb] at h1
        cases h1
    · have hinvq := finish_preserves lib p d q hinv hq
      have hallq : ∀ x, x ∈ ds ↔ Valid q x := by
        intro x
        rw [hval x, ← hall x]
        constructor
        · intro hx
          refine ⟨List.mem_cons_of_mem d hx, ?_⟩
          intro he
          subst he
          exact (List.nodup_cons.mp hnd).1 hx
        · rintro ⟨hx, hne⟩
          rcases List.mem_cons.mp hx with h | h
          · exact absurd h hne
          · exact h
      obtain ⟨ih1, ih2⟩ := ih q hinvq (List.nodup_cons.mp hnd).2 hallq
      refine ⟨fun _ => ?_, fun p1 h1 => ?_⟩
      · obtain ⟨p1, hp1⟩ := ih1 hmq
        exact ⟨p1, by rw [hrun q hq]; exact hp1⟩
      · rw [hrun q hq] at h1
        exact ih2 p1 h1

/-- C8: in a reachable state let `ds` list every valid descriptor exactly
once, in any order.  Releasing them in that order returns when the mutex is
free; once these releases have returned the table pointer is null and the
capacity is 0.  The next registration with a socket that is not negative, a
converter that is not null and a `calloc` that succeeds returns a descriptor
`r` that is not negative and valid; the capacity is 16 again and, of the
sixteen slots, slot `r` is the only one whose socket is not the free
sentinel. -/
theorem release_all_then_register {ω μ : Type} (lib : XdrLib ω μ) (p : Process ω)
    (hp : Reachable lib p) (ds : List Int) (hnd : ds.Nodup)
    (hall : ∀ d, d ∈ ds ↔ Valid p d) :
    (p.CMInternalData.mutex = false →
      ∃ p1, runCalls lib p (ds.map Call.finish : List (Call μ)) = some p1) ∧
    ∀ p1, runCalls lib p (ds.map Call.finish : List (Call μ)) = some p1 →
      p1.CMInternalData.CMCommunicationContexts = none ∧ p1.CMInternalData.capacity = 0 ∧
      ∀ (heap : Heap) (s : Int) (f : Nat), heap.callocOk = true → 0 ≤ s → f ≠ 0 →
        ∃ r q, CMInitCommunicationWithSocketAndConverter lib heap p1 s f =
            Outcome.returns (r, q) ∧
          0 ≤ r ∧ Valid q r ∧ q.CMInternalData.capacity = 16 ∧
          ∃ l, q.CMInternalData.CMCommunicationContexts = some l ∧ l.length = 16 ∧
            ∀ (i : Nat) (c : CMCommunicationDescriptionContext),
              l[i]? = some c → (c.socket ≠ -1 ↔ (i : Int) = r) := by
  obtain ⟨h1, h2⟩ := release_all_aux lib ds p (reachable_inv lib p hp) hnd hall
  refine ⟨h1, ?_⟩
  intro p1 hp1
  obtain ⟨hinv1, hno⟩ := h2 p1 hp1
  obtain ⟨ht, hc, hm⟩ := inv_no_valid p1 hinv1 hno
  refine ⟨ht, hc, ?_⟩
  intro heap s f hco hs hf
  rcases init_cases lib heap p1 s f hinv1 with
    ⟨hbad, _⟩ | ⟨_, _, hm2, _⟩ | ⟨_, _, _, hfail, _⟩ |
    ⟨_, _, _, l, k, c, hl, hk, hlen, hc1, hc2, hfirst, hret⟩
  · exfalso
    rcases hbad with hbad | hbad
    · omega
    · exact hf hbad
  · rw [hm] at hm2
    cases hm2
  · exfalso
    rcases hfail with ⟨_, hco2⟩ | ⟨l, ht2, _⟩
    · rw [hco] at hco2
      cases hco2
    · rw [ht] at ht2
      cases ht2
  · have hne : (k : Int) ≠ -1 := by omega
    obtain ⟨_, _, h0, _, hv, _, _, _, hcap, _⟩ :=
      init_success lib heap p1 s f (k : Int) _ hinv1 hret hne
    refine ⟨(k : Int), _, hret, h0, hv, hcap, _, rfl, by simp [hlen], ?_⟩
    have hl2 : l = freshTable := by
      rcases hl with hl | ⟨_, _, hl⟩
      · rw [ht] at hl
        cases hl
      · exact hl
    subst hl2
    intro i c2 hi
    rw [List.getElem?_set] at hi
    by_cases hki : k = i
    · subst hki
      simp only [if_true] at hi
      have hlt : k < freshTable.length := by omega
      simp only [hlt, if_true, Option.some.injEq] at hi
      subst hi
      constructor
      · intro _
        rfl
      · intro _
        show s ≠ -1
        omega
    · simp only [hki, if_false] at hi
      have := freshTable_getElem? i c2 hi
      subst this
      constructor
      · intro h
        exact absurd rfl h
      · intro h
        exfalso
        apply hki
        omega

theorem twoRegistered_reachable :
    Reachable quietXdr (afterCalls [Call.init goodHeap 3 7, Call.init goodHeap 4 7]) :=
  reachable_afterCalls [Call.init goodHeap 3 7, Call.init goodHeap 4 7] rfl

theorem twoRegistered_valid (d : Int) :
    d ∈ [(1 : Int), 0] ↔
      Valid (afterCalls [Call.init goodHeap 3 7, Call.init goodHeap 4 7]) d := by
  constructor
  · intro h
    simp only [List.mem_cons, List.mem_singleton, List.not_mem_nil, or_false] at h
    rcases h with h | h <;> subst h <;> decide
  · intro h
    have h0 : 0 ≤ d := h.1
    have h1 : d < ((16 : Nat) : Int) := h.2.1
    have h2 : d < 16 := by omega
    interval_cases d <;> first | (exfalso; revert h; decide) | simp

theorem release_all_then_register_witness :
    Reachable quietXdr (afterCalls [Call.init goodHeap 3 7, Call.init goodHeap 4 7]) ∧
      [(1 : Int), 0].Nodup ∧
      (afterCalls [Call.init goodHeap 3 7, Call.init goodHeap 4 7, Call.finish 1,
        Call.finish 0]).CMInternalData.CMCommunicationContexts = none ∧
      (afterCalls [Call.init goodHeap 3 7, Call.init goodHeap 4 7, Call.finish 1,
        Call.finish 0]).CMInternalData.capacity = 0 ∧
      (CMInitCommunicationWithSocketAndConverter quietXdr goodHeap
          (afterCalls [Call.init goodHeap 3 7, Call.init goodHeap 4 7, Call.finish 1,
            Call.finish 0]) 5 9 =
        Outcome.returns (0,
          afterCalls [Call.init goodHeap 3 7, Call.init goodHeap 4 7, Call.finish 1,
            Call.finish 0, Call.init goodHeap 5 9])) :=
  ⟨twoRegistered_reachable,
    by decide,
    ((release_all_then_register quietXdr
      (afterCalls [Call.init goodHeap 3 7, Call.init goodHeap 4 7])
      twoRegistered_reachable [1, 0] (by decide) twoRegistered_valid).2
      (afterCalls [Call.init goodHeap 3 7, Call.init goodHeap 4 7, Call.finish 1,
        Call.finish 0]) rfl).1,
    ((release_all_then_register quietXdr
      (afterCalls [Call.init goodHeap 3 7, Call.init goodHeap 4 7])
      twoRegistered_reachable [1, 0] (by decide) twoRegistered_valid).2
      (afterCalls [Call.init goodHeap 3 7, Call.init goodHeap 4 7, Call.finish 1,
        Call.finish 0]) rfl).2.1,
    rfl⟩

/-! ## Release and SetCodec on a descriptor that is not valid -/

/-- C9, evaluated at an in-range descriptor whose slot it does not own: after
one registration (descriptor `0`, `errno` still `0`) descriptor `5` is in
range of the capacity 16 but not valid, its slot being free with descriptor
field `0`.  `CMFinishCommunicationWithCommunicationDescriptor 5` returns with
the table and the capacity unchanged, but `errno` is still `0`, not `EINVAL`,
and the mutex is left held. -/
theorem release_unowned_slot_no_einval :
    ¬ Valid (afterCalls [Call.init goodHeap 3 7]) 5 ∧
    (afterCalls [Call.init goodHeap 3 7]).CMInternalData.capacity = 16 ∧
    contextAt (afterCalls [Call.init goodHeap 3 7]).CMInternalData.CMCommunicationContexts 5 =
      some { socket := -1, communicationDescriptor := 0, converterf := 0,
             x_op := xdr_op.XDR_ENCODE } ∧
    (afterCalls [Call.init goodHeap 3 7]).errno = 0 ∧
    (afterCalls [Call.init goodHeap 3 7]).CMInternalData.mutex = false ∧
    CMFinishCommunicationWithCommunicationDescriptor quietXdr
        (afterCalls [Call.init goodHeap 3 7]) 5 =
      Outcome.returns
        { afterCalls [Call.init goodHeap 3 7] with
          CMInternalData :=
            { (afterCalls [Call.init goodHeap 3 7]).CMInternalData with mutex := true } } ∧
    (afterCalls [Call.init goodHeap 3 7, Call.finish 5]).errno = 0 ∧
    (afterCalls [Call.init goodHeap 3 7, Call.finish 5]).errno ≠ EINVAL ∧
    (afterCalls [Call.init goodHeap 3 7, Call.finish 5]).CMInternalData.mutex = true := by
  refine ⟨by decide, by decide, by decide, by decide, by decide, ?_, by decide, by decide,
    by decide⟩
  rfl

/-- C10, evaluated at an in-range descriptor that names a free slot: after one
registration (descriptor `0`, `errno` still `0`) descriptor `5` is not valid
and the converter field of its slot is null.  `CMSetConverterF 5 9` returns
with `errno` still `0`, not `EINVAL`, and the converter field of slot 5 is now
`9`. -/
theorem setConverter_free_slot_writes :
    ¬ Valid (afterCalls [Call.init goodHeap 3 7]) 5 ∧
    (afterCalls [Call.init goodHeap 3 7]).errno = 0 ∧
    contextAt (afterCalls [Call.init goodHeap 3 7]).CMInternalData.CMCommunicationContexts 5 =
      some { socket := -1, communicationDescriptor := 0, converterf := 0,
             x_op := xdr_op.XDR_ENCODE } ∧
    CMSetConverterF (afterCalls [Call.init goodHeap 3 7]) 5 9 =
      Outcome.returns (afterCalls [Call.init goodHeap 3 7, Call.setConverter 5 9]) ∧
    (afterCalls [Call.init goodHeap 3 7, Call.setConverter 5 9]).errno = 0 ∧
    (afterCalls [Call.init goodHeap 3 7, Call.setConverter 5 9]).errno ≠ EINVAL ∧
    contextAt
        (afterCalls [Call.init goodHeap 3 7,
          Call.setConverter 5 9]).CMInternalData.CMCommunicationContexts 5 =
      some { socket := -1, communicationDescriptor := 0, converterf := 9,
             x_op := xdr_op.XDR_ENCODE } := by
  refine ⟨by decide, by decide, by decide, ?_, by decide, by decide, by decide⟩
  rfl

/-! ## Send and Receive on a valid descriptor -/

/-- The slot of a valid descriptor in a state that satisfies the invariant. -/
theorem valid_slot {ω : Type} (p : Process ω) (d : Int)
    (hinv : RegistryInv p.CMInternalData) (hv : Valid p d) :
    ∃ (l : List CMCommunicationDescriptionContext) (k : Nat)
        (c : CMCommunicationDescriptionContext),
      p.CMInternalData.CMCommunicationContexts = some l ∧ d = (k : Int) ∧ k < 16 ∧
        p.CMInternalData.capacity = 16 ∧ l.length = 16 ∧
        l[k]? = some c ∧ contextAt (some l) (k : Int) = some c ∧
        c.communicationDescriptor = (k : Int) ∧ c.socket ≠ -1 ∧ 0 ≤ c.socket ∧
        c.converterf ≠ 0 := by
  rcases hinv with ⟨ht, _, _⟩ | ⟨l, ht, hc, hlen, hok, _⟩
  · exact absurd hv (not_valid_of_none p ht d)
  obtain ⟨k, c, hk, hk2, hc1, hc2, hc3⟩ := (valid_iff p l ht d).mp hv
  rw [hc] at hk2
  have hctx : contextAt (some l) (k : Int) = some c := by
    simp [contextAt, hc1]
  rcases hok k c hc1 with ⟨hfree, _⟩ | ⟨h0, _, hcv⟩
  · exact absurd hfree hc3
  · exact ⟨l, k, c, ht, hk, hk2, hc, hlen, hc1, hctx, hc2, hc3, h0, hcv⟩

/-- What `CMSendMessage` does on a valid descriptor with a message. -/
theorem send_valid {ω μ : Type} (lib : XdrLib ω μ) (p : Process ω) (d : Int) (m : μ)
    (l : List CMCommunicationDescriptionContext) (k : Nat)
    (c : CMCommunicationDescriptionContext)
    (ht : p.CMInternalData.CMCommunicationContexts = some l) (hd : d = (k : Int))
    (hk : k < 16) (hcap : p.CMInternalData.capacity = 16)
    (hctx : contextAt (some l) (k : Int) = some c)
    (hdesc : c.communicationDescriptor = (k : Int)) (hs : c.socket ≠ -1)
    (hf : c.converterf ≠ 0) :
    CMSendMessage lib p d (some m) =
      if (lib.converter c.converterf xdr_op.XDR_ENCODE k c.socket m p.errno p.world).1 = true
      then
        Outcome.returns
          (if (lib.xdrrec_endofrecord k c.socket
                (lib.converter c.converterf xdr_op.XDR_ENCODE k c.socket m p.errno
                  p.world).2.2.1
                (lib.converter c.converterf xdr_op.XDR_ENCODE k c.socket m p.errno
                  p.world).2.2.2).1 = true then 0 else -1,
            some (lib.converter c.converterf xdr_op.XDR_ENCODE k c.socket m p.errno
              p.world).2.1,
            { CMInternalData :=
                { p.CMInternalData with
                  CMCommunicationContexts :=
                    some (l.set k { c with x_op := xdr_op.XDR_ENCODE }) }
              errno :=
                if (lib.xdrrec_endofrecord k c.socket
                    (lib.converter c.converterf xdr_op.XDR_ENCODE k c.socket m p.errno
                      p.world).2.2.1
                    (lib.converter c.converterf xdr_op.XDR_ENCODE k c.socket m p.errno
                      p.world).2.2.2).1 = true then
                  (lib.xdrrec_endofrecord k c.socket
                    (lib.converter c.converterf xdr_op.XDR_ENCODE k c.socket m p.errno
                      p.world).2.2.1
                    (lib.converter c.converterf xdr_op.XDR_ENCODE k c.socket m p.errno
                      p.world).2.2.2).2.1
                else EINVAL
              world :=
                (lib.xdrrec_endofrecord k c.socket
                  (lib.converter c.converterf xdr_op.XDR_ENCODE k c.socket m p.errno
                    p.world).2.2.1
                  (lib.converter c.converterf xdr_op.XDR_ENCODE k c.socket m p.errno
                    p.world).2.2.2).2.2
              trace := p.trace ++
                [XdrEvent.convert c.converterf xdr_op.XDR_ENCODE k,
                 XdrEvent.endofrecord k] })
      else
        Outcome.returns
          (-1,
            some (lib.converter c.converterf xdr_op.XDR_ENCODE k c.socket m p.errno
              p.world).2.1,
            { CMInternalData :=
                { p.CMInternalData with
                  CMCommunicationContexts :=
                    some (l.set k { c with x_op := xdr_op.XDR_ENCODE }) }
              errno :=
                (lib.converter c.converterf xdr_op.XDR_ENCODE k c.socket m p.errno
                  p.world).2.2.1
              world :=
                (lib.converter c.converterf xdr_op.XDR_ENCODE k c.socket m p.errno
                  p.world).2.2.2
              trace := p.trace ++ [XdrEvent.convert c.converterf xdr_op.XDR_ENCODE k] }) := by
  subst hd
  have hu := toUnsigned_small (k : Int) (by omega) (by omega)
  have hg : ¬ (p.CMInternalData.capacity < UINT_MAX ∧
      toUnsigned (k : Int) ≥ p.CMInternalData.capacity) := by
    rw [hcap]
    omega
  simp only [CMSendMessage, hg, ht, hctx, hdesc, hs, hf, if_false, ne_eq, not_true_eq_false,
    Int.toNat_ofNat]

/-- What `CMReceiveMessage` does on a valid descriptor with a message. -/
theorem receive_valid {ω μ : Type} (lib : XdrLib ω μ) (p : Process ω) (d : Int) (m : μ)
    (l : List CMCommunicationDescriptionContext) (k : Nat)
    (c : CMCommunicationDescriptionContext)
    (ht : p.CMInternalData.CMCommunicationContexts = some l) (hd : d = (k : Int))
    (hk : k < 16) (hcap : p.CMInternalData.capacity = 16)
    (hctx : contextAt (some l) (k : Int) = some c)
    (hdesc : c.communicationDescriptor = (k : Int)) (hs : c.socket ≠ -1)
    (hf : c.converterf ≠ 0) :
    CMReceiveMessage lib p d (some m) =
      if (lib.xdrrec_skiprecord k c.socket p.errno p.world).1 = false then
        Outcome.returns
          (-1, some m,
            { CMInternalData :=
                { p.CMInternalData with
                  CMCommunicationContexts :=
                    some (l.set k { c with x_op := xdr_op.XDR_DECODE }) }
              errno := (lib.xdrrec_skiprecord k c.socket p.errno p.world).2.1
              world := (lib.xdrrec_skiprecord k c.socket p.errno p.world).2.2
              trace := p.trace ++ [XdrEvent.skiprecord k] })
      else
        Outcome.returns
          (if (lib.converter c.converterf xdr_op.XDR_DECODE k c.socket m
                (lib.xdrrec_skiprecord k c.socket p.errno p.world).2.1
                (lib.xdrrec_skiprecord k c.socket p.errno p.world).2.2).1 = true
            then 0 else -1,
            some (lib.converter c.converterf xdr_op.XDR_DECODE k c.socket m
              (lib.xdrrec_skiprecord k c.socket p.errno p.world).2.1
              (lib.xdrrec_skiprecord k c.socket p.errno p.world).2.2).2.1,
            { CMInternalData :=
                { p.CMInternalData with
                  CMCommunicationContexts :=
                    some (l.set k { c with x_op := xdr_op.XDR_DECODE }) }
              errno :=
                (lib.converter c.converterf xdr_op.XDR_DECODE k c.socket m
                  (lib.xdrrec_skiprecord k c.socket p.errno p.world).2.1
                  (lib.xdrrec_skiprecord k c.socket p.errno p.world).2.2).2.2.1
              world :=
                (lib.converter c.converterf xdr_op.XDR_DECODE k c.socket m
                  (lib.xdrrec_skiprecord k c.socket p.errno p.world).2.1
                  (lib.xdrrec_skiprecord k c.socket p.errno p.world).2.2).2.2.2
              trace := p.trace ++
                [XdrEvent.skiprecord k,
                 XdrEvent.convert c.converterf xdr_op.XDR_DECODE k] }) := by
  subst hd
  have hu := toUnsigned_small (k : Int) (by omega) (by omega)
  have hg : ¬ (p.CMInternalData.capacity < UINT_MAX ∧
      toUnsigned (k : Int) ≥ p.CMInternalData.capacity) := by
    rw [hcap]
    omega
  simp only [CMReceiveMessage, hg, ht, hctx, hdesc, hs, hf, if_false, ne_eq,
    not_true_eq_false, Int.toNat_ofNat]

theorem badArguments_iff {ω μ : Type} (p : Process ω) (hinv : RegistryInv p.CMInternalData)
    (d : Int) (m : Option μ) : BadArguments p d m ↔ (m = none ∨ ¬ Valid p d) := by
  constructor
  · rintro (h | h | h | ⟨c, hc, h⟩)
    · exact Or.inl h
    · exact Or.inr fun hv => by have := hv.1; omega
    · exact Or.inr fun hv => by have := hv.2.1; omega
    · right
      intro hv
      obtain ⟨l, k, c2, ht, hk, _, _, _, _, hctx, hdesc, hs, _, hf⟩ := valid_slot p d hinv hv
      rw [ht, hk, hctx] at hc
      cases hc
      rcases h with h | h | h
      · exact h (by rw [hdesc, hk])
      · exact hs h
      · exact hf h
  · rintro (h | h)
    · exact Or.inl h
    · by_cases h0 : d < 0
      · exact Or.inr (Or.inl h0)
      by_cases h1 : (p.CMInternalData.capacity : Int) ≤ d
      · exact Or.inr (Or.inr (Or.inl h1))
      right
      right
      right
      rcases hinv with ⟨_, hc, _⟩ | ⟨l, ht, hc, hlen, _, _⟩
      · rw [hc] at h1
        omega
      · rw [hc] at h1
        obtain ⟨c, hc1⟩ : ∃ c, l[d.toNat]? = some c :=
          ⟨l[d.toNat], List.getElem?_eq_getElem (by omega)⟩
        have hctx : contextAt p.CMInternalData.CMCommunicationContexts d = some c := by
          rw [ht]
          simp [contextAt, h0, hc1]
        refine ⟨c, hctx, ?_⟩
        by_cases hdesc : c.communicationDescriptor = d
        · right
          left
          by_contra hs
          apply h
          refine ⟨by omega, ?_, c, hctx, hdesc, hs⟩
          rw [hc]
          omega
        · exact Or.inl hdesc

/-- C11 (amended): in a reachable state, for a descriptor that is an `int` and
any message: when the message is null, the descriptor is negative or not below
the capacity, or its slot carries another descriptor, the free sentinel or no
converter, `CMSendMessage` and `CMReceiveMessage` both return `-1` and leave a
state that differs in `errno = EINVAL` only (registry, stream direction, world
and trace as before, so nothing external was called).  Otherwise the
descriptor is valid and the message is not null, and then `CMSendMessage`
calls the converter, while `CMReceiveMessage` calls `xdrrec_skiprecord` and
calls the converter after it exactly when the skip has succeeded. -/
theorem send_receive_validation {ω μ : Type} (lib : XdrLib ω μ) (p : Process ω)
    (hp : Reachable lib p) (d : Int) (hd : IsInt d) (m : Option μ) :
    (BadArguments p d m →
      CMSendMessage lib p d m = Outcome.returns (-1, m, { p with errno := EINVAL }) ∧
      CMReceiveMessage lib p d m = Outcome.returns (-1, m, { p with errno := EINVAL })) ∧
    (¬ BadArguments p d m →
      ∃ (k : Nat) (c : CMCommunicationDescriptionContext) (m1 : μ)
          (rs rr : Int × Option μ × Process ω),
        m = some m1 ∧ Valid p d ∧ d = (k : Int) ∧
        contextAt p.CMInternalData.CMCommunicationContexts d = some c ∧
        CMSendMessage lib p d m = Outcome.returns rs ∧
        (∃ rest, rs.2.2.trace =
          p.trace ++ XdrEvent.convert c.converterf xdr_op.XDR_ENCODE k :: rest) ∧
        CMReceiveMessage lib p d m = Outcome.returns rr ∧
        ((skipCall lib p k c).1 = true →
          rr.2.2.trace = p.trace ++
            [XdrEvent.skiprecord k, XdrEvent.convert c.converterf xdr_op.XDR_DECODE k]) ∧
        ((skipCall lib p k c).1 = false →
          rr.2.2.trace = p.trace ++ [XdrEvent.skiprecord k])) := by
  have hinv := reachable_inv lib p hp
  constructor
  · intro hbad
    rcases (badArguments_iff p hinv d m).mp hbad with h | h
    · subst h
      exact ⟨by simp [CMSendMessage], by simp [CMReceiveMessage]⟩
    · exact ⟨send_einval lib p d m hinv hd h, receive_einval lib p d m hinv hd h⟩
  · intro hgood
    have hg2 : ¬ (m = none ∨ ¬ Valid p d) := fun h => hgood ((badArguments_iff p hinv d m).mpr h)
    have hv : Valid p d := by
      by_contra h
      exact hg2 (Or.inr h)
    obtain ⟨m1, hm1⟩ : ∃ m1, m = some m1 := by
      cases m with
      | none => exact absurd (Or.inl rfl) hg2
      | some m1 => exact ⟨m1, rfl⟩
    subst hm1
    obtain ⟨l, k, c, ht, hk, hk16, hcap, _, _, hctx, hdesc, hs, _, hf⟩ :=
      valid_slot p d hinv hv
    have hsend := send_valid lib p d m1 l k c ht hk hk16 hcap hctx hdesc hs hf
    have hrecv := receive_valid lib p d m1 l k c ht hk hk16 hcap hctx hdesc hs hf
    have hctx2 : contextAt p.CMInternalData.CMCommunicationContexts d = some c := by
      rw [ht, hk]
      exact hctx
    by_cases henc : (lib.converter c.converterf xdr_op.XDR_ENCODE k c.socket m1 p.errno
        p.world).1 = true
    · rw [if_pos henc] at hsend
      by_cases hskip : (lib.xdrrec_skiprecord k c.socket p.errno p.world).1 = false
      · rw [if_pos hskip] at hrecv
        refine ⟨k, c, m1, _, _, rfl, hv, hk, hctx2, hsend, ⟨_, rfl⟩, hrecv, ?_, ?_⟩
        · intro h
          simp only [skipCall] at h
          rw [hskip] at h
          cases h
        · intro _
          rfl
      · rw [if_neg hskip] at hrecv
        refine ⟨k, c, m1, _, _, rfl, hv, hk, hctx2, hsend, ⟨_, rfl⟩, hrecv, ?_, ?_⟩
        · intro _
          rfl
        · intro h
          exact absurd h hskip
    · rw [if_neg henc] at hsend
      by_cases hskip : (lib.xdrrec_skiprecord k c.socket p.errno p.world).1 = false
      · rw [if_pos hskip] at hrecv
        refine ⟨k, c, m1, _, _, rfl, hv, hk, hctx2, hsend, ⟨_, rfl⟩, hrecv, ?_, ?_⟩
        · intro h
          simp only [skipCall] at h
          rw [hskip] at h
          cases h
        · intro _
          rfl
      · rw [if_neg hskip] at hrecv
        refine ⟨k, c, m1, _, _, rfl, hv, hk, hctx2, hsend, ⟨_, rfl⟩, hrecv, ?_, ?_⟩
        · intro _
          rfl
        · intro h
          exact absurd h hskip

theorem reachable_afterCallsWith (lib : XdrLib Unit Nat) (cs : List (Call Nat))
    (h : runCalls lib (Process.initial 0 ()) cs = some (afterCallsWith lib cs)) :
    Reachable lib (afterCallsWith lib cs) :=
  reachable_runCalls lib cs _ _ (Reachable.initial 0 ()) h

theorem send_receive_validation_witness :
    Reachable quietXdr (afterCalls [Call.init goodHeap 3 7]) ∧ IsInt 5 ∧
      BadArguments (afterCalls [Call.init goodHeap 3 7]) 5 (some 9) ∧
      CMSendMessage quietXdr (afterCalls [Call.init goodHeap 3 7]) 5 (some 9) =
        Outcome.returns (-1, some 9,
          { afterCalls [Call.init goodHeap 3 7] with errno := EINVAL }) ∧
      CMReceiveMessage quietXdr (afterCalls [Call.init goodHeap 3 7]) 5 (some 9) =
        Outcome.returns (-1, some 9,
          { afterCalls [Call.init goodHeap 3 7] with errno := EINVAL }) :=
  ⟨reachable_afterCalls _ rfl, by decide,
    Or.inr (Or.inr (Or.inr ⟨_, rfl, Or.inl (by decide)⟩)),
    (send_receive_validation quietXdr (afterCalls [Call.init goodHeap 3 7])
      (reachable_afterCalls _ rfl) 5 (by decide) (some 9)).1
      (Or.inr (Or.inr (Or.inr ⟨_, rfl, Or.inl (by decide)⟩)))⟩

/-- C11, the claim as stated fails for `CMReceiveMessage`: with a library whose
`xdrrec_skiprecord` fails, descriptor `0` is valid with converter `7` and the
message is not null, yet the call returns `-1` and the only external call it
has made is `xdrrec_skiprecord`; the converter has not been called. -/
theorem receive_valid_arguments_no_codec :
    Valid (afterCallsWith deafXdr [Call.init goodHeap 3 7]) 0 ∧
    contextAt
        (afterCallsWith deafXdr
          [Call.init goodHeap 3 7]).CMInternalData.CMCommunicationContexts 0 =
      some { socket := 3, communicationDescriptor := 0, converterf := 7,
             x_op := xdr_op.XDR_ENCODE } ∧
    (afterCallsWith deafXdr [Call.init goodHeap 3 7]).trace = [XdrEvent.create 0] ∧
    CMReceiveMessage deafXdr (afterCallsWith deafXdr [Call.init goodHeap 3 7]) 0 (some 5) =
      Outcome.returns (-1, some 5,
        afterCallsWith deafXdr [Call.init goodHeap 3 7, Call.receive 0 (some 5)]) ∧
    (afterCallsWith deafXdr [Call.init goodHeap 3 7, Call.receive 0 (some 5)]).trace =
      [XdrEvent.create 0, XdrEvent.skiprecord 0] := by
  refine ⟨by decide, by decide, by decide, ?_, by decide⟩
  rfl

/-! ## Send: encode, then end of record -/

theorem contextAt_set_self (l : List CMCommunicationDescriptionContext) (k : Nat)
    (c1 : CMCommunicationDescriptionContext) (h : k < l.length) :
    contextAt (some (l.set k c1)) (k : Int) = some c1 := by
  simp only [contextAt, Int.toNat_ofNat]
  rw [List.getElem?_set_self h]
  simp

/-- C12: in a reachable state, for a valid descriptor `d` (slot `k`, contents
`c`) and a message `m`, `CMSendMessage` returns.  It calls the converter with
direction `XDR_ENCODE` (the direction the slot's stream has from then on) and
returns `0` exactly when that call returns `TRUE` and the following
`xdrrec_endofrecord` succeeds, and `-1` otherwise.  When the converter fails
it is the only external call made, so the end of record is not written; when
it succeeds the end of record call follows it. -/
theorem send_encode_flush {ω μ : Type} (lib : XdrLib ω μ) (p : Process ω)
    (hp : Reachable lib p) (d : Int) (hv : Valid p d) (m : μ) :
    ∃ (k : Nat) (c : CMCommunicationDescriptionContext) (r : Int) (m2 : μ) (q : Process ω),
      d = (k : Int) ∧ contextAt p.CMInternalData.CMCommunicationContexts d = some c ∧
      CMSendMessage lib p d (some m) = Outcome.returns (r, some m2, q) ∧
      contextAt q.CMInternalData.CMCommunicationContexts d =
        some { c with x_op := xdr_op.XDR_ENCODE } ∧
      (r = 0 ↔ (encodeCall lib p k c m).1 = true ∧ (flushCall lib p k c m).1 = true) ∧
      (r ≠ 0 → r = -1) ∧
      ((encodeCall lib p k c m).1 = false →
        q.trace = p.trace ++ [XdrEvent.convert c.converterf xdr_op.XDR_ENCODE k]) ∧
      ((encodeCall lib p k c m).1 = true →
        q.trace = p.trace ++
          [XdrEvent.convert c.converterf xdr_op.XDR_ENCODE k, XdrEvent.endofrecord k]) := by
  have hinv := reachable_inv lib p hp
  obtain ⟨l, k, c, ht, hk, hk16, hcap, hlen, _, hctx, hdesc, hs, _, hf⟩ :=
    valid_slot p d hinv hv
  have hsend := send_valid lib p d m l k c ht hk hk16 hcap hctx hdesc hs hf
  have hctx2 : contextAt p.CMInternalData.CMCommunicationContexts d = some c := by
    rw [ht, hk]
    exact hctx
  have hq : contextAt (some (l.set k { c with x_op := xdr_op.XDR_ENCODE })) d =
      some { c with x_op := xdr_op.XDR_ENCODE } := by
    rw [hk]
    exact contextAt_set_self l k _ (by omega)
  by_cases henc : (lib.converter c.converterf xdr_op.XDR_ENCODE k c.socket m p.errno
      p.world).1 = true
  · rw [if_pos henc] at hsend
    by_cases heor : (lib.xdrrec_endofrecord k c.socket
        (lib.converter c.converterf xdr_op.XDR_ENCODE k c.socket m p.errno p.world).2.2.1
        (lib.converter c.converterf xdr_op.XDR_ENCODE k c.socket m p.errno
          p.world).2.2.2).1 = true
    · refine ⟨k, c, _, _, _, hk, hctx2, hsend, hq, ?_, ?_, ?_, ?_⟩
      · rw [if_pos heor]
        exact ⟨fun _ => ⟨henc, heor⟩, fun _ => rfl⟩
      · rw [if_pos heor]
        intro h
        exact absurd rfl h
      · intro h
        exact absurd henc (by rw [show (lib.converter c.converterf xdr_op.XDR_ENCODE k
          c.socket m p.errno p.world).1 = false from h]; decide)
      · intro _
        rfl
    · refine ⟨k, c, _, _, _, hk, hctx2, hsend, hq, ?_, ?_, ?_, ?_⟩
      · rw [if_neg heor]
        constructor
        · intro h
          omega
        · intro h
          exact absurd h.2 heor
      · rw [if_neg heor]
        intro _
        rfl
      · intro h
        exact absurd henc (by rw [show (lib.converter c.converterf xdr_op.XDR_ENCODE k
          c.socket m p.errno p.world).1 = false from h]; decide)
      · intro _
        rfl
  · rw [if_neg henc] at hsend
    refine ⟨k, c, _, _, _, hk, hctx2, hsend, hq, ?_, ?_, ?_, ?_⟩
    · constructor
      · intro h
        omega
      · intro h
        exact absurd h.1 henc
    · intro _
      rfl
    · intro _
      rfl
    · intro h
      exact absurd h henc

theorem send_encode_flush_witness :
    Reachable stuckXdr (afterCallsWith stuckXdr [Call.init goodHeap 3 7]) ∧
      Valid (afterCallsWith stuckXdr [Call.init goodHeap 3 7]) 0 ∧
      ∃ (k : Nat) (c : CMCommunicationDescriptionContext) (r : Int) (m2 : Nat)
          (q : Process Unit),
        (0 : Int) = (k : Int) ∧
        contextAt
          (afterCallsWith stuckXdr
            [Call.init goodHeap 3 7]).CMInternalData.CMCommunicationContexts 0 = some c ∧
        CMSendMessage stuckXdr (afterCallsWith stuckXdr [Call.init goodHeap 3 7]) 0 (some 5) =
          Outcome.returns (r, some m2, q) ∧
        contextAt q.CMInternalData.CMCommunicationContexts 0 =
          some { c with x_op := xdr_op.XDR_ENCODE } ∧
        (r = 0 ↔
          (encodeCall stuckXdr (afterCallsWith stuckXdr [Call.init goodHeap 3 7]) k c 5).1 =
              true ∧
            (flushCall stuckXdr (afterCallsWith stuckXdr [Call.init goodHeap 3 7]) k c 5).1 =
              true) ∧
        (r ≠ 0 → r = -1) ∧
        ((encodeCall stuckXdr (afterCallsWith stuckXdr [Call.init goodHeap 3 7]) k c 5).1 =
            false →
          q.trace = (afterCallsWith stuckXdr [Call.init goodHeap 3 7]).trace ++
            [XdrEvent.convert c.converterf xdr_op.XDR_ENCODE k]) ∧
        ((encodeCall stuckXdr (afterCallsWith stuckXdr [Call.init goodHeap 3 7]) k c 5).1 =
            true →
          q.trace = (afterCallsWith stuckXdr [Call.init goodHeap 3 7]).trace ++
            [XdrEvent.convert c.converterf xdr_op.XDR_ENCODE k, XdrEvent.endofrecord k]) :=
  ⟨reachable_afterCallsWith _ _ rfl, by decide,
    send_encode_flush stuckXdr (afterCallsWith stuckXdr [Call.init goodHeap 3 7])
      (reachable_afterCallsWith _ _ rfl) 0 (by decide) 5⟩

/-! ## Receive: skip to the next record, then decode -/

/-- C13: in a reachable state, for a valid descriptor `d` (slot `k`, contents
`c`) and a message `m`, `CMReceiveMessage` returns.  When
`xdrrec_skiprecord` fails it returns `-1`, the skip is the only external call
made (the converter is not called) and the message is the one passed in.  When
the skip succeeds the converter is called with direction `XDR_DECODE`, and the
call returns `0` exactly when the converter returns `TRUE`, and `-1`
otherwise. -/
theorem receive_skip_decode {ω μ : Type} (lib : XdrLib ω μ) (p : Process ω)
    (hp : Reachable lib p) (d : Int) (hv : Valid p d) (m : μ) :
    ∃ (k : Nat) (c : CMCommunicationDescriptionContext) (r : Int) (mo : Option μ)
        (q : Process ω),
      d = (k : Int) ∧ contextAt p.CMInternalData.CMCommunicationContexts d = some c ∧
      CMReceiveMessage lib p d (some m) = Outcome.returns (r, mo, q) ∧
      ((skipCall lib p k c).1 = false →
        r = -1 ∧ mo = some m ∧ q.trace = p.trace ++ [XdrEvent.skiprecord k]) ∧
      ((skipCall lib p k c).1 = true →
        (r = 0 ↔ (decodeCall lib p k c m).1 = true) ∧ (r ≠ 0 → r = -1) ∧
        mo = some (decodeCall lib p k c m).2.1 ∧
        q.trace = p.trace ++
          [XdrEvent.skiprecord k, XdrEvent.convert c.converterf xdr_op.XDR_DECODE k]) := by
  have hinv := reachable_inv lib p hp
  obtain ⟨l, k, c, ht, hk, hk16, hcap, hlen, _, hctx, hdesc, hs, _, hf⟩ :=
    valid_slot p d hinv hv
  have hrecv := receive_valid lib p d m l k c ht hk hk16 hcap hctx hdesc hs hf
  have hctx2 : contextAt p.CMInternalData.CMCommunicationContexts d = some c := by
    rw [ht, hk]
    exact hctx
  by_cases hskip : (lib.xdrrec_skiprecord k c.socket p.errno p.world).1 = false
  · rw [if_pos hskip] at hrecv
    refine ⟨k, c, _, _, _, hk, hctx2, hrecv, ?_, ?_⟩
    · intro _
      exact ⟨rfl, rfl, rfl⟩
    · intro h
      exact absurd hskip (by rw [show (lib.xdrrec_skiprecord k c.socket p.errno
        p.world).1 = true from h]; decide)
  · rw [if_neg hskip] at hrecv
    refine ⟨k, c, _, _, _, hk, hctx2, hrecv, ?_, ?_⟩
    · intro h
      exact absurd h hskip
    · intro _
      by_cases hdec : (lib.converter c.converterf xdr_op.XDR_DECODE k c.socket m
          (lib.xdrrec_skiprecord k c.socket p.errno p.world).2.1
          (lib.xdrrec_skiprecord k c.socket p.errno p.world).2.2).1 = true
      · refine ⟨?_, ?_, rfl, rfl⟩
        · rw [if_pos hdec]
          exact ⟨fun _ => hdec, fun _ => rfl⟩
        · rw [if_pos hdec]
          intro h
          exact absurd rfl h
      · refine ⟨?_, ?_, rfl, rfl⟩
        · rw [if_neg hdec]
          constructor
          · intro h
            omega
          · intro h
            exact absurd h hdec
        · rw [if_neg hdec]
          intro _
          rfl

theorem receive_skip_decode_witness :
    Reachable deafXdr (afterCallsWith deafXdr [Call.init goodHeap 3 7]) ∧
      Valid (afterCallsWith deafXdr [Call.init goodHeap 3 7]) 0 ∧
      ∃ (k : Nat) (c : CMCommunicationDescriptionContext) (r : Int) (mo : Option Nat)
          (q : Process Unit),
        (0 : Int) = (k : Int) ∧
        contextAt
          (afterCallsWith deafXdr
            [Call.init goodHeap 3 7]).CMInternalData.CMCommunicationContexts 0 = some c ∧
        CMReceiveMessage deafXdr (afterCallsWith deafXdr [Call.init goodHeap 3 7]) 0
          (some 5) = Outcome.returns (r, mo, q) ∧
        ((skipCall deafXdr (afterCallsWith deafXdr [Call.init goodHeap 3 7]) k c).1 = false →
          r = -1 ∧ mo = some 5 ∧
          q.trace = (afterCallsWith deafXdr [Call.init goodHeap 3 7]).trace ++
            [XdrEvent.skiprecord k]) ∧
        ((skipCall deafXdr (afterCallsWith deafXdr [Call.init goodHeap 3 7]) k c).1 = true →
          (r = 0 ↔
            (decodeCall deafXdr (afterCallsWith deafXdr [Call.init goodHeap 3 7]) k c
              5).1 = true) ∧
          (r ≠ 0 → r = -1) ∧
          mo = some (decodeCall deafXdr (afterCallsWith deafXdr [Call.init goodHeap 3 7]) k c
            5).2.1 ∧
          q.trace = (afterCallsWith deafXdr [Call.init goodHeap 3 7]).trace ++
            [XdrEvent.skiprecord k, XdrEvent.convert c.converterf xdr_op.XDR_DECODE k]) :=
  ⟨reachable_afterCallsWith _ _ rfl, by decide,
    receive_skip_decode deafXdr (afterCallsWith deafXdr [Call.init goodHeap 3 7])
      (reachable_afterCallsWith _ _ rfl) 0 (by decide) 5⟩

/-! ## The error indicator of Send and Receive -/

/-- C14 (amended): in a reachable state, for a descriptor that is an `int`: a
`CMSendMessage` or `CMReceiveMessage` that rejects its arguments (null
message, invalid descriptor, unset socket, no converter) returns `-1` with
`errno = EINVAL`; and a `CMSendMessage` on a valid descriptor whose converter
succeeds and whose `xdrrec_endofrecord` fails returns `-1` with
`errno = EINVAL` as well.  The module has no other error kind for these two
functions. -/
theorem send_receive_errno {ω μ : Type} (lib : XdrLib ω μ) (p : Process ω)
    (hp : Reachable lib p) (d : Int) (hd : IsInt d) (m : Option μ) :
    (BadArguments p d m →
      ∃ q1 q2, CMSendMessage lib p d m = Outcome.returns (-1, m, q1) ∧ q1.errno = EINVAL ∧
        CMReceiveMessage lib p d m = Outcome.returns (-1, m, q2) ∧ q2.errno = EINVAL) ∧
    (∀ (k : Nat) (c : CMCommunicationDescriptionContext) (m1 : μ),
      m = some m1 → Valid p d → d = (k : Int) →
      contextAt p.CMInternalData.CMCommunicationContexts d = some c →
      (encodeCall lib p k c m1).1 = true → (flushCall lib p k c m1).1 = false →
        ∃ mo q, CMSendMessage lib p d m = Outcome.returns (-1, mo, q) ∧
          q.errno = EINVAL) := by
  have hinv := reachable_inv lib p hp
  constructor
  · intro hbad
    rcases (badArguments_iff p hinv d m).mp hbad with h | h
    · subst h
      have h1 : CMSendMessage lib p d none =
          Outcome.returns (-1, none, { p with errno := EINVAL }) := by
        simp [CMSendMessage]
      have h2 : CMReceiveMessage lib p d none =
          Outcome.returns (-1, none, { p with errno := EINVAL }) := by
        simp [CMReceiveMessage]
      exact ⟨_, _, h1, rfl, h2, rfl⟩
    · exact ⟨_, _, send_einval lib p d m hinv hd h, rfl,
        receive_einval lib p d m hinv hd h, rfl⟩
  · intro k c m1 hm hv hk hc henc hflush
    subst hm
    obtain ⟨l, k2, c2, ht, hk2, hk16, hcap, hlen, _, hctx, hdesc, hs, _, hf⟩ :=
      valid_slot p d hinv hv
    have hkk : k2 = k := by omega
    subst hkk
    have hcc : c2 = c := by
      rw [ht, hk, hctx] at hc
      cases hc
      rfl
    subst hcc
    have hsend := send_valid lib p d m1 l k2 c2 ht hk hk16 hcap hctx hdesc hs hf
    have henc2 : (lib.converter c2.converterf xdr_op.XDR_ENCODE k2 c2.socket m1 p.errno
        p.world).1 = true := henc
    have hfl2 : ¬ (lib.xdrrec_endofrecord k2 c2.socket
        (lib.converter c2.converterf xdr_op.XDR_ENCODE k2 c2.socket m1 p.errno
          p.world).2.2.1
        (lib.converter c2.converterf xdr_op.XDR_ENCODE k2 c2.socket m1 p.errno
          p.world).2.2.2).1 = true := by
      intro h
      have h2 : (flushCall lib p k2 c2 m1).1 = true := h
      rw [hflush] at h2
      cases h2
    rw [if_pos henc2, if_neg hfl2] at hsend
    refine ⟨_, _, hsend, ?_⟩
    show (if _ then _ else EINVAL) = EINVAL
    rw [if_neg hfl2]

theorem send_receive_errno_witness :
    Reachable stuckXdr (afterCallsWith stuckXdr [Call.init goodHeap 3 7]) ∧ IsInt 0 ∧
      ∃ mo q,
        CMSendMessage stuckXdr (afterCallsWith stuckXdr [Call.init goodHeap 3 7]) 0
          (some 5) = Outcome.returns (-1, mo, q) ∧ q.errno = EINVAL :=
  ⟨reachable_afterCallsWith _ _ rfl, by decide,
    (send_receive_errno stuckXdr (afterCallsWith stuckXdr [Call.init goodHeap 3 7])
      (reachable_afterCallsWith _ _ rfl) 0 (by decide) (some 5)).2 0
      { socket := 3, communicationDescriptor := 0, converterf := 7,
        x_op := xdr_op.XDR_ENCODE } 5 rfl (by decide) rfl rfl rfl rfl⟩

/-- C14, the claim as stated fails: with arguments that are all good
(descriptor `0` valid with converter `7`, message not null), a
`CMSendMessage` whose end-of-record flush fails returns `-1` with `errno` set
to `EINVAL`, the kind reserved for bad arguments; and a `CMReceiveMessage`
whose record skip fails returns `-1` with `errno` still at its previous value
`0`. -/
theorem send_flush_failure_reports_einval :
    Valid (afterCallsWith stuckXdr [Call.init goodHeap 3 7]) 0 ∧
    (afterCallsWith stuckXdr [Call.init goodHeap 3 7]).errno = 0 ∧
    CMSendMessage stuckXdr (afterCallsWith stuckXdr [Call.init goodHeap 3 7]) 0 (some 5) =
      Outcome.returns (-1, some 5,
        afterCallsWith stuckXdr [Call.init goodHeap 3 7, Call.send 0 (some 5)]) ∧
    (afterCallsWith stuckXdr [Call.init goodHeap 3 7, Call.send 0 (some 5)]).errno = EINVAL ∧
    Valid (afterCallsWith deafXdr [Call.init goodHeap 3 7]) 0 ∧
    (afterCallsWith deafXdr [Call.init goodHeap 3 7]).errno = 0 ∧
    CMReceiveMessage deafXdr (afterCallsWith deafXdr [Call.init goodHeap 3 7]) 0 (some 5) =
      Outcome.returns (-1, some 5,
        afterCallsWith deafXdr [Call.init goodHeap 3 7, Call.receive 0 (some 5)]) ∧
    (afterCallsWith deafXdr [Call.init goodHeap 3 7, Call.receive 0 (some 5)]).errno = 0 := by
  refine ⟨by decide, by decide, ?_, by decide, by decide, by decide, ?_, by decide⟩
  · rfl
  · rfl

/-! ## Operations on other descriptors -/

theorem valid_of_contextAt_eq {ω : Type} (p q : Process ω) (d : Int)
    (hc : q.CMInternalData.capacity = p.CMInternalData.capacity)
    (h : contextAt q.CMInternalData.CMCommunicationContexts d =
      contextAt p.CMInternalData.CMCommunicationContexts d) :
    Valid q d ↔ Valid p d := by
  unfold Valid
  rw [h, hc]

theorem contextAt_set_ne (l : List CMCommunicationDescriptionContext) (d1 d2 : Int)
    (c1 : CMCommunicationDescriptionContext) (h1 : 0 ≤ d1) (h2 : 0 ≤ d2) (hne : d1 ≠ d2) :
    contextAt (some (l.set d1.toNat c1)) d2 = contextAt (some l) d2 := by
  have hn : d1.toNat ≠ d2.toNat := by omega
  have h3 : ¬ d2 < 0 := by omega
  simp only [contextAt, h3, if_false]
  rw [List.getElem?_set_ne hn]

/-- The table after a call of `CMSendMessage` that returns: unchanged, or
changed in the slot of the descriptor only; the capacity is unchanged. -/
theorem send_table {ω μ : Type} (lib : XdrLib ω μ) (p : Process ω) (d : Int)
    (m : Option μ) (r : Int × Option μ × Process ω)
    (h : CMSendMessage lib p d m = Outcome.returns r) :
    r.2.2.CMInternalData.capacity = p.CMInternalData.capacity ∧
    (r.2.2.CMInternalData.CMCommunicationContexts = p.CMInternalData.CMCommunicationContexts ∨
      ∃ (l : List CMCommunicationDescriptionContext) (c1 : CMCommunicationDescriptionContext),
        0 ≤ d ∧ p.CMInternalData.CMCommunicationContexts = some l ∧
        r.2.2.CMInternalData.CMCommunicationContexts = some (l.set d.toNat c1)) := by
  unfold CMSendMessage at h
  cases m with
  | none =>
    simp only at h
    cases h
    exact ⟨rfl, Or.inl rfl⟩
  | some m =>
    simp only at h
    by_cases hg : p.CMInternalData.capacity < UINT_MAX ∧
        toUnsigned d ≥ p.CMInternalData.capacity
    · rw [if_pos hg] at h
      cases h
      exact ⟨rfl, Or.inl rfl⟩
    · rw [if_neg hg] at h
      cases ht : p.CMInternalData.CMCommunicationContexts with
      | none =>
        simp only [ht] at h
        cases h
      | some l =>
        simp only [ht] at h
        cases hctx : contextAt (some l) d with
        | none =>
          simp only [hctx] at h
          cases h
        | some context =>
          simp only [hctx] at h
          have h0 := (contextAt_some l d context hctx).1
          split_ifs at h <;> cases h <;>
            first
            | exact ⟨rfl, Or.inl ht⟩
            | exact ⟨rfl, Or.inr ⟨l, _, h0, rfl, rfl⟩⟩

/-- The table after a call of `CMReceiveMessage` that returns. -/
theorem receive_table {ω μ : Type} (lib : XdrLib ω μ) (p : Process ω) (d : Int)
    (m : Option μ) (r : Int × Option μ × Process ω)
    (h : CMReceiveMessage lib p d m = Outcome.returns r) :
    r.2.2.CMInternalData.capacity = p.CMInternalData.capacity ∧
    (r.2.2.CMInternalData.CMCommunicationContexts = p.CMInternalData.CMCommunicationContexts ∨
      ∃ (l : List CMCommunicationDescriptionContext) (c1 : CMCommunicationDescriptionContext),
        0 ≤ d ∧ p.CMInternalData.CMCommunicationContexts = some l ∧
        r.2.2.CMInternalData.CMCommunicationContexts = some (l.set d.toNat c1)) := by
  unfold CMReceiveMessage at h
  cases m with
  | none =>
    simp only at h
    cases h
    exact ⟨rfl, Or.inl rfl⟩
  | some m =>
    simp only at h
    by_cases hg : p.CMInternalData.capacity < UINT_MAX ∧
        toUnsigned d ≥ p.CMInternalData.capacity
    · rw [if_pos hg] at h
      cases h
      exact ⟨rfl, Or.inl rfl⟩
    · rw [if_neg hg] at h
      cases ht : p.CMInternalData.CMCommunicationContexts with
      | none =>
        simp only [ht] at h
        cases h
      | some l =>
        simp only [ht] at h
        cases hctx : contextAt (some l) d with
        | none =>
          simp only [hctx] at h
          cases h
        | some context =>
          simp only [hctx] at h
          have h0 := (contextAt_some l d context hctx).1
          split_ifs at h <;> cases h <;>
            first
            | exact ⟨rfl, Or.inl ht⟩
            | exact ⟨rfl, Or.inr ⟨l, _, h0, rfl, rfl⟩⟩

/-- The table after a call of `CMSetConverterF` that returns. -/
theorem setConverter_table {ω : Type} (p : Process ω) (d : Int) (f : Nat) (q : Process ω)
    (h : CMSetConverterF p d f = Outcome.returns q) :
    q.CMInternalData.capacity = p.CMInternalData.capacity ∧
    (q.CMInternalData.CMCommunicationContexts = p.CMInternalData.CMCommunicationContexts ∨
      ∃ (l : List CMCommunicationDescriptionContext) (c1 : CMCommunicationDescriptionContext),
        0 ≤ d ∧ p.CMInternalData.CMCommunicationContexts = some l ∧
        q.CMInternalData.CMCommunicationContexts = some (l.set d.toNat c1)) := by
  unfold CMSetConverterF at h
  split_ifs at h with h1 h2 h3
  · cases h
    exact ⟨rfl, Or.inl rfl⟩
  · cases h
    exact ⟨rfl, Or.inl rfl⟩
  · split at h
    · cases h
    · rename_i l ht
      split at h
      · cases h
      · rename_i context hctx
        have h0 := (contextAt_some l d context hctx).1
        cases h
        exact ⟨rfl, Or.inr ⟨l, _, h0, ht, rfl⟩⟩

theorem contextAt_of_table {ω : Type} (p q : Process ω) (d1 d2 : Int) (h2 : 0 ≤ d2)
    (hne : d1 ≠ d2)
    (h : q.CMInternalData.CMCommunicationContexts = p.CMInternalData.CMCommunicationContexts ∨
      ∃ (l : List CMCommunicationDescriptionContext) (c1 : CMCommunicationDescriptionContext),
        0 ≤ d1 ∧ p.CMInternalData.CMCommunicationContexts = some l ∧
        q.CMInternalData.CMCommunicationContexts = some (l.set d1.toNat c1)) :
    contextAt q.CMInternalData.CMCommunicationContexts d2 =
      contextAt p.CMInternalData.CMCommunicationContexts d2 := by
  rcases h with h | ⟨l, c1, h1, hp, hq⟩
  · rw [h]
  · rw [hp, hq]
    exact contextAt_set_ne l d1 d2 c1 h1 h2 hne

/-- Release of another descriptor leaves the slot of a valid descriptor, and
the capacity, as they are. -/
theorem finish_frame {ω μ : Type} (lib : XdrLib ω μ) (p : Process ω) (d1 d2 : Int)
    (q : Process ω) (hinv : RegistryInv p.CMInternalData) (hv : Valid p d2) (hne : d1 ≠ d2)
    (h : CMFinishCommunicationWithCommunicationDescriptor lib p d1 = Outcome.returns q) :
    q.CMInternalData.capacity = p.CMInternalData.capacity ∧
    contextAt q.CMInternalData.CMCommunicationContexts d2 =
      contextAt p.CMInternalData.CMCommunicationContexts d2 := by
  obtain ⟨l2, k2, c2, ht2, hk2, _, hcap, _, hc2, _, _, hs2, _, _⟩ := valid_slot p d2 hinv hv
  rcases finish_cases lib p d1 hinv with
    ⟨_, h1⟩ | ⟨_, _, h1⟩ | ⟨_, _, _, h1⟩ | ⟨_, _, l, k, c, ht, hk, _, hc1, _, h1⟩ |
    ⟨_, hm, l, k, c, ht, hk, hk16, hc1, _, ⟨hall, h1⟩ | ⟨_, h1⟩⟩
  · rw [h1] at h
    cases h
    exact ⟨rfl, rfl⟩
  · rw [h1] at h
    cases h
  · rw [h1] at h
    cases h
  · rw [h1] at h
    cases h
    exact ⟨rfl, rfl⟩
  · exfalso
    rw [ht2] at ht
    cases ht
    have hkk : k ≠ k2 := by
      intro he
      apply hne
      rw [hk, hk2, he]
    apply hs2
    apply hall k2 c2
    rw [List.getElem?_set_ne hkk]
    exact hc2
  · rw [h1] at h
    cases h
    refine ⟨hcap.symm, ?_⟩
    rw [ht]
    have := contextAt_set_ne l d1 d2 { c with socket := -1, communicationDescriptor := -1 }
      (by omega) (by omega) hne
    rw [hk] at this
    simpa using this

/-- C18: in a reachable state let `d2` be a valid descriptor.  Any call that
returns and is not aimed at `d2` itself (a registration, or a release, set
converter, get converter, send or receive on another descriptor), whatever its
result, leaves `d2` valid and the slot of `d2` exactly as it was: same socket,
descriptor field, converter and stream direction. -/
theorem other_descriptor_untouched {ω μ : Type} (lib : XdrLib ω μ) (p : Process ω)
    (hp : Reachable lib p) (d2 : Int) (hv : Valid p d2) (c : Call μ)
    (hc : c.target ≠ some d2) (r : Int) (q : Process ω)
    (hrun : c.run lib p = Outcome.returns (r, q)) :
    Valid q d2 ∧
      contextAt q.CMInternalData.CMCommunicationContexts d2 =
        contextAt p.CMInternalData.CMCommunicationContexts d2 := by
  have hinv := reachable_inv lib p hp
  have h0 : 0 ≤ d2 := hv.1
  have key : ∀ q : Process ω,
      q.CMInternalData.capacity = p.CMInternalData.capacity →
      contextAt q.CMInternalData.CMCommunicationContexts d2 =
        contextAt p.CMInternalData.CMCommunicationContexts d2 →
      Valid q d2 ∧
        contextAt q.CMInternalData.CMCommunicationContexts d2 =
          contextAt p.CMInternalData.CMCommunicationContexts d2 :=
    fun q h1 h2 => ⟨(valid_of_contextAt_eq p q d2 h1 h2).mpr hv, h2⟩
  cases c with
  | init heap s f => exact (init_frame lib heap p s f r q hinv hrun d2).1 hv
  | finish d =>
    have hne : d ≠ d2 := fun he => hc (by rw [he]; rfl)
    simp only [Call.run] at hrun
    split at hrun
    · rename_i q0 hq
      cases hrun
      obtain ⟨h1, h2⟩ := finish_frame lib p d d2 _ hinv hv hne hq
      exact key _ h1 h2
    · cases hrun
    · cases hrun
  | send d m =>
    have hne : d ≠ d2 := fun he => hc (by rw [he]; rfl)
    simp only [Call.run] at hrun
    split at hrun
    · rename_i r0 hr
      cases hrun
      obtain ⟨h1, h2⟩ := send_table lib p d m r0 hr
      exact key _ h1 (contextAt_of_table p _ d d2 h0 hne h2)
    · cases hrun
    · cases hrun
  | receive d m =>
    have hne : d ≠ d2 := fun he => hc (by rw [he]; rfl)
    simp only [Call.run] at hrun
    split at hrun
    · rename_i r0 hr
      cases hrun
      obtain ⟨h1, h2⟩ := receive_table lib p d m r0 hr
      exact key _ h1 (contextAt_of_table p _ d d2 h0 hne h2)
    · cases hrun
    · cases hrun
  | setConverter d f =>
    have hne : d ≠ d2 := fun he => hc (by rw [he]; rfl)
    simp only [Call.run] at hrun
    split at hrun
    · rename_i q0 hq
      cases hrun
      obtain ⟨h1, h2⟩ := setConverter_table p d f _ hq
      exact key _ h1 (contextAt_of_table p _ d d2 h0 hne h2)
    · cases hrun
    · cases hrun
  | getConverter d =>
    simp only [Call.run] at hrun
    unfold CMGetConverterF at hrun
    split_ifs at hrun
    · cases hrun
      exact key _ rfl rfl
    · split at hrun
      · rename_i r0 hr
        split at hr
        · cases hr
        · cases hr
          cases hrun
          exact key _ rfl rfl
      · cases hrun
      · cases hrun

theorem other_descriptor_untouched_witness :
    Reachable quietXdr (afterCalls [Call.init goodHeap 3 7, Call.init goodHeap 4 7]) ∧
      Valid (afterCalls [Call.init goodHeap 3 7, Call.init goodHeap 4 7]) 1 ∧
      (Call.finish 0 : Call Nat).target ≠ some 1 ∧
      Valid (afterCalls [Call.init goodHeap 3 7, Call.init goodHeap 4 7, Call.finish 0]) 1 ∧
      contextAt
          (afterCalls [Call.init goodHeap 3 7, Call.init goodHeap 4 7,
            Call.finish 0]).CMInternalData.CMCommunicationContexts 1 =
        contextAt
          (afterCalls [Call.init goodHeap 3 7,
            Call.init goodHeap 4 7]).CMInternalData.CMCommunicationContexts 1 :=
  ⟨twoRegistered_reachable, by decide, by decide,
    other_descriptor_untouched quietXdr
      (afterCalls [Call.init goodHeap 3 7, Call.init goodHeap 4 7])
      twoRegistered_reachable 1 (by decide) (Call.finish 0) (by decide) 0
      (afterCalls [Call.init goodHeap 3 7, Call.init goodHeap 4 7, Call.finish 0]) rfl⟩

/-! ## Invariants of the reachable states -/

/-- C19: in every state reachable from the empty registry by calls of the six
functions with arbitrary arguments, every index `i` below the capacity names a
slot of the table; the socket of that slot is not the free sentinel `-1`
exactly when its descriptor field is `i`; and a slot whose socket is not `-1`
has a non-negative socket and a converter that is not null. -/
theorem slot_consistency {ω μ : Type} (lib : XdrLib ω μ) (p : Process ω)
    (hp : Reachable lib p) (i : Nat) (hi : i < p.CMInternalData.capacity) :
    ∃ c, contextAt p.CMInternalData.CMCommunicationContexts (i : Int) = some c ∧
      (c.socket ≠ -1 ↔ c.communicationDescriptor = (i : Int)) ∧
      (c.socket ≠ -1 → 0 ≤ c.socket ∧ c.converterf ≠ 0) := by
  rcases reachable_inv lib p hp with ⟨_, hc, _⟩ | ⟨l, ht, hc, hlen, hok, _⟩
  · rw [hc] at hi
    omega
  · rw [hc] at hi
    obtain ⟨c, hc1⟩ : ∃ c, l[i]? = some c := ⟨l[i], List.getElem?_eq_getElem (by omega)⟩
    refine ⟨c, ?_, ?_, ?_⟩
    · rw [ht]
      simp [contextAt, hc1]
    · rcases hok i c hc1 with ⟨hfree, hdesc⟩ | ⟨hs, hdesc, _⟩
      · exact ⟨fun h => absurd hfree h, fun h => absurd h hdesc⟩
      · exact ⟨fun _ => hdesc, fun _ => by omega⟩
    · intro hs
      rcases hok i c hc1 with ⟨hfree, _⟩ | ⟨h0, _, hf⟩
      · exact absurd hfree hs
      · exact ⟨h0, hf⟩

theorem slot_consistency_witness :
    Reachable quietXdr (afterCalls [Call.init goodHeap 3 7, Call.init goodHeap 4 7,
        Call.finish 0]) ∧
      0 < (afterCalls [Call.init goodHeap 3 7, Call.init goodHeap 4 7,
        Call.finish 0]).CMInternalData.capacity ∧
      ∃ c, contextAt
          (afterCalls [Call.init goodHeap 3 7, Call.init goodHeap 4 7,
            Call.finish 0]).CMInternalData.CMCommunicationContexts ((0 : Nat) : Int) =
          some c ∧
        (c.socket ≠ -1 ↔ c.communicationDescriptor = ((0 : Nat) : Int)) ∧
        (c.socket ≠ -1 → 0 ≤ c.socket ∧ c.converterf ≠ 0) :=
  ⟨reachable_afterCalls _ rfl, by decide,
    slot_consistency quietXdr
      (afterCalls [Call.init goodHeap 3 7, Call.init goodHeap 4 7, Call.finish 0])
      (reachable_afterCalls _ rfl) 0 (by decide)⟩

/-- C20: in every reachable state the capacity is `0` exactly when there is no
table, and exactly when no slot is occupied (has a socket other than `-1`);
and a call that returns into a state with at least one occupied slot has not
made the capacity smaller. -/
theorem table_lifetime {ω μ : Type} (lib : XdrLib ω μ) (p : Process ω)
    (hp : Reachable lib p) :
    (p.CMInternalData.capacity = 0 ↔ p.CMInternalData.CMCommunicationContexts = none) ∧
    (p.CMInternalData.capacity = 0 ↔
      ∀ (i : Int) (c : CMCommunicationDescriptionContext),
        contextAt p.CMInternalData.CMCommunicationContexts i = some c → c.socket = -1) ∧
    ∀ (c : Call μ) (r : Int) (q : Process ω), c.run lib p = Outcome.returns (r, q) →
      (∃ (i : Int) (c1 : CMCommunicationDescriptionContext),
        contextAt q.CMInternalData.CMCommunicationContexts i = some c1 ∧ c1.socket ≠ -1) →
      p.CMInternalData.capacity ≤ q.CMInternalData.capacity := by
  have hinv := reachable_inv lib p hp
  refine ⟨?_, ?_, ?_⟩
  · rcases hinv with ⟨ht, hc, _⟩ | ⟨l, ht, hc, _, _, _⟩
    · exact ⟨fun _ => ht, fun _ => hc⟩
    · constructor
      · intro h
        rw [hc] at h
        cases h
      · intro h
        rw [ht] at h
        cases h
  · rcases hinv with ⟨ht, hc, _⟩ | ⟨l, ht, hc, hlen, _, c0, hmem, hs⟩
    · refine ⟨fun _ i c h => ?_, fun _ => hc⟩
      rw [ht] at h
      simp [contextAt] at h
    · constructor
      · intro h
        rw [hc] at h
        cases h
      · intro h
        exfalso
        obtain ⟨i, hi⟩ := List.mem_iff_getElem?.mp hmem
        apply hs
        apply h (i : Int) c0
        rw [ht]
        simp [contextAt, hi]
  · intro c r q hrun hocc
    have hq := run_preserves lib p c r q hinv hrun
    obtain ⟨i, c1, hc1, _⟩ := hocc
    rcases hq with ⟨ht, _, _⟩ | ⟨l, _, hcq, _, _, _⟩
    · rw [ht] at hc1
      simp [contextAt] at hc1
    · rw [hcq]
      rcases hinv with ⟨_, hc, _⟩ | ⟨_, _, hc, _, _, _⟩
      · rw [hc]
        omega
      · rw [hc]

theorem table_lifetime_witness :
    Reachable quietXdr (afterCalls [Call.init goodHeap 3 7, Call.init goodHeap 4 7]) ∧
      (afterCalls [Call.init goodHeap 3 7, Call.init goodHeap 4 7]).CMInternalData.capacity ≤
        (afterCalls [Call.init goodHeap 3 7, Call.init goodHeap 4 7,
          Call.finish 0]).CMInternalData.capacity :=
  ⟨twoRegistered_reachable,
    (table_lifetime quietXdr (afterCalls [Call.init goodHeap 3 7, Call.init goodHeap 4 7])
      twoRegistered_reachable).2.2 (Call.finish 0) 0
      (afterCalls [Call.init goodHeap 3 7, Call.init goodHeap 4 7, Call.finish 0]) rfl
      ⟨1, _, rfl, by decide⟩⟩

/-! ## The digest utility -/

theorem writeAt_append (A : List Nat) (bytes R : List Nat) (off : Nat)
    (hA : A.length = off) (hR : bytes.length ≤ R.length) :
    writeAt (A ++ R) off bytes = some (A ++ bytes ++ R.drop bytes.length) := by
  unfold writeAt
  have h1 : off + bytes.length ≤ (A ++ R).length := by
    rw [List.length_append]
    omega
  rw [if_pos h1]
  subst hA
  rw [List.take_left, List.drop_append]

theorem hexLoop_spec (src : List (Fin 256)) :
    ∀ (n i : Nat) (A : List Nat), A.length = 2 * i → i + n ≤ src.length →
      hexLoop src n i (A ++ List.replicate (2 * n + 1) 0) =
        some (A ++ toHexSpec ((src.drop i).take n) ++ [0]) := by
  intro n
  induction n with
  | zero =>
    intro i A _ _
    simp [hexLoop, toHexSpec]
  | succ n ih =>
    intro i A hA hlen
    have hi : i < src.length := by omega
    unfold hexLoop
    rw [List.getElem?_eq_getElem hi]
    have hshift : i <<< 1 = 2 * i := by
      rw [Nat.shiftLeft_eq]
      omega
    have hw : writeAt (A ++ List.replicate (2 * (n + 1) + 1) 0) (i <<< 1) (sprintf02x src[i]) =
        some ((A ++ [hexDigit (src[i].val / 16), hexDigit (src[i].val % 16)]) ++
          List.replicate (2 * n + 1) 0) := by
      rw [writeAt_append A _ _ (i <<< 1) (by rw [hshift]; exact hA)
        (by simp [sprintf02x])]
      have h3 : (sprintf02x src[i]).length = 3 := rfl
      rw [h3, List.drop_replicate]
      have h4 : 2 * (n + 1) + 1 - 3 = 2 * n := by omega
      rw [h4]
      simp [sprintf02x, List.replicate_succ]
    simp only [hw]
    rw [ih (i + 1) _ (by simp [hA]; omega) (by omega)]
    have hd : src.drop i = src[i] :: src.drop (i + 1) := List.drop_eq_getElem_cons hi
    rw [hd, List.take_succ_cons]
    simp only [toHexSpec, List.flatMap_cons, List.append_assoc]

theorem toHexSpec_length (src : List (Fin 256)) : (toHexSpec src).length = 2 * src.length := by
  induction src with
  | nil => rfl
  | cons b bs ih =>
    simp only [toHexSpec, List.flatMap_cons, List.length_append, List.length_cons,
      List.length_nil] at ih ⊢
    omega

theorem toHexSpec_getElem? (src : List (Fin 256)) :
    ∀ (i : Nat) (b : Fin 256), src[i]? = some b →
      (toHexSpec src)[2 * i]? = some (hexDigit (b.val / 16)) ∧
      (toHexSpec src)[2 * i + 1]? = some (hexDigit (b.val % 16)) := by
  induction src with
  | nil =>
    intro i b h
    simp at h
  | cons a as ih =>
    intro i b h
    cases i with
    | zero =>
      simp only [List.getElem?_cons_zero, Option.some.injEq] at h
      subst h
      simp [toHexSpec]
    | succ j =>
      simp only [List.getElem?_cons_succ] at h
      obtain ⟨h1, h2⟩ := ih j b h
      have e1 : 2 * (j + 1) = (2 * j) + 1 + 1 := by omega
      have e2 : 2 * (j + 1) + 1 = (2 * j + 1) + 1 + 1 := by omega
      have hc : toHexSpec (a :: as) =
          hexDigit (a.val / 16) :: hexDigit (a.val % 16) :: toHexSpec as := by
        simp [toHexSpec]
      rw [hc]
      constructor
      · rw [e1]
        simp only [List.getElem?_cons_succ]
        exact h1
      · rw [e2]
        simp only [List.getElem?_cons_succ]
        exact h2

/-- C16: for a digest `src` of `SHA_DIGEST_LENGTH = 20` bytes and a destination
array of 41 bytes, `CMConvertDigestToHexString` returns `0`, leaves `errno`
alone and stores the 40 characters that the spec describes, followed by NUL:
for every `i < 20` the characters `2i` and `2i+1` are the hexadecimal digits
of the high and the low nibble of `src[i]`, and the digits are
`0123456789abcdef`.  What is stored is a function of `src` alone. -/
theorem convertDigest_hex (errno : Int) (dest : List Nat) (src : List (Fin 256))
    (hdest : dest.length = 41) (hsrc : src.length = SHA_DIGEST_LENGTH) :
    CMConvertDigestToHexString errno (some dest) (some src) =
        Outcome.returns (0, errno, some (toHexSpec src ++ [0])) ∧
      (toHexSpec src).length = 40 ∧
      (∀ (i : Nat) (b : Fin 256), src[i]? = some b →
        (toHexSpec src ++ [0])[2 * i]? = some (hexDigit (b.val / 16)) ∧
        (toHexSpec src ++ [0])[2 * i + 1]? = some (hexDigit (b.val % 16))) ∧
      (toHexSpec src ++ [0])[40]? = some 0 ∧
      (∀ n : Fin 16, hexDigit n.val = ("0123456789abcdef".toList.getD n.val 'z').toNat) := by
  have hlen : (toHexSpec src).length = 40 := by
    rw [toHexSpec_length, hsrc]
    rfl
  refine ⟨?_, hlen, ?_, ?_, by decide⟩
  · have hz : writeAt dest 0 (List.replicate (SHA_DIGEST_LENGTH * 2 + 1) 0) =
        some ([] ++ List.replicate (2 * SHA_DIGEST_LENGTH + 1) 0) := by
      have := writeAt_append [] (List.replicate 41 0) dest 0 rfl (by simp [hdest])
      simp only [List.nil_append, List.length_replicate] at this
      rw [show SHA_DIGEST_LENGTH * 2 + 1 = 41 from rfl, show 2 * SHA_DIGEST_LENGTH + 1 = 41 from rfl,
        this, List.drop_of_length_le (by omega)]
      simp
    have hloop := hexLoop_spec src SHA_DIGEST_LENGTH 0 [] rfl (by omega)
    simp only [CMConvertDigestToHexString, hz, hloop]
    have : (List.drop 0 src).take SHA_DIGEST_LENGTH = src := by
      rw [List.drop_zero, ← hsrc, List.take_length]
    rw [this]
    simp
  · intro i b hb
    obtain ⟨h1, h2⟩ := toHexSpec_getElem? src i b hb
    have hi := getElem?_lt_length src i b hb
    rw [hsrc] at hi
    have hi2 : i < 20 := hi
    rw [List.getElem?_append_left (by omega), List.getElem?_append_left (by omega)]
    exact ⟨h1, h2⟩
  · rw [List.getElem?_append_right (by omega)]
    simp [hlen]

theorem convertDigest_hex_witness :
    (List.replicate 41 7 : List Nat).length = 41 ∧
      (List.replicate 20 0 : List (Fin 256)).length = SHA_DIGEST_LENGTH ∧
      CMConvertDigestToHexString 0 (some (List.replicate 41 7)) (some (List.replicate 20 0)) =
        Outcome.returns (0, 0, some (List.replicate 40 48 ++ [0])) ∧
      List.replicate 40 48 = "0000000000000000000000000000000000000000".toList.map Char.toNat ∧
      toHexSpec [0x1A, 0xFF] = "1aff".toList.map Char.toNat :=
  ⟨by decide, by decide,
    (convertDigest_hex 0 (List.replicate 41 7) (List.replicate 20 0) (by decide)
      (by decide)).1,
    by decide, by decide⟩

/-- C17, evaluated at a failing allocation: with `dest` and `src` not null
(`*dest` null before the call, the digest all zero) and `calloc` failing,
`CMCopyDigestToHexString` returns `ENOMEM - 1 = 11` with `errno = 11`, not
`-1` with `errno = ENOMEM`; `*dest` is unchanged.  With a null `dest` or `src`
it returns `-1` with `EINVAL`, and with `calloc` succeeding it returns `0` and
`*dest` holds what `CMConvertDigestToHexString` stores. -/
theorem copyDigest_enomem_slip :
    CMCopyDigestToHexString badHeap 0 (some none) (some (List.replicate 20 0)) =
      Outcome.returns (11, 11, some none) ∧
    (11 : Int) ≠ -1 ∧ (11 : Int) ≠ ENOMEM ∧
    CMCopyDigestToHexString goodHeap 0 none (some (List.replicate 20 0)) =
      Outcome.returns (-1, EINVAL, none) ∧
    CMCopyDigestToHexString goodHeap 0 (some none) none =
      Outcome.returns (-1, EINVAL, some none) ∧
    CMCopyDigestToHexString goodHeap 0 (some none) (some (List.replicate 20 0)) =
      Outcome.returns (0, 0, some (some (toHexSpec (List.replicate 20 0) ++ [0]))) := by
  refine ⟨rfl, by decide, by decide, rfl, rfl, ?_⟩
  rfl

/-! ## Round trip over the record stream model -/

theorem hasSocket_set {ω : Type} (p q : Process ω)
    (l : List CMCommunicationDescriptionContext) (k : Nat)
    (c c1 : CMCommunicationDescriptionContext) (mu : Bool)
    (ht : p.CMInternalData.CMCommunicationContexts = some l) (hk : l[k]? = some c)
    (hs : c1.socket = c.socket)
    (hd : c1.communicationDescriptor = c.communicationDescriptor)
    (hq : q.CMInternalData =
      { CMCommunicationContexts := some (l.set k c1), capacity := p.CMInternalData.capacity,
        mutex := mu }) :
    ∀ (d : Int) (s : Int), HasSocket p d s → HasSocket q d s := by
  intro d s ⟨hv, c2, hc2, hs2⟩
  have hshape : SameShape p.CMInternalData q.CMInternalData :=
    Or.inr ⟨l, k, c, c1, mu, ht, hk, hs, hd, hq⟩
  refine ⟨(valid_of_shape p q d hshape).mpr hv, ?_⟩
  have h0 : 0 ≤ d := hv.1
  have hqt : q.CMInternalData.CMCommunicationContexts = some (l.set k c1) := by rw [hq]
  rw [hqt]
  rw [ht] at hc2
  by_cases hkd : (k : Int) = d
  · subst hkd
    have hck : contextAt (some l) (k : Int) = some c := by simp [contextAt, hk]
    rw [hck] at hc2
    cases hc2
    exact ⟨c1, contextAt_set_self l k c1 (getElem?_lt_length l k _ hk), by rw [hs, hs2]⟩
  · refine ⟨c2, ?_, hs2⟩
    have := contextAt_set_ne l (k : Int) d c1 (by omega) h0 hkd
    simp only [Int.toNat_ofNat] at this
    rw [this]
    exact hc2

/-- A send on a valid descriptor under the record stream model: it returns
`0` and one record, made of what was pending and the encoded message, arrives
at the peer of the slot's socket. -/
theorem wire_send {μ : Type} (enc : μ → List Nat) (dec : List Nat → Option μ)
    (p : Process Wire) (d a : Int) (m : μ) (hinv : RegistryInv p.CMInternalData)
    (h : HasSocket p d a) :
    ∃ q, CMSendMessage (wireXdr enc dec) p d (some m) = Outcome.returns (0, some m, q) ∧
      RegistryInv q.CMInternalData ∧
      (∀ (d2 : Int) (s : Int), HasSocket p d2 s → HasSocket q d2 s) ∧
      q.world.peer = p.world.peer ∧
      q.world.pending = Function.update p.world.pending d.toNat [] ∧
      q.world.inbox = Function.update p.world.inbox (p.world.peer a)
        (p.world.inbox (p.world.peer a) ++ [p.world.pending d.toNat ++ enc m]) := by
  obtain ⟨hv, c0, hc0, hs0⟩ := h
  obtain ⟨l, k, c, ht, hk, hk16, hcap, hlen, hc1, hctx, hdesc, hs, _, hf⟩ :=
    valid_slot p d hinv hv
  have hcc : c0 = c := by
    rw [ht, hk, hctx] at hc0
    cases hc0
    rfl
  subst hcc
  have hsend := send_valid (wireXdr enc dec) p d m l k c0 ht hk hk16 hcap hctx hdesc hs hf
  have hpres := send_preserves (wireXdr enc dec) p d (some m) _ hinv hsend
  simp only [wireXdr, if_true] at hsend hpres
  subst hk
  subst hs0
  refine ⟨_, hsend, hpres, ?_, rfl, ?_, ?_⟩
  · exact hasSocket_set p _ l k c0 { c0 with x_op := xdr_op.XDR_ENCODE } _ ht hc1 rfl rfl rfl
  · simp only [Int.toNat_ofNat]
    funext x
    by_cases hx : x = k
    · subst hx
      simp
    · simp [Function.update_noteq hx]
  · simp only [Int.toNat_ofNat, Function.update_same]

/-- A receive on a valid descriptor under the record stream model, when a
record that decodes has arrived at the slot's socket: it returns `0`, stores
the decoded message and takes that record off the socket. -/
theorem wire_receive {μ : Type} (enc : μ → List Nat) (dec : List Nat → Option μ)
    (p : Process Wire) (d b : Int) (buf m1 : μ) (r : List Nat) (rs : List (List Nat))
    (hinv : RegistryInv p.CMInternalData) (h : HasSocket p d b)
    (hin : p.world.inbox b = r :: rs) (hdec : dec r = some m1) :
    ∃ q, CMReceiveMessage (wireXdr enc dec) p d (some buf) =
        Outcome.returns (0, some m1, q) ∧
      RegistryInv q.CMInternalData ∧
      (∀ (d2 : Int) (s : Int), HasSocket p d2 s → HasSocket q d2 s) ∧
      q.world.peer = p.world.peer ∧
      q.world.inbox = Function.update p.world.inbox b rs := by
  obtain ⟨hv, c0, hc0, hs0⟩ := h
  obtain ⟨l, k, c, ht, hk, hk16, hcap, hlen, hc1, hctx, hdesc, hs, _, hf⟩ :=
    valid_slot p d hinv hv
  have hcc : c0 = c := by
    rw [ht, hk, hctx] at hc0
    cases hc0
    rfl
  subst hcc
  have hrecv := receive_valid (wireXdr enc dec) p d buf l k c0 ht hk hk16 hcap hctx hdesc hs hf
  have hpres := receive_preserves (wireXdr enc dec) p d (some buf) _ hinv hrecv
  subst hk
  subst hs0
  simp only [wireXdr, Function.update_same, hin, hdec, if_true, Bool.true_eq_false,
    if_false] at hrecv hpres
  refine ⟨_, hrecv, hpres, ?_, rfl, rfl⟩
  exact hasSocket_set p _ l k c0 { c0 with x_op := xdr_op.XDR_DECODE } _ ht hc1 rfl rfl rfl

theorem wire_sendAll {μ : Type} (enc : μ → List Nat) (dec : List Nat → Option μ)
    (d1 a b : Int) :
    ∀ (msgs : List μ) (p : Process Wire), RegistryInv p.CMInternalData → HasSocket p d1 a →
      p.world.peer a = b → p.world.pending d1.toNat = [] →
      ∃ p1, sendAll (wireXdr enc dec) p d1 msgs = some p1 ∧
        RegistryInv p1.CMInternalData ∧
        (∀ (d2 : Int) (s : Int), HasSocket p d2 s → HasSocket p1 d2 s) ∧
        p1.world.inbox b = p.world.inbox b ++ msgs.map enc := by
  intro msgs
  induction msgs with
  | nil =>
    intro p hinv _ _ _
    exact ⟨p, rfl, hinv, fun _ _ h => h, by simp⟩
  | cons m ms ih =>
    intro p hinv h1 hpeer hpend
    obtain ⟨q, hq, hinvq, hkeep, hqpeer, hqpend, hqin⟩ := wire_send enc dec p d1 a m hinv h1
    have hpend2 : q.world.pending d1.toNat = [] := by
      rw [hqpend]
      simp
    have hpeer2 : q.world.peer a = b := by rw [hqpeer, hpeer]
    obtain ⟨p1, hp1, hinv1, hkeep1, hin1⟩ := ih q hinvq (hkeep d1 a h1) hpeer2 hpend2
    refine ⟨p1, ?_, hinv1, fun d2 s h => hkeep1 d2 s (hkeep d2 s h), ?_⟩
    · simp only [sendAll, hq, if_true]
      exact hp1
    · rw [hin1, hqin, hpeer, hpend]
      simp

theorem wire_receiveAll {μ : Type} (enc : μ → List Nat) (dec : List Nat → Option μ)
    (hcodec : ∀ m, dec (enc m) = some m) (d2 b : Int) (buf : μ) :
    ∀ (msgs : List μ) (p : Process Wire) (rest : List (List Nat)),
      RegistryInv p.CMInternalData → HasSocket p d2 b →
      p.world.inbox b = msgs.map enc ++ rest →
      ∃ p2, receiveAll (wireXdr enc dec) p d2 msgs.length buf = some (msgs, p2) ∧
        p2.world.inbox b = rest := by
  intro msgs
  induction msgs with
  | nil =>
    intro p rest _ _ hin
    exact ⟨p, rfl, by simpa using hin⟩
  | cons m ms ih =>
    intro p rest hinv h2 hin
    have hin2 : p.world.inbox b = enc m :: (ms.map enc ++ rest) := by
      rw [hin]
      rfl
    obtain ⟨q, hq, hinvq, hkeep, _, hqin⟩ :=
      wire_receive enc dec p d2 b buf m (enc m) _ hinv h2 hin2 (hcodec m)
    have hin3 : q.world.inbox b = ms.map enc ++ rest := by
      rw [hqin]
      simp
    obtain ⟨p2, hp2, hrest⟩ := ih q rest hinvq (hkeep d2 b h2) hin3
    refine ⟨p2, ?_, hrest⟩
    simp only [List.length_cons, receiveAll, hq, if_true, hp2]

/-- C15: round trip over the record stream model, for every codec whose
decoder inverts its encoder.  In a reachable state let `d1` and `d2` be valid
descriptors whose sockets `a` and `b` are the two ends of a connection, with
nothing pending on the stream of `d1` and no record waiting at `b`.  Then for
every list of messages, sending them on `d1` returns `0` each time, and the
sends have put one record per message at `b`, and the same number of receives
on `d2` return `0` each time, store exactly those messages in order and leave
no record at `b`; in particular one send followed by one receive stores the
message sent. -/
theorem round_trip {μ : Type} (enc : μ → List Nat) (dec : List Nat → Option μ)
    (hcodec : ∀ m, dec (enc m) = some m) (p : Process Wire)
    (hp : Reachable (wireXdr enc dec) p) (d1 d2 a b : Int) (h1 : HasSocket p d1 a)
    (h2 : HasSocket p d2 b) (hpeer : p.world.peer a = b)
    (hpend : p.world.pending d1.toNat = []) (hin : p.world.inbox b = []) :
    (∀ (msgs : List μ) (buf : μ),
      ∃ p1 p2, sendAll (wireXdr enc dec) p d1 msgs = some p1 ∧
        p1.world.inbox b = msgs.map enc ∧
        receiveAll (wireXdr enc dec) p1 d2 msgs.length buf = some (msgs, p2) ∧
        p2.world.inbox b = []) ∧
    (∀ (msg buf : μ),
      ∃ q1 q2, CMSendMessage (wireXdr enc dec) p d1 (some msg) =
          Outcome.returns (0, some msg, q1) ∧
        CMReceiveMessage (wireXdr enc dec) q1 d2 (some buf) =
          Outcome.returns (0, some msg, q2)) := by
  have hinv := reachable_inv (wireXdr enc dec) p hp
  constructor
  · intro msgs buf
    obtain ⟨p1, hp1, hinv1, hkeep, hin1⟩ :=
      wire_sendAll enc dec d1 a b msgs p hinv h1 hpeer hpend
    have hin2 : p1.world.inbox b = msgs.map enc ++ [] := by
      rw [hin1, hin]
      simp
    obtain ⟨p2, hp2, hrest⟩ :=
      wire_receiveAll enc dec hcodec d2 b buf msgs p1 [] hinv1 (hkeep d2 b h2) hin2
    exact ⟨p1, p2, hp1, by simpa using hin2, hp2, hrest⟩
  · intro msg buf
    obtain ⟨q1, hq1, hinv1, hkeep, hqpeer, hqpend, hqin⟩ := wire_send enc dec p d1 a msg hinv h1
    have hin2 : q1.world.inbox b = enc msg :: [] := by
      rw [hqin, hpeer, hpend, hin]
      simp
    obtain ⟨q2, hq2, _⟩ :=
      wire_receive enc dec q1 d2 b buf msg (enc msg) [] hinv1 (hkeep d2 b h2) hin2 (hcodec msg)
    exact ⟨q1, q2, hq1, hq2⟩

theorem messageCodec_inverse (m : CMMessage) : messageDecode (messageEncode m) = some m := by
  cases m with
  | mk t s =>
    by_cases h : t < 0
    · simp only [messageEncode, messageDecode, h, if_true, Option.some.injEq,
        CMMessage.mk.injEq, and_true]
      omega
    · simp only [messageEncode, messageDecode, h, if_false, if_true, Option.some.injEq,
        CMMessage.mk.injEq, and_true]
      simp only [Nat.zero_ne_one, if_false]
      omega

theorem round_trip_witness :
    (∀ m, messageDecode (messageEncode m) = some m) ∧
      Reachable (wireXdr messageEncode messageDecode)
        (afterWireCalls [Call.init goodHeap 3 7, Call.init goodHeap 4 7]) ∧
      HasSocket (afterWireCalls [Call.init goodHeap 3 7, Call.init goodHeap 4 7]) 0 3 ∧
      HasSocket (afterWireCalls [Call.init goodHeap 3 7, Call.init goodHeap 4 7]) 1 4 ∧
      ∃ q1 q2,
        CMSendMessage (wireXdr messageEncode messageDecode)
            (afterWireCalls [Call.init goodHeap 3 7, Call.init goodHeap 4 7]) 0
            (some { type := 1, string := [104, 101, 108, 108, 111] }) =
          Outcome.returns (0, some { type := 1, string := [104, 101, 108, 108, 111] }, q1) ∧
        CMReceiveMessage (wireXdr messageEncode messageDecode) q1 1
            (some { type := -1, string := [] }) =
          Outcome.returns (0, some { type := 1, string := [104, 101, 108, 108, 111] }, q2) :=
  ⟨messageCodec_inverse,
    reachable_runCalls _ [Call.init goodHeap 3 7, Call.init goodHeap 4 7] _ _
      (Reachable.initial 0 pairWire) rfl,
    ⟨by decide, _, rfl, rfl⟩, ⟨by decide, _, rfl, rfl⟩,
    (round_trip messageEncode messageDecode messageCodec_inverse
      (afterWireCalls [Call.init goodHeap 3 7, Call.init goodHeap 4 7])
      (reachable_runCalls _ [Call.init goodHeap 3 7, Call.init goodHeap 4 7] _ _
        (Reachable.initial 0 pairWire) rfl)
      0 1 3 4 ⟨by decide, _, rfl, rfl⟩ ⟨by decide, _, rfl, rfl⟩ rfl rfl rfl).2
      { type := 1, string := [104, 101, 108, 108, 111] } { type := -1, string := [] }⟩

/-! ## First fit -/

/-- C21: in a reachable state, a registration that returns a descriptor other
than `-1` returns `0` when there is no table, and otherwise the smallest index
whose slot is free (socket `-1`); and when the arguments are acceptable, the
mutex is free and there is no table (with `calloc` succeeding) or some slot of
the table is free, the registration does return such a descriptor.  So a
descriptor released while others stay active is handed out next whenever it is
the lowest free index. -/
theorem register_first_fit {ω μ : Type} (lib : XdrLib ω μ) (p : Process ω)
    (hp : Reachable lib p) (heap : Heap) (s : Int) (f : Nat) :
    (∀ (r : Int) (q : Process ω),
      CMInitCommunicationWithSocketAndConverter lib heap p s f = Outcome.returns (r, q) →
      r ≠ -1 →
        (p.CMInternalData.CMCommunicationContexts = none → r = 0) ∧
        (∀ l, p.CMInternalData.CMCommunicationContexts = some l →
          ∃ (k : Nat) (c : CMCommunicationDescriptionContext),
            r = (k : Int) ∧ l[k]? = some c ∧ c.socket = -1 ∧
            ∀ (j : Nat) (c2 : CMCommunicationDescriptionContext),
              j < k → l[j]? = some c2 → c2.socket ≠ -1)) ∧
    (0 ≤ s → f ≠ 0 → p.CMInternalData.mutex = false →
      ((p.CMInternalData.CMCommunicationContexts = none ∧ heap.callocOk = true) ∨
        ∃ (l : List CMCommunicationDescriptionContext)
            (c : CMCommunicationDescriptionContext),
          p.CMInternalData.CMCommunicationContexts = some l ∧ c ∈ l ∧ c.socket = -1) →
      ∃ (r : Int) (q : Process ω),
        CMInitCommunicationWithSocketAndConverter lib heap p s f = Outcome.returns (r, q) ∧
          0 ≤ r) := by
  have hinv := reachable_inv lib p hp
  constructor
  · intro r q h hr
    rcases init_cases lib heap p s f hinv with
      ⟨_, h1⟩ | ⟨_, _, _, h1⟩ | ⟨_, _, _, _, h1⟩ |
      ⟨_, _, _, l, k, c, hl, hk, hlen, hc1, hc2, hall, h1⟩
    · rw [h1] at h
      cases h
      exact absurd rfl hr
    · rw [h1] at h
      cases h
    · rw [h1] at h
      cases h
      exact absurd rfl hr
    · rw [h1] at h
      cases h
      constructor
      · intro ht
        rcases hl with hl | ⟨_, _, hl⟩
        · rw [ht] at hl
          cases hl
        · subst hl
          have hk0 : k = 0 := by
            by_contra hne
            exact hall 0 { zeroContext with socket := -1 } (by omega) (by decide) rfl
          rw [hk0]
          rfl
      · intro l2 ht
        rcases hl with hl | ⟨hl, _, _⟩
        · rw [ht] at hl
          cases hl
          exact ⟨k, c, rfl, hc1, hc2, hall⟩
        · rw [ht] at hl
          cases hl
  · intro hs hf hm hfree
    rcases init_cases lib heap p s f hinv with
      ⟨hbad, _⟩ | ⟨_, _, hm2, _⟩ | ⟨_, _, _, hfail, _⟩ |
      ⟨_, _, _, l, k, c, _, _, _, _, _, _, h1⟩
    · exfalso
      rcases hbad with hbad | hbad
      · omega
      · exact hf hbad
    · rw [hm] at hm2
      cases hm2
    · exfalso
      rcases hfail with ⟨ht, hco⟩ | ⟨l, ht, hocc⟩
      · rcases hfree with ⟨_, hco2⟩ | ⟨l2, c, ht2, _, _⟩
        · rw [hco] at hco2
          cases hco2
        · rw [ht] at ht2
          cases ht2
      · rcases hfree with ⟨ht2, _⟩ | ⟨l2, c, ht2, hmem, hsock⟩
        · rw [ht] at ht2
          cases ht2
        · rw [ht] at ht2
          cases ht2
          obtain ⟨i, hi⟩ := List.mem_iff_getElem?.mp hmem
          exact hocc i c hi hsock
    · exact ⟨_, _, h1, by omega⟩

theorem register_first_fit_witness :
    Reachable quietXdr
        (afterCalls [Call.init goodHeap 3 7, Call.init goodHeap 4 7, Call.init goodHeap 5 7,
          Call.finish 1]) ∧
      CMInitCommunicationWithSocketAndConverter quietXdr goodHeap
          (afterCalls [Call.init goodHeap 3 7, Call.init goodHeap 4 7, Call.init goodHeap 5 7,
            Call.finish 1]) 6 7 =
        Outcome.returns (1,
          afterCalls [Call.init goodHeap 3 7, Call.init goodHeap 4 7, Call.init goodHeap 5 7,
            Call.finish 1, Call.init goodHeap 6 7]) ∧
      ∃ r q,
        CMInitCommunicationWithSocketAndConverter quietXdr goodHeap
            (afterCalls [Call.init goodHeap 3 7, Call.init goodHeap 4 7,
              Call.init goodHeap 5 7, Call.finish 1]) 6 7 = Outcome.returns (r, q) ∧
          0 ≤ r :=
  ⟨reachable_afterCalls _ rfl, rfl,
    (register_first_fit quietXdr
      (afterCalls [Call.init goodHeap 3 7, Call.init goodHeap 4 7, Call.init goodHeap 5 7,
        Call.finish 1])
      (reachable_afterCalls _ rfl) goodHeap 6 7).2 (by decide) (by decide) rfl
      (Or.inr ⟨_, ⟨-1, -1, 7, xdr_op.XDR_ENCODE⟩, rfl, by decide, rfl⟩)⟩

/-! ## The read and write glue -/

/-- C22 (amended): as a function of the raw `read()` result `r`, `readit`
returns `r` unchanged when `r` is not `0` (so a positive byte count comes back
as it is, and a read error `-1` comes back as `-1`), and returns `-1` when
`r = 0` (peer closed), which is the value it returns for a read error too.
`writeit` returns the raw `write()` result unchanged, short counts included. -/
theorem glue_results (r : Int) :
    (0 < r → readit r = r) ∧ (r ≠ 0 → readit r = r) ∧ readit 0 = -1 ∧ readit (-1) = -1 ∧
      writeit r = r := by
  refine ⟨?_, ?_, rfl, rfl, rfl⟩
  · intro h
    have : r ≠ 0 := by omega
    simp [readit, this]
  · intro h
    simp [readit, h]

theorem glue_results_witness :
    readit 512 = 512 ∧ readit 0 = -1 ∧ readit (-1) = -1 ∧ writeit 100 = 100 :=
  ⟨(glue_results 512).1 (by decide), (glue_results 512).2.2.1, (glue_results 512).2.2.2.1,
    (glue_results 100).2.2.2.2⟩

/-- C22, the claim as stated fails: the value `readit` returns when `read()`
returns `0` (peer closed) is `-1`, the same value it returns when `read()`
reports an error with `-1`. -/
theorem readit_eof_equals_error :
    readit 0 = -1 ∧ readit (-1) = -1 ∧ readit 0 = readit (-1) := by
  decide

/-! ## The mutex and the capacity bound -/

theorem send_mutex {ω μ : Type} (lib : XdrLib ω μ) (p : Process ω) (d : Int)
    (m : Option μ) (r : Int × Option μ × Process ω)
    (h : CMSendMessage lib p d m = Outcome.returns r) :
    r.2.2.CMInternalData.mutex = p.CMInternalData.mutex := by
  unfold CMSendMessage at h
  cases m with
  | none =>
    simp only at h
    cases h
    rfl
  | some m =>
    simp only at h
    by_cases hg : p.CMInternalData.capacity < UINT_MAX ∧
        toUnsigned d ≥ p.CMInternalData.capacity
    · rw [if_pos hg] at h
      cases h
      rfl
    · rw [if_neg hg] at h
      cases ht : p.CMInternalData.CMCommunicationContexts with
      | none =>
        simp only [ht] at h
        cases h
      | some l =>
        simp only [ht] at h
        cases hctx : contextAt (some l) d with
        | none =>
          simp only [hctx] at h
          cases h
        | some context =>
          simp only [hctx] at h
          split_ifs at h <;> cases h <;> rfl

theorem receive_mutex {ω μ : Type} (lib : XdrLib ω μ) (p : Process ω) (d : Int)
    (m : Option μ) (r : Int × Option μ × Process ω)
    (h : CMReceiveMessage lib p d m = Outcome.returns r) :
    r.2.2.CMInternalData.mutex = p.CMInternalData.mutex := by
  unfold CMReceiveMessage at h
  cases m with
  | none =>
    simp only at h
    cases h
    rfl
  | some m =>
    simp only at h
    by_cases hg : p.CMInternalData.capacity < UINT_MAX ∧
        toUnsigned d ≥ p.CMInternalData.capacity
    · rw [if_pos hg] at h
      cases h
      rfl
    · rw [if_neg hg] at h
      cases ht : p.CMInternalData.CMCommunicationContexts with
      | none =>
        simp only [ht] at h
        cases h
      | some l =>
        simp only [ht] at h
        cases hctx : contextAt (some l) d with
        | none =>
          simp only [hctx] at h
          cases h
        | some context =>
          simp only [hctx] at h
          split_ifs at h <;> cases h <;> rfl

/-- A free slot survives a change of the table that keeps sockets. -/
theorem lockInv_of_shape (d1 d2 : CMCommunicationInternalData) (hs : SameShape d1 d2)
    (hm : d2.mutex = d1.mutex) (h : LockInv d1) : LockInv d2 := by
  intro hm2
  rw [hm] at hm2
  obtain ⟨l0, c0, ht0, hmem, hfree⟩ := h hm2
  rcases hs with hs | ⟨l, k, c, c1, mu, ht, hk, hsock, _, hd2⟩
  · rw [hs]
    exact ⟨l0, c0, ht0, hmem, hfree⟩
  · rw [ht0] at ht
    cases ht
    obtain ⟨i, hi⟩ := List.mem_iff_getElem?.mp hmem
    by_cases hki : k = i
    · subst hki
      rw [hk] at hi
      cases hi
      refine ⟨_, c1, by rw [hd2], List.mem_set _ k (getElem?_lt_length _ k _ hk) _, ?_⟩
      rw [hsock]
      exact hfree
    · refine ⟨_, c0, by rw [hd2], List.mem_iff_getElem?.mpr ⟨i, ?_⟩, hfree⟩
      rw [List.getElem?_set_ne hki]
      exact hi

/-- Every call that returns keeps the lock condition. -/
theorem run_lockInv {ω μ : Type} (lib : XdrLib ω μ) (p : Process ω) (c : Call μ)
    (r : Int) (q : Process ω) (hinv : RegistryInv p.CMInternalData)
    (hlock : LockInv p.CMInternalData) (hrun : c.run lib p = Outcome.returns (r, q)) :
    LockInv q.CMInternalData := by
  cases c with
  | init heap s f =>
    rcases init_cases lib heap p s f hinv with
      ⟨_, h1⟩ | ⟨_, _, _, h1⟩ | ⟨_, _, _, _, h1⟩ |
      ⟨_, _, _, l, k, c, _, _, _, _, _, _, h1⟩
    · simp only [Call.run] at hrun
      rw [h1] at hrun
      cases hrun
      exact hlock
    · simp only [Call.run] at hrun
      rw [h1] at hrun
      cases hrun
    · simp only [Call.run] at hrun
      rw [h1] at hrun
      cases hrun
      exact hlock
    · simp only [Call.run] at hrun
      rw [h1] at hrun
      cases hrun
      intro hm
      cases hm
  | finish d =>
    simp only [Call.run] at hrun
    split at hrun
    · rename_i q0 hq
      cases hrun
      rcases finish_cases lib p d hinv with
        ⟨_, h1⟩ | ⟨_, _, h1⟩ | ⟨_, _, _, h1⟩ | ⟨_, _, l, k, c, ht, hk, _, hc1, hne, h1⟩ |
        ⟨_, _, l, k, c, _, _, _, _, _, ⟨_, h1⟩ | ⟨_, h1⟩⟩
      · rw [h1] at hq
        cases hq
        exact hlock
      · rw [h1] at hq
        cases hq
      · rw [h1] at hq
        cases hq
      · rw [h1] at hq
        cases hq
        intro _
        rcases hinv with ⟨ht0, _, _⟩ | ⟨l0, ht0, _, _, hok, _⟩
        · rw [ht0] at ht
          cases ht
        · have hl : l0 = l := by
            rw [ht0] at ht
            exact Option.some.inj ht
          rw [hl] at hok
          rcases hok k c hc1 with ⟨hfree, _⟩ | ⟨_, hdesc, _⟩
          · exact ⟨l, c, ht, List.mem_iff_getElem?.mpr ⟨k, hc1⟩, hfree⟩
          · exact absurd (by rw [hdesc, hk]) hne
      · rw [h1] at hq
        cases hq
        intro hm
        cases hm
      · rw [h1] at hq
        cases hq
        intro hm
        cases hm
    · cases hrun
    · cases hrun
  | send d m =>
    simp only [Call.run] at hrun
    split at hrun
    · rename_i r0 hr
      cases hrun
      exact lockInv_of_shape _ _ (send_shape lib p d m r0 hr) (send_mutex lib p d m r0 hr) hlock
    · cases hrun
    · cases hrun
  | receive d m =>
    simp only [Call.run] at hrun
    split at hrun
    · rename_i r0 hr
      cases hrun
      exact lockInv_of_shape _ _ (receive_shape lib p d m r0 hr)
        (receive_mutex lib p d m r0 hr) hlock
    · cases hrun
    · cases hrun
  | setConverter d f =>
    simp only [Call.run] at hrun
    split at hrun
    · rename_i q0 hq
      cases hrun
      unfold CMSetConverterF at hq
      split_ifs at hq with h1 h2 h3
      · cases hq
        exact hlock
      · cases hq
        exact hlock
      · split at hq
        · cases hq
        · split at hq
          · cases hq
          · cases hq
            intro hm
            cases hm
    · cases hrun
    · cases hrun
  | getConverter d =>
    simp only [Call.run] at hrun
    unfold CMGetConverterF at hrun
    split_ifs at hrun
    · cases hrun
      exact hlock
    · split at hrun
      · rename_i r0 hr
        split at hr
        · cases hr
        · cases hr
          cases hrun
          exact hlock
      · cases hrun
      · cases hrun

/-- In every reachable state, while the mutex is held some slot is free. -/
theorem reachable_lockInv {ω μ : Type} (lib : XdrLib ω μ) (p : Process ω)
    (h : Reachable lib p) : LockInv p.CMInternalData := by
  induction h with
  | initial e w =>
    intro hm
    cases hm
  | call p c r q hp hrun ih =>
    exact run_lockInv lib p c r q (reachable_inv lib p hp) ih hrun


theorem sixteenRegistered_reachable : Reachable quietXdr sixteenRegistered :=
  reachable_afterCalls _ rfl

/-- Pairwise different valid descriptors are at most sixteen. -/
theorem valid_list_bound {ω : Type} (p : Process ω) (hinv : RegistryInv p.CMInternalData)
    (ds : List Int) (hnd : ds.Nodup) (hall : ∀ d ∈ ds, Valid p d) : ds.length ≤ 16 := by
  have hsub : ds.toFinset ⊆ Finset.Ico (0 : Int) 16 := by
    intro d hd
    rw [List.mem_toFinset] at hd
    rw [Finset.mem_Ico]
    exact valid_range p d hinv (hall d hd)
  have hcard := Finset.card_le_card hsub
  rw [List.toFinset_card_of_nodup hnd, Int.card_Ico] at hcard
  simpa using hcard

/-- Sixteen pairwise different valid descriptors are all of `0..15`. -/
theorem valid_all_of_sixteen {ω : Type} (p : Process ω)
    (hinv : RegistryInv p.CMInternalData) (ds : List Int) (hnd : ds.Nodup)
    (hall : ∀ d ∈ ds, Valid p d) (hlen : ds.length = 16) (i : Nat) (hi : i < 16) :
    Valid p (i : Int) := by
  have hsub : ds.toFinset ⊆ Finset.Ico (0 : Int) 16 := by
    intro d hd
    rw [List.mem_toFinset] at hd
    rw [Finset.mem_Ico]
    exact valid_range p d hinv (hall d hd)
  have hle : (Finset.Ico (0 : Int) 16).card ≤ ds.toFinset.card := by
    rw [List.toFinset_card_of_nodup hnd, Int.card_Ico, hlen]
    simp
  have heq := Finset.eq_of_subset_of_card_le hsub hle
  have hmem : (i : Int) ∈ ds.toFinset := by
    rw [heq, Finset.mem_Ico]
    omega
  exact hall _ (List.mem_toFinset.mp hmem)

/-- With all of `0..15` valid the table has no free slot. -/
theorem no_free_of_all_valid {ω : Type} (p : Process ω)
    (hinv : RegistryInv p.CMInternalData) (hall : ∀ i : Nat, i < 16 → Valid p (i : Int))
    (l : List CMCommunicationDescriptionContext)
    (ht : p.CMInternalData.CMCommunicationContexts = some l) (k : Nat)
    (c : CMCommunicationDescriptionContext) (hk : l[k]? = some c) : c.socket ≠ -1 := by
  have hlen := (inv_capacity p l hinv ht).2
  have hk16 : k < 16 := by
    have := getElem?_lt_length l k c hk
    omega
  obtain ⟨k2, c2, hk2, _, hc2, _, hs2⟩ := (valid_iff p l ht _).mp (hall k hk16)
  have hkk : k2 = k := by omega
  rw [hkk, hk] at hc2
  cases hc2
  exact hs2

/-- C23: in every state reachable from the initial state, whatever the XDR
library does: the capacity is 0 or 16; every valid descriptor lies in `0..15`,
so pairwise different valid descriptors are at most sixteen; when sixteen
pairwise different descriptors are valid, a registration with a socket `≥ 0`
and a non-null converter returns `-1` and leaves the state as it was except
for `errno = ENOMEM`; every registration that returns gives `-1` or a
descriptor in `0..15`, and none is undefined; and the growth block of lines
95-104, run on the table and capacity the registration works on, either refuses
(`ENOMEM`) or leaves table and capacity alone, so the slot initialisation never
runs after a growth, with an index outside the table. -/
theorem capacity_bound {ω μ : Type} (lib : XdrLib ω μ) (p : Process ω)
    (hp : Reachable lib p) :
    (p.CMInternalData.capacity = 0 ∨ p.CMInternalData.capacity = 16) ∧
    (∀ d, Valid p d → 0 ≤ d ∧ d < 16) ∧
    (∀ ds : List Int, ds.Nodup → (∀ d ∈ ds, Valid p d) → ds.length ≤ 16) ∧
    (∀ ds : List Int, ds.Nodup → (∀ d ∈ ds, Valid p d) → ds.length = 16 →
      ∀ (heap : Heap) (s : Int) (f : Nat), 0 ≤ s → f ≠ 0 →
        CMInitCommunicationWithSocketAndConverter lib heap p s f =
          Outcome.returns (-1, { p with errno := ENOMEM })) ∧
    (∀ (heap : Heap) (s : Int) (f : Nat) (r : Int) (q : Process ω),
      CMInitCommunicationWithSocketAndConverter lib heap p s f = Outcome.returns (r, q) →
        r = -1 ∨ (0 ≤ r ∧ r < 16)) ∧
    (∀ (heap : Heap) (s : Int) (f : Nat),
      CMInitCommunicationWithSocketAndConverter lib heap p s f ≠ Outcome.undefined) ∧
    (∀ (heap : Heap) (l : List CMCommunicationDescriptionContext) (cap index : Nat),
      initialTable heap p.CMInternalData = some (l, cap) →
        growTable heap l cap index = Outcome.returns none ∨
          growTable heap l cap index = Outcome.returns (some (l, cap))) := by
  have hinv := reachable_inv lib p hp
  have hlock := reachable_lockInv lib p hp
  refine ⟨?_, fun d hv => valid_range p d hinv hv,
    fun ds hnd hall => valid_list_bound p hinv ds hnd hall, ?_, ?_, ?_, ?_⟩
  · rcases hinv with ⟨_, hc, _⟩ | ⟨l, _, hc, _⟩
    · exact Or.inl hc
    · exact Or.inr hc
  · intro ds hnd hall hlen heap s f hs hf
    have hv := valid_all_of_sixteen p hinv ds hnd hall hlen
    rcases init_cases lib heap p s f hinv with
      ⟨h0, _⟩ | ⟨_, _, hm, _⟩ | ⟨_, _, _, _, h1⟩ |
      ⟨_, _, _, l, k, c, ht, hk, _, hc, hfree, _, _⟩
    · rcases h0 with h0 | h0
      · omega
      · exact absurd h0 hf
    · obtain ⟨l, c, ht, hmem, hfree⟩ := hlock hm
      obtain ⟨i, hi⟩ := List.mem_iff_getElem?.mp hmem
      exact absurd hfree (no_free_of_all_valid p hinv hv l ht i c hi)
    · exact h1
    · rcases ht with ht | ⟨ht, _, _⟩
      · exact absurd hfree (no_free_of_all_valid p hinv hv l ht k c hc)
      · exact absurd (hv 0 (by omega)) (not_valid_of_none p ht _)
  · intro heap s f r q h
    rcases init_cases lib heap p s f hinv with
      ⟨_, h1⟩ | ⟨_, _, _, h1⟩ | ⟨_, _, _, _, h1⟩ |
      ⟨_, _, _, l, k, c, _, hk, _, _, _, _, h1⟩
    · rw [h1] at h
      cases h
      exact Or.inl rfl
    · rw [h1] at h
      cases h
    · rw [h1] at h
      cases h
      exact Or.inl rfl
    · rw [h1] at h
      cases h
      exact Or.inr ⟨by omega, by omega⟩
  · intro heap s f h
    rcases init_cases lib heap p s f hinv with
      ⟨_, h1⟩ | ⟨_, _, _, h1⟩ | ⟨_, _, _, _, h1⟩ |
      ⟨_, _, _, l, k, c, _, _, _, _, _, _, h1⟩ <;>
    · rw [h1] at h
      cases h
  · intro heap l cap index hit
    have hcap : cap = 16 := by
      unfold initialTable at hit
      cases ht : p.CMInternalData.CMCommunicationContexts with
      | none =>
        rw [ht] at hit
        simp only at hit
        split_ifs at hit
        cases hit
        rfl
      | some l0 =>
        rw [ht] at hit
        simp only [Option.some.injEq, Prod.mk.injEq] at hit
        rw [← hit.2]
        exact (inv_capacity p l0 hinv ht).1
    subst hcap
    unfold growTable
    by_cases hge : index ≥ 16
    · left
      rw [if_pos hge, if_pos (by decide)]
    · right
      rw [if_neg hge]

theorem capacity_bound_witness :
    Reachable quietXdr sixteenRegistered ∧
      sixteenRegistered.CMInternalData.capacity = 16 ∧
      (List.range 16).map Int.ofNat =
        [0, 1, 2, 3, 4, 5, 6, 7, 8, 9, 10, 11, 12, 13, 14, 15] ∧
      (∀ d ∈ (List.range 16).map Int.ofNat, Valid sixteenRegistered d) ∧
      CMInitCommunicationWithSocketAndConverter quietXdr goodHeap sixteenRegistered 19 7 =
        Outcome.returns (-1, { sixteenRegistered with errno := ENOMEM }) :=
  ⟨sixteenRegistered_reachable, by decide, by decide, by decide,
    (capacity_bound quietXdr sixteenRegistered sixteenRegistered_reachable).2.2.2.1
      ((List.range 16).map Int.ofNat) (by decide) (by decide) (by decide) goodHeap 19 7
      (by decide) (by decide)⟩


/-! ## Lock discipline -/

/-- C24, evaluated at Release of an in-range descriptor whose slot it does not
own: after one registration the mutex is free and descriptor `5` is below the
capacity 16 while its slot carries descriptor field `0`.
`CMFinishCommunicationWithCommunicationDescriptor 5` returns with the mutex
held, and every later Register, Release, SetCodec and GetCodec on a valid
descriptor blocks on it.  The failing registrations, by contrast, return with
the mutex free: with a failing allocator on the initial state, and on the full
table. -/
theorem release_unowned_slot_keeps_lock :
    (afterCalls [Call.init goodHeap 3 7]).CMInternalData.mutex = false ∧
    toUnsigned 5 < (afterCalls [Call.init goodHeap 3 7]).CMInternalData.capacity ∧
    (∃ c, contextAt (afterCalls [Call.init goodHeap 3 7]).CMInternalData.CMCommunicationContexts
        5 = some c ∧ c.communicationDescriptor ≠ 5) ∧
    (∃ q, CMFinishCommunicationWithCommunicationDescriptor quietXdr
        (afterCalls [Call.init goodHeap 3 7]) 5 = Outcome.returns q ∧
      q = afterCalls [Call.init goodHeap 3 7, Call.finish 5] ∧
      q.CMInternalData.mutex = true) ∧
    Valid (afterCalls [Call.init goodHeap 3 7, Call.finish 5]) 0 ∧
    CMInitCommunicationWithSocketAndConverter quietXdr goodHeap
        (afterCalls [Call.init goodHeap 3 7, Call.finish 5]) 4 7 = Outcome.blocked ∧
    CMFinishCommunicationWithCommunicationDescriptor quietXdr
        (afterCalls [Call.init goodHeap 3 7, Call.finish 5]) 0 = Outcome.blocked ∧
    CMSetConverterF (afterCalls [Call.init goodHeap 3 7, Call.finish 5]) 0 9 =
      Outcome.blocked ∧
    CMGetConverterF (afterCalls [Call.init goodHeap 3 7, Call.finish 5]) 0 =
      Outcome.blocked ∧
    CMInitCommunicationWithSocketAndConverter quietXdr badHeap (Process.initial 0 ()) 3 7 =
      Outcome.returns (-1, { Process.initial 0 () with errno := ENOMEM }) ∧
    (Process.initial 0 ()).CMInternalData.mutex = false ∧
    CMInitCommunicationWithSocketAndConverter quietXdr goodHeap sixteenRegistered 19 7 =
      Outcome.returns (-1, { sixteenRegistered with errno := ENOMEM }) ∧
    sixteenRegistered.CMInternalData.mutex = false := by
  refine ⟨by decide, by decide, ⟨_, rfl, by decide⟩, ⟨_, rfl, rfl, by decide⟩, by decide,
    rfl, rfl, rfl, rfl, rfl, by decide, rfl, by decide⟩

end Communication
